import Mathlib

/-!
rbtree-c: a shallow embedding of `rbtree.h`.

The C program keeps its nodes in malloc'ed storage and links them with raw
pointers.  The embedding makes the store explicit:

* a pointer `rb_node_p` is `Option Nat` (`none` is `NULL`, `some a` is the
  address `a`);
* the store `rb_mem` is a list of cells, cell `a` holding the node that lives
  at address `a` (`none` once it has been freed); `malloc` hands out the next
  unused address;
* every C function becomes a function from the store (and the tree handle) to
  `Except Fault` of the new store: reading through `NULL`, through a freed or
  never allocated address, or failing the `assert` of `_rb_rotate`, is a
  `Fault`; a loop that does not stop within its step budget is
  `Fault.diverges`.
-/

namespace RBTreeC

/-- What stops a run of the C code short of returning. -/
inductive Fault where
  | null_deref
  | dangling
  | assert_failed
  | diverges
  deriving DecidableEq, Repr

/-- A node pointer: `none` is `NULL`. -/
abbrev rb_node_p := Option Nat

/-- A cell of type `struct rb_node_s`; `childs[0]` and `childs[1]` are the
fields `childs0` and `childs1`, the payload behind `data` is stored in place. -/
structure rb_node_s (α : Type) where
  p : rb_node_p
  childs0 : rb_node_p
  childs1 : rb_node_p
  size : Nat
  is_red : Bool
  data : α
  deriving DecidableEq, Repr

/-- The store: cell `a` is the node at address `a`, `none` after `free`. -/
abbrev rb_mem (α : Type) := List (Option (rb_node_s α))

/-- A value of type `rb_tree_t`. -/
structure rb_tree_s (α : Type) where
  root : rb_node_p
  lt : α → α → Bool

/-- The width of `size_t`. -/
def SIZE_MOD : Nat := 2 ^ 64

/-- Read `n->childs[dir]`. -/
def rb_node_s.childs {α : Type} (n : rb_node_s α) (dir : Bool) : rb_node_p :=
  if dir then n.childs1 else n.childs0

/-- Write `n->childs[dir] = c`. -/
def rb_node_s.setChild {α : Type} (n : rb_node_s α) (dir : Bool) (c : rb_node_p) :
    rb_node_s α :=
  if dir then { n with childs1 := c } else { n with childs0 := c }

/-- Read the node a pointer refers to (`*ptr`). -/
def deref {α : Type} (mem : rb_mem α) (ptr : rb_node_p) : Except Fault (rb_node_s α) :=
  match ptr with
  | none => .error .null_deref
  | some a =>
    match mem[a]? with
    | some (some n) => .ok n
    | _ => .error .dangling

/-- Overwrite the node at a live address. -/
def store {α : Type} (mem : rb_mem α) (a : Nat) (n : rb_node_s α) : rb_mem α :=
  mem.set a (some n)

/-- Apply a field update through a pointer (`ptr->field = ...`). -/
def update {α : Type} (mem : rb_mem α) (ptr : rb_node_p)
    (f : rb_node_s α → rb_node_s α) : Except Fault (rb_mem α) :=
  match ptr with
  | none => .error .null_deref
  | some a =>
    match mem[a]? with
    | some (some n) => .ok (store mem a (f n))
    | _ => .error .dangling

/-- The call `malloc(sizeof(rb_node_t))` followed by the initialising writes:
the new node gets the next unused address. -/
def alloc {α : Type} (mem : rb_mem α) (n : rb_node_s α) : rb_mem α × Nat :=
  (mem ++ [some n], mem.length)

/-- The call `free(n)`. -/
def release {α : Type} (mem : rb_mem α) (ptr : rb_node_p) : Except Fault (rb_mem α) :=
  match ptr with
  | none => .ok mem
  | some a =>
    match mem[a]? with
    | some (some _) => .ok (mem.set a none)
    | _ => .error .dangling

/-- The step budget of a loop that follows links of the store: a walk over
more cells than the store has must visit one of them twice. -/
def budget {α : Type} (mem : rb_mem α) : Nat := mem.length + 1

/-- The C function `rb_create`: `tree.root = NULL; tree.lt = lt`. -/
def rb_create {α : Type} (lt : α → α → Bool) : rb_tree_s α :=
  { root := none, lt := lt }

/-- The C function `_rb_child_dir(n)`: `n == n->p->childs[1]`. -/
def _rb_child_dir {α : Type} (mem : rb_mem α) (n : rb_node_p) : Except Fault Bool := do
  let nn ← deref mem n
  let pn ← deref mem nn.p
  pure (decide (n = pn.childs1))

/-- The C function `_rb_rotate(root, dir)`, `root` pointing to a local variable
of the caller (as at every call in the file): the result carries the new store
and the value left in `*root`. -/
def _rb_rotate {α : Type} (mem : rb_mem α) (root : rb_node_p) (dir : Bool) :
    Except Fault (rb_mem α × rb_node_p) := do
  let r := root
  let rn ← deref mem r
  let parent := rn.p
  let new_root := rn.childs (!dir)
  if new_root = none then .error .assert_failed else
  -- new_root->size = r->size;
  let mem ← update mem new_root (fun x => { x with size := rn.size })
  -- r->size = r->childs[dir]->size + new_root->childs[dir]->size + 1;
  let rn ← deref mem r
  let a ← deref mem (rn.childs dir)
  let nrn ← deref mem new_root
  let b ← deref mem (nrn.childs dir)
  let mem ← update mem r (fun x => { x with size := (a.size + b.size + 1) % SIZE_MOD })
  -- auto child = new_root->childs[dir]; if (child) child->p = r;
  let nrn ← deref mem new_root
  let child := nrn.childs dir
  let mem ← if child = none then pure mem else update mem child (fun x => { x with p := r })
  -- r->childs[!dir] = child; new_root->childs[dir] = r;
  let mem ← update mem r (fun x => x.setChild (!dir) child)
  let mem ← update mem new_root (fun x => x.setChild dir r)
  -- r->p = new_root; new_root->p = parent;
  let mem ← update mem r (fun x => { x with p := new_root })
  let mem ← update mem new_root (fun x => { x with p := parent })
  -- if (parent) parent->childs[_rb_child_dir(r)] = new_root;
  let mem ← if parent = none then pure mem else do
    let d ← _rb_child_dir mem r
    update mem parent (fun x => x.setChild d new_root)
  -- *root = new_root;
  pure (mem, new_root)

/-- The loop of `_rb_insert_fixup`; `parent` and `n` are the caller's two
local variables `*parent` and `*n`. -/
def _rb_insert_fixup_loop {α : Type} :
    Nat → rb_mem α → rb_node_p → rb_node_p → Except Fault (rb_mem α × rb_node_p × rb_node_p)
  | 0, _, _, _ => .error .diverges
  | fuel + 1, mem, parent, n =>
    -- while (*parent && (*parent)->is_red)
    if parent = none then .ok (mem, parent, n) else do
    let pn ← deref mem parent
    if !pn.is_red then .ok (mem, parent, n) else
    let p_dir ← _rb_child_dir mem parent
    let grand := pn.p
    let gn ← deref mem grand
    let uncle := gn.childs (!p_dir)
    let uncle_red ← if uncle = none then pure false else do
      let un ← deref mem uncle
      pure un.is_red
    if uncle_red then do
      -- (*parent)->is_red = uncle->is_red = false; grand->is_red = true; (*n) = grand;
      let mem ← update mem uncle (fun x => { x with is_red := false })
      let mem ← update mem parent (fun x => { x with is_red := false })
      let mem ← update mem grand (fun x => { x with is_red := true })
      _rb_insert_fixup_loop fuel mem parent grand
    else do
      let n_dir ← _rb_child_dir mem n
      let (mem, parent, n) ←
        if n_dir != p_dir then do
          let (mem, parent1) ← _rb_rotate mem parent p_dir
          -- auto tmp = *parent; (*parent) = *n; (*n) = tmp;
          pure (mem, n, parent1)
        else pure (mem, parent, n)
      let mem ← update mem parent (fun x => { x with is_red := false })
      let mem ← update mem grand (fun x => { x with is_red := true })
      let (mem, _) ← _rb_rotate mem grand (!p_dir)
      _rb_insert_fixup_loop fuel mem parent n

/-- The C function `_rb_insert_fixup(tree, parent, n, dir)`: the loop, then
`tree->root->is_red = false`.  The result carries the final `*parent` and `*n`. -/
def _rb_insert_fixup {α : Type} (mem : rb_mem α) (tree : rb_tree_s α)
    (parent n : rb_node_p) (_dir : Bool) :
    Except Fault (rb_mem α × rb_node_p × rb_node_p) := do
  let (mem, parent, n) ← _rb_insert_fixup_loop (budget mem) mem parent n
  let mem ← update mem tree.root (fun x => { x with is_red := false })
  pure (mem, parent, n)

/-- The descent of `_rb_insert`: `while (cur) { parent = cur; dir = lt(data,
cur->data); cur = cur->childs[dir]; }`, returning the final `parent` and `dir`. -/
def _rb_insert_descend {α : Type} (lt : α → α → Bool) (data : α) (mem : rb_mem α) :
    Nat → rb_node_p → rb_node_p → Bool → Except Fault (rb_node_p × Bool)
  | 0, _, _, _ => .error .diverges
  | fuel + 1, cur, parent, dir =>
    if cur = none then .ok (parent, dir) else do
    let cn ← deref mem cur
    let dir := lt data cn.data
    _rb_insert_descend lt data mem fuel (cn.childs dir) cur dir

/-- The loop `while (now) now->size++, now = now->p;` of `_rb_insert`. -/
def _rb_insert_grow {α : Type} : Nat → rb_mem α → rb_node_p → Except Fault (rb_mem α)
  | 0, _, _ => .error .diverges
  | fuel + 1, mem, now =>
    if now = none then .ok mem else do
    let nn ← deref mem now
    let mem ← update mem now (fun x => { x with size := (x.size + 1) % SIZE_MOD })
    _rb_insert_grow fuel mem nn.p

/-- The C function `_rb_insert(tree, data, data_size)`: the result carries the
new store, the tree handle and the returned node pointer. -/
def _rb_insert {α : Type} (mem : rb_mem α) (tree : rb_tree_s α) (data : α) :
    Except Fault (rb_mem α × rb_tree_s α × rb_node_p) := do
  -- the new node: p = childs[0] = childs[1] = NULL, size = 1, a copy of the data;
  -- is_red is left unset by the C code and written below before it is ever read
  let (mem, a) := alloc mem
    { p := none, childs0 := none, childs1 := none, size := 1, is_red := false, data := data }
  let n : rb_node_p := some a
  let (parent, dir) ← _rb_insert_descend tree.lt data mem (budget mem) tree.root none false
  -- n->is_red = true;
  let mem ← update mem n (fun x => { x with is_red := true })
  if parent = none then
    -- tree->root = n; return n;
    .ok (mem, { tree with root := n }, n)
  else do
  -- parent->childs[dir] = n; parent->size += 1; n->p = parent;
  let mem ← update mem parent (fun x => x.setChild dir n)
  let mem ← update mem parent (fun x => { x with size := (x.size + 1) % SIZE_MOD })
  let mem ← update mem n (fun x => { x with p := parent })
  let mem ← _rb_insert_grow (budget mem) mem parent
  let (mem, _, n) ← _rb_insert_fixup mem tree parent n dir
  .ok (mem, tree, n)

/-- The loop `while (now) now->size--, now = now->p;` of `rb_erase_fixup`. -/
def rb_erase_shrink {α : Type} : Nat → rb_mem α → rb_node_p → Except Fault (rb_mem α)
  | 0, _, _ => .error .diverges
  | fuel + 1, mem, now =>
    if now = none then .ok mem else do
    let nn ← deref mem now
    let mem ← update mem now (fun x => { x with size := (x.size + SIZE_MOD - 1) % SIZE_MOD })
    rb_erase_shrink fuel mem nn.p

/-- The `while (parent && !(*x)->is_red)` loop of `rb_erase_fixup`, with the
locals `parent`, `*x` and `dir`; `root` is `tree->root`, which the loop only
reads.  The result carries the new store and the final `*x`. -/
def rb_erase_fixup_loop {α : Type} (root : rb_node_p) :
    Nat → rb_mem α → rb_node_p → rb_node_p → Bool → Except Fault (rb_mem α × rb_node_p)
  | 0, _, _, _, _ => .error .diverges
  | fuel + 1, mem, parent, x, dir =>
    if parent = none then .ok (mem, x) else do
    let xn ← deref mem x
    if xn.is_red then .ok (mem, x) else
    -- sib = parent->childs[!dir];
    let pn ← deref mem parent
    let sib := pn.childs (!dir)
    let sn ← deref mem sib
    let (mem, parent, sib) ←
      if sn.is_red then do
        let mem ← update mem sib (fun y => { y with is_red := false })
        let mem ← update mem parent (fun y => { y with is_red := true })
        let (mem, parent) ← _rb_rotate mem parent dir
        let pn ← deref mem parent
        pure (mem, parent, pn.childs (!dir))
      else pure (mem, parent, sib)
    -- auto child = sib->childs[dir], dir_child = sib->childs[!dir];
    let sn ← deref mem sib
    let child := sn.childs dir
    let dir_child := sn.childs (!dir)
    -- if (!child->is_red && !dir_child->is_red)
    let cn ← deref mem child
    let both_black ← if cn.is_red then pure false else do
      let dn ← deref mem dir_child
      pure (!dn.is_red)
    let (mem, x) ←
      if both_black then do
        -- sib->is_red = true; (*x) = parent; goto end_fixup;
        let mem ← update mem sib (fun y => { y with is_red := true })
        pure (mem, parent)
      else do
        let dn ← deref mem dir_child
        let (mem, sib, dir_child) ←
          if !dn.is_red then do
            let mem ← update mem child (fun y => { y with is_red := false })
            let mem ← update mem sib (fun y => { y with is_red := true })
            let (mem, _) ← _rb_rotate mem sib (!dir)
            let pn ← deref mem parent
            let sib := pn.childs (!dir)
            let sn ← deref mem sib
            pure (mem, sib, sn.childs (!dir))
          else pure (mem, sib, dir_child)
        -- sib->is_red = parent->is_red; parent->is_red = dir_child->is_red = false;
        let pn ← deref mem parent
        let mem ← update mem sib (fun y => { y with is_red := pn.is_red })
        let mem ← update mem dir_child (fun y => { y with is_red := false })
        let mem ← update mem parent (fun y => { y with is_red := false })
        let (mem, _) ← _rb_rotate mem parent dir
        -- (*x) = tree->root;
        pure (mem, root)
    -- end_fixup: parent = (*x)->p; if (!parent) break; dir = _rb_child_dir(*x);
    let xn ← deref mem x
    let parent := xn.p
    if parent = none then .ok (mem, x) else do
    let dir ← _rb_child_dir mem x
    rb_erase_fixup_loop root fuel mem parent x dir

/-- The C function `rb_erase_fixup(tree, x)`, `x` pointing to the caller's local
`n`: the result carries the new store, the tree handle and the final `*x`. -/
def rb_erase_fixup {α : Type} (mem : rb_mem α) (tree : rb_tree_s α) (x : rb_node_p) :
    Except Fault (rb_mem α × rb_tree_s α × rb_node_p) := do
  let dir ← if x = tree.root then pure false else _rb_child_dir mem x
  -- remove branch or leaf
  let xn ← deref mem x
  let parent := xn.p
  let s := if xn.childs0 = none then xn.childs1 else xn.childs0
  let mem ← if s = none then pure mem else update mem s (fun y => { y with p := parent })
  let (mem, tree) ←
    if parent = none then
      -- tree->root = s; goto start_fixup;
      pure (mem, { tree with root := s })
    else do
      let mem ← update mem parent (fun y => y.setChild dir s)
      let mem ← rb_erase_shrink (budget mem) mem parent
      pure (mem, tree)
  -- start_fixup:
  let xn ← deref mem x
  let parent := xn.p
  if parent = none then
    if tree.root = none then .ok (mem, tree, x) else do
    let mem ← update mem tree.root (fun y => { y with is_red := false })
    .ok (mem, tree, x)
  else do
  let pn ← deref mem parent
  let sib := pn.childs dir
  if sib ≠ none then do
    let mem ← update mem sib (fun y => { y with is_red := false })
    .ok (mem, tree, x)
  else do
  let (mem, x) ← rb_erase_fixup_loop tree.root (budget mem) mem parent x dir
  let mem ← update mem x (fun y => { y with is_red := false })
  .ok (mem, tree, x)

/-- The successor search of `rb_erase`: `while (succ->childs[0]) succ =
succ->childs[0];`. -/
def rb_erase_succ {α : Type} (mem : rb_mem α) : Nat → rb_node_p → Except Fault rb_node_p
  | 0, _ => .error .diverges
  | fuel + 1, succ => do
    let sn ← deref mem succ
    if sn.childs0 = none then .ok succ else rb_erase_succ mem fuel sn.childs0

/-- The C function `rb_erase(tree, n)`: the result carries the new store and the
tree handle. -/
def rb_erase {α : Type} (mem : rb_mem α) (tree : rb_tree_s α) (n : rb_node_p) :
    Except Fault (rb_mem α × rb_tree_s α) :=
  if n = none then .ok (mem, tree) else do
  let nn ← deref mem n
  let (mem, n) ←
    if nn.childs0 ≠ none ∧ nn.childs1 ≠ none then do
      -- find successor
      let succ ← rb_erase_succ mem (budget mem) nn.childs1
      -- swap data
      let sn ← deref mem succ
      let mem ← update mem n (fun y => { y with data := sn.data })
      let mem ← update mem succ (fun y => { y with data := nn.data })
      pure (mem, succ)
    else pure (mem, n)
  let (mem, tree, n) ← rb_erase_fixup mem tree n
  -- free(n->data); free(n);
  let mem ← release mem n
  .ok (mem, tree)

/-- The comparator `int_lt` of `main.c`. -/
def int_lt (a b : Int) : Bool := decide (a < b)

/-! ## Reading a tree out of the store

The claims speak about the tree as a whole (its shape, colours, sizes and
traversals).  `Tree` is the picture of the nodes reachable from a pointer, and
`reify` reads it out of the store, checking on the way that every child's `p`
points back to the node it hangs from. -/

/-- The picture of a (sub)tree of the store: `node a t0 size is_red data t1`
is the node at address `a` with the pictures `t0` of `childs[0]` and `t1` of
`childs[1]`. -/
inductive Tree (α : Type) where
  | nil : Tree α
  | node (addr : Nat) (t0 : Tree α) (size : Nat) (is_red : Bool) (data : α) (t1 : Tree α) : Tree α
  deriving DecidableEq, Repr

/-- The pointer to the root of a picture. -/
def Tree.ptr {α : Type} : Tree α → rb_node_p
  | .nil => none
  | .node a _ _ _ _ _ => some a

/-- The addresses of the nodes of a picture. -/
def Tree.addrs {α : Type} : Tree α → List Nat
  | .nil => []
  | .node a t0 _ _ _ t1 => a :: (t0.addrs ++ t1.addrs)

/-- The number of levels of a picture. -/
def Tree.height {α : Type} : Tree α → Nat
  | .nil => 0
  | .node _ t0 _ _ _ t1 => max t0.height t1.height + 1

/-- The payloads read `childs[0]`, then the node, then `childs[1]`. -/
def Tree.toList0 {α : Type} : Tree α → List α
  | .nil => []
  | .node _ t0 _ _ d t1 => t0.toList0 ++ d :: t1.toList0

/-- The payloads read `childs[1]`, then the node, then `childs[0]`. -/
def Tree.toList1 {α : Type} : Tree α → List α
  | .nil => []
  | .node _ t0 _ _ d t1 => t1.toList1 ++ d :: t0.toList1

/-- The colour of the root of a picture; an absent node is not red. -/
def Tree.red {α : Type} : Tree α → Bool
  | .nil => false
  | .node _ _ _ r _ _ => r

/-- The `size` field of the root of a picture; an absent node counts 0. -/
def Tree.sz {α : Type} : Tree α → Nat
  | .nil => 0
  | .node _ _ s _ _ _ => s

/-- Invariant 1: the root, if present, is black. -/
def Tree.root_black {α : Type} (t : Tree α) : Bool := !t.red

/-- Invariant 2: no red node has a red child. -/
def Tree.no_red_red {α : Type} : Tree α → Bool
  | .nil => true
  | .node _ t0 _ r _ t1 => !(r && (t0.red || t1.red)) && t0.no_red_red && t1.no_red_red

/-- The number of black nodes on every path from the root of the picture to
an absent child, when all these paths agree. -/
def Tree.black_height {α : Type} : Tree α → Option Nat
  | .nil => some 0
  | .node _ t0 _ r _ t1 =>
    match t0.black_height, t1.black_height with
    | some h0, some h1 => if h0 = h1 then some (if r then h0 else h0 + 1) else none
    | _, _ => none

/-- Invariant 3: every path from the root to an absent child crosses the same
number of black nodes. -/
def Tree.balanced {α : Type} (t : Tree α) : Bool := t.black_height.isSome

/-- The size invariant: every node has `size == 1 + size(childs[0]) +
size(childs[1])`. -/
def Tree.sizes_ok {α : Type} : Tree α → Bool
  | .nil => true
  | .node _ t0 s _ _ t1 => decide (s = 1 + t0.sz + t1.sz) && t0.sizes_ok && t1.sizes_ok

/-- A sequence is non-decreasing under `lt`: no element is followed by one
that is `lt`-smaller. -/
def nondecreasing {α : Type} (lt : α → α → Bool) (l : List α) : Prop :=
  l.Pairwise (fun x y => lt y x = false)

instance {α : Type} (lt : α → α → Bool) (l : List α) : Decidable (nondecreasing lt l) := by
  unfold nondecreasing; infer_instance

/-- Read the picture of the tree hanging from `ptr`, whose root must have
parent link `parent`; `none` when a link leaves the store, a parent link is
not the way back, or the walk does not end within `fuel` levels. -/
def reify {α : Type} (mem : rb_mem α) : Nat → rb_node_p → rb_node_p → Option (Tree α)
  | 0, _, _ => none
  | fuel + 1, ptr, parent =>
    match ptr with
    | none => some .nil
    | some a =>
      match mem[a]? with
      | some (some n) =>
        if n.p = parent then
          match reify mem fuel n.childs0 ptr, reify mem fuel n.childs1 ptr with
          | some t0, some t1 => some (.node a t0 n.size n.is_red n.data t1)
          | _, _ => none
        else none
      | _ => none

/-- The picture of the whole tree below `root`. -/
def picture {α : Type} (mem : rb_mem α) (root : rb_node_p) : Option (Tree α) :=
  reify mem (budget mem) root none

/-- The tree below `root` is well formed, with picture `t`: child and parent
links are mutually consistent, the root has no parent, and no node is reached
twice. -/
def well_formed {α : Type} (mem : rb_mem α) (root : rb_node_p) (t : Tree α) : Prop :=
  picture mem root = some t ∧ t.addrs.Nodup

instance {α : Type} [DecidableEq α] (mem : rb_mem α) (root : rb_node_p) (t : Tree α) :
    Decidable (well_formed mem root t) := by
  unfold well_formed; infer_instance

/-- The red-black colouring invariants 1 to 3. -/
def Tree.red_black {α : Type} (t : Tree α) : Bool :=
  t.root_black && t.no_red_red && t.balanced


/-! ## Harness for sequences of operations -/

/-- Insert the values one after the other into the tree, collecting the
returned handles in order. -/
def insert_all {α : Type} (mem : rb_mem α) (tree : rb_tree_s α) :
    List α → Except Fault (rb_mem α × rb_tree_s α × List rb_node_p)
  | [] => .ok (mem, tree, [])
  | v :: vs => do
    let (mem, tree, h) ← _rb_insert mem tree v
    let (mem, tree, hs) ← insert_all mem tree vs
    .ok (mem, tree, h :: hs)

/-- Erase the handles one after the other. -/
def erase_all {α : Type} (mem : rb_mem α) (tree : rb_tree_s α) :
    List rb_node_p → Except Fault (rb_mem α × rb_tree_s α)
  | [] => .ok (mem, tree)
  | h :: hs => do
    let (mem, tree) ← rb_erase mem tree h
    erase_all mem tree hs

/-- Insert `values` into a new empty tree, then erase the returned handles in
the order `order` (positions in the list of handles). -/
def round_trip {α : Type} (lt : α → α → Bool) (values : List α) (order : List Nat) :
    Except Fault (rb_mem α × rb_tree_s α) := do
  let (mem, tree, hs) ← insert_all [] (rb_create lt) values
  erase_all mem tree (order.map (fun i => hs[i]?.join))

/-! ## Concrete stores used as inputs -/

/-- A store holding one black node with payload `a`, at address 0. -/
def one_black {α : Type} (a : α) : rb_mem α :=
  [some ⟨none, none, none, 1, false, a⟩]

/-- A black root `b` at address 0 with two red leaves: `c0` at address 1 in
`childs[0]` and `c1` at address 2 in `childs[1]`. -/
def red_leaves {α : Type} (c0 b c1 : α) : rb_mem α :=
  [some ⟨none, some 1, some 2, 3, false, b⟩,
   some ⟨some 0, none, none, 1, true, c0⟩,
   some ⟨some 0, none, none, 1, true, c1⟩]

/-- A black root `b` at address 0 with two black leaves: `c0` at address 1 in
`childs[0]` and `c1` at address 2 in `childs[1]`. -/
def black_leaves {α : Type} (c0 b c1 : α) : rb_mem α :=
  [some ⟨none, some 1, some 2, 3, false, b⟩,
   some ⟨some 0, none, none, 1, false, c0⟩,
   some ⟨some 0, none, none, 1, false, c1⟩]

/-- A red-black tree of seven nodes: black root 50 (address 0) with the black
leaf 60 in `childs[0]` and the red node 30 in `childs[1]`; 30 has the black
leaf 40 in `childs[0]` and the black node 20 in `childs[1]`; 20 has the red
leaves 25 in `childs[0]` and 10 in `childs[1]`. -/
def seven_nodes : rb_mem Int :=
  [some ⟨none, some 2, some 1, 7, false, 50⟩,
   some ⟨some 0, some 4, some 3, 5, true, 30⟩,
   some ⟨some 0, none, none, 1, false, 60⟩,
   some ⟨some 1, some 6, some 5, 3, false, 20⟩,
   some ⟨some 1, none, none, 1, false, 40⟩,
   some ⟨some 3, none, none, 1, true, 10⟩,
   some ⟨some 3, none, none, 1, true, 25⟩]

/-- A well formed tree that is not red-black: black root 10 (address 0) with
the black leaf 15 in `childs[0]` and the red node 5 in `childs[1]`, which has
the black leaf 7 in `childs[0]` and nothing in `childs[1]`. -/
def lopsided : rb_mem Int :=
  [some ⟨none, some 2, some 1, 4, false, 10⟩,
   some ⟨some 0, some 3, none, 2, true, 5⟩,
   some ⟨some 0, none, none, 1, false, 15⟩,
   some ⟨some 1, none, none, 1, false, 7⟩]

/-! ## Notions used to state and prove the behaviour of insertion -/

/-- A strict weak ordering: irreflexive, transitive, and with a transitive
incomparability. -/
structure strict_weak {α : Type} (lt : α → α → Bool) : Prop where
  irrefl : ∀ a, lt a a = false
  trans : ∀ a b c, lt a b = true → lt b c = true → lt a c = true
  incomp : ∀ a b c, lt a b = false → lt b a = false → lt b c = false → lt c b = false →
    lt a c = false ∧ lt c a = false

/-- The store `mem` holds the picture `t` below a node whose parent link is
`parent`: every node of `t` is the cell at its address, with the links the
picture shows. -/
def realizes {α : Type} (mem : rb_mem α) : Tree α → rb_node_p → Prop
  | .nil, _ => True
  | .node a t0 s r d t1, parent =>
    mem[a]? = some (some ⟨parent, t0.ptr, t1.ptr, s, r, d⟩) ∧
      realizes mem t0 (some a) ∧ realizes mem t1 (some a)

/-- The picture after hanging a new red leaf with payload `v`, at address
`a`, where the descent of `_rb_insert` ends: in `childs[1]` when `lt v d`, in
`childs[0]` otherwise. -/
def Tree.attach {α : Type} (lt : α → α → Bool) (v : α) (a : Nat) : Tree α → Tree α
  | .nil => .node a .nil 1 true v .nil
  | .node b t0 s r d t1 =>
    if lt v d then .node b t0 s r d (t1.attach lt v a) else .node b (t0.attach lt v a) s r d t1

/-- The values of `parent` and `dir` with which the descent of `_rb_insert`
ends on a picture, entered with the given values. -/
def Tree.attach_parent {α : Type} (lt : α → α → Bool) (v : α) :
    Tree α → rb_node_p → Bool → rb_node_p × Bool
  | .nil, parent, dir => (parent, dir)
  | .node b t0 _ _ d t1, _, _ =>
    if lt v d then t1.attach_parent lt v (some b) true else t0.attach_parent lt v (some b) false

/-- The insertion of `v` meets no rotation: the picture is empty, or the node
under which the descent hangs `v` is black, or it is red and has a red sibling
(`sibling_red` tells whether the root of the picture has one; for the root of
the whole tree it is `false`).  The last two are the ways through
`_rb_insert_fixup` that do not call `_rb_rotate`. -/
def Tree.calm {α : Type} (lt : α → α → Bool) (v : α) : Bool → Tree α → Bool
  | _, .nil => true
  | sibling_red, .node _ t0 _ r d t1 =>
    if lt v d then
      if t1.ptr = none then !r || sibling_red else Tree.calm lt v t0.red t1
    else
      if t0.ptr = none then !r || sibling_red else Tree.calm lt v t1.red t0

/-- Forget the `size` field of a node, and its colour unless `colours`. -/
def rb_node_s.blur {α : Type} (colours : Bool) (n : rb_node_s α) : rb_node_s α :=
  { n with size := 0, is_red := colours && n.is_red }

/-- Forget the sizes (and the colours unless `colours`) of a store. -/
def blur {α : Type} (colours : Bool) (mem : rb_mem α) : rb_mem α :=
  mem.map (Option.map (rb_node_s.blur colours))

/-- Forget the sizes (and the colours unless `colours`) of a picture. -/
def Tree.blur {α : Type} (colours : Bool) : Tree α → Tree α
  | .nil => .nil
  | .node a t0 _ r d t1 => .node a (t0.blur colours) 0 (colours && r) d (t1.blur colours)

/-- Following the `p` links from `ptr` reaches `NULL` after exactly `k` nodes. -/
def chain {α : Type} (mem : rb_mem α) : Nat → rb_node_p → Prop
  | 0, ptr => ptr = none
  | k + 1, ptr => ∃ a n, ptr = some a ∧ mem[a]? = some (some n) ∧ chain mem k n.p

/-! ## Stores used as inputs of `_rb_rotate` -/

/-- A black node `b` at address 0 whose only child is the red leaf `c1` at
address 1, in `childs[1]`. -/
def one_child {α : Type} (b c1 : α) : rb_mem α :=
  [some ⟨none, none, some 1, 2, false, b⟩,
   some ⟨some 0, none, none, 1, true, c1⟩]

/-- A black node `b` at address 0 with the leaves `c0` (address 1) in
`childs[0]` and `c1` (address 2) in `childs[1]`, all sizes right. -/
def two_leaves {α : Type} (c0 b c1 : α) : rb_mem α :=
  [some ⟨none, some 1, some 2, 3, false, b⟩,
   some ⟨some 0, none, none, 1, false, c0⟩,
   some ⟨some 0, none, none, 1, false, c1⟩]

/-- A well formed tree of six nodes with all sizes right: the root 50
(address 0) has the node 30 (address 1) in `childs[0]` and the leaf 60
(address 2) in `childs[1]`; 30 has the node 20 (address 3) in `childs[0]` and
the leaf 40 (address 4) in `childs[1]`; 20 has the leaf 25 (address 5) in
`childs[1]`. -/
def six_nodes : rb_mem Int :=
  [some ⟨none, some 1, some 2, 6, false, 50⟩,
   some ⟨some 0, some 3, some 4, 4, false, 30⟩,
   some ⟨some 0, none, none, 1, false, 60⟩,
   some ⟨some 1, none, some 5, 2, false, 20⟩,
   some ⟨some 1, none, none, 1, false, 40⟩,
   some ⟨some 3, none, none, 1, false, 25⟩]

/-! ## Programs that only use the three entry points -/

/-- The states (store and tree handle) of a program that starts with no node
allocated, calls `rb_create` once, and then only calls `_rb_insert` and
`rb_erase` on that tree, with any values and any node pointers, each call
returning before the next one is made. -/
inductive reachable {α : Type} (lt : α → α → Bool) : rb_mem α → rb_tree_s α → Prop where
  | create : reachable lt [] (rb_create lt)
  | insert (mem : rb_mem α) (tree : rb_tree_s α) (v : α) (mem1 : rb_mem α)
      (tree1 : rb_tree_s α) (h : rb_node_p) :
      reachable lt mem tree → _rb_insert mem tree v = .ok (mem1, tree1, h) →
      reachable lt mem1 tree1
  | erase (mem : rb_mem α) (tree : rb_tree_s α) (n : rb_node_p) (mem1 : rb_mem α)
      (tree1 : rb_tree_s α) :
      reachable lt mem tree → rb_erase mem tree n = .ok (mem1, tree1) →
      reachable lt mem1 tree1

/-- The store holds no live node except possibly at `root`, where it holds a
red node without links. -/
def lone_root {α : Type} (mem : rb_mem α) (root : rb_node_p) : Prop :=
  match root with
  | none => ∀ a : Nat, mem[a]? = none ∨ mem[a]? = some none
  | some r =>
    (∃ v : α, mem[r]? = some (some ⟨none, none, none, 1, true, v⟩)) ∧
      ∀ a : Nat, a ≠ r → (mem[a]? = none ∨ mem[a]? = some none)

/-! ## The rotation on pictures -/

/-- The picture below `childs[dir]` of the root of a picture. -/
def Tree.child {α : Type} (dir : Bool) : Tree α → Tree α
  | .nil => .nil
  | .node _ t0 _ _ _ t1 => if dir then t1 else t0

/-- What `_rb_rotate` makes of the picture below `r` when it completes: the
child opposite `dir` is promoted, `r` becomes its child on side `dir` and takes
over the displaced grandchild; the promoted node gets the size of `r`, and `r`
the sum of the sizes of its two new children plus one. -/
def Tree.rotate {α : Type} (dir : Bool) : Tree α → Tree α
  | .nil => .nil
  | .node r t0 s c d t1 =>
    if dir then
      match t0 with
      | .nil => .node r t0 s c d t1
      | .node n u0 _ cn dn u1 =>
        .node n u0 s cn dn (.node r u1 ((t1.sz + u1.sz + 1) % SIZE_MOD) c d t1)
    else
      match t1 with
      | .nil => .node r t0 s c d t1
      | .node n u0 _ cn dn u1 =>
        .node n (.node r t0 ((t0.sz + u0.sz + 1) % SIZE_MOD) c d u0) s cn dn u1

/-! ## The store after an insertion, up to sizes and colours -/

/-- The store `mem` with a new red leaf holding `v` appended at the next
unused address and, when `parent` is a live node, written into
`childs[dir]` of that node; nothing else is changed. -/
def linked {α : Type} (mem : rb_mem α) (parent : rb_node_p) (dir : Bool) (v : α) : rb_mem α :=
  (match parent with
    | none => mem
    | some pa =>
      match mem[pa]? with
      | some (some pn) => mem.set pa (some (pn.setChild dir (some mem.length)))
      | _ => mem) ++ [some ⟨parent, none, none, 1, true, v⟩]


/-! ## Erasure on pictures -/

/-- The picture below the node at address `a`. -/
def Tree.sub {α : Type} (a : Nat) : Tree α → Tree α
  | .nil => .nil
  | .node b t0 s r d t1 =>
    if b = a then .node b t0 s r d t1 else if a ∈ t0.addrs then t0.sub a else t1.sub a

/-- The picture below the node at which the successor search of `rb_erase`
ends when started on the root of the picture: the first node on the way
through `childs[0]` links that has no `childs[0]`. -/
def Tree.first {α : Type} : Tree α → Tree α
  | .nil => .nil
  | .node b t0 s r d t1 => if t0.ptr = none then .node b t0 s r d t1 else t0.first

/-- The picture below the node that `rb_erase(tree, n)` unlinks: `n` itself,
or the node the successor search finds below `childs[1]` of `n` when `n` has
two children. -/
def Tree.unlinked {α : Type} (n : Nat) (t : Tree α) : Tree α :=
  if ((t.sub n).child false).ptr ≠ none ∧ ((t.sub n).child true).ptr ≠ none then
    ((t.sub n).child true).first
  else t.sub n

/-- The picture with the payload of the node at address `a` replaced by `d`. -/
def Tree.setData {α : Type} (a : Nat) (d : α) : Tree α → Tree α
  | .nil => .nil
  | .node b t0 s r e t1 =>
    .node b (t0.setData a d) s r (if b = a then d else e) (t1.setData a d)

/-- The picture with its root coloured black. -/
def Tree.blacken {α : Type} : Tree α → Tree α
  | .nil => .nil
  | .node b t0 s _ d t1 => .node b t0 s false d t1

/-- The decrement `size--` of a `size_t`: it wraps around at 0. -/
def dec_size : Nat → Nat
  | 0 => SIZE_MOD - 1
  | s + 1 => s % SIZE_MOD

/-- The picture after the node at address `x` is unlinked the way
`rb_erase_fixup` does it when it does not enter its loop: the child of `x`
(`childs[0]` if present, else `childs[1]`) takes the place of `x` and is
coloured black, and the size of every node above `x` is decremented. -/
def Tree.remove {α : Type} (x : Nat) : Tree α → Tree α
  | .nil => .nil
  | .node b t0 s r d t1 =>
    if b = x then (if t0.ptr = none then t1 else t0).blacken
    else if x ∈ t0.addrs then .node b (t0.remove x) (dec_size s) r d t1
    else if x ∈ t1.addrs then .node b t0 (dec_size s) r d (t1.remove x)
    else .node b t0 s r d t1

/-- The picture after `rb_erase(tree, n)` in the cases without rotation: when
the node to unlink is not `n` the payloads of the two are exchanged first. -/
def Tree.erase {α : Type} (n : Nat) (t : Tree α) : Tree α :=
  match t.sub n, t.unlinked n with
  | .node _ _ _ _ dn _, .node x _ _ _ dx _ =>
    if x = n then t.remove x else ((t.setData n dx).setData x dn).remove x
  | _, _ => t

/-- The payloads of a picture with the addresses of their nodes, read
`childs[0]`, node, `childs[1]`, or in the opposite direction when `rev`. -/
def Tree.entries {α : Type} (rev : Bool) : Tree α → List (Nat × α)
  | .nil => []
  | .node b t0 _ _ d t1 =>
    if rev then t1.entries rev ++ (b, d) :: t0.entries rev
    else t0.entries rev ++ (b, d) :: t1.entries rev

/-! ## Pictures with a hole

The place of a node in a picture is given by the nodes above it, innermost
first: each with the side on which the way down continues and the picture
below its other side. -/

/-- A node above a place in a picture: its address and fields, the side `dir`
on which the place lies, and the picture `other` below `childs[!dir]`. -/
structure Frame (α : Type) where
  addr : Nat
  dir : Bool
  size : Nat
  is_red : Bool
  data : α
  other : Tree α

/-- Put a picture below a frame. -/
def Frame.wrap {α : Type} (f : Frame α) (u : Tree α) : Tree α :=
  if f.dir then .node f.addr f.other f.size f.is_red f.data u
  else .node f.addr u f.size f.is_red f.data f.other

/-- Put a picture into the place given by the frames (innermost first). -/
def plug {α : Type} : List (Frame α) → Tree α → Tree α
  | [], u => u
  | f :: fs, u => plug fs (f.wrap u)

/-- The parent link of the node at the place given by the frames, below a
picture whose root has parent link `top`. -/
def up {α : Type} (fs : List (Frame α)) (top : rb_node_p) : rb_node_p :=
  match fs with
  | [] => top
  | f :: _ => some f.addr

/-- The addresses of the frames and of the pictures beside the way. -/
def ctx_addrs {α : Type} : List (Frame α) → List Nat
  | [] => []
  | f :: fs => f.addr :: (f.other.addrs ++ ctx_addrs fs)

/-- The store holds the frames around a place whose node is `c`: every frame
is the cell at its address, with `c` (or the frame below) on side `dir` and
the picture `other` on the other side. -/
def ctx {α : Type} (mem : rb_mem α) : List (Frame α) → rb_node_p → rb_node_p → Prop
  | [], _, _ => True
  | f :: fs, c, top =>
    mem[f.addr]? = some (some ⟨up fs top, if f.dir then f.other.ptr else c,
        if f.dir then c else f.other.ptr, f.size, f.is_red, f.data⟩) ∧
      realizes mem f.other (some f.addr) ∧ ctx mem fs (some f.addr) top

/-- The frame with its size decremented. -/
def Frame.shrink {α : Type} (f : Frame α) : Frame α :=
  { f with size := dec_size f.size }

/-- The picture of the tree in `seven_nodes`. -/
def seven_picture : Tree Int :=
  .node 0 (.node 2 .nil 1 false 60 .nil) 7 false 50
    (.node 1 (.node 4 .nil 1 false 40 .nil) 5 true 30
      (.node 3 (.node 6 .nil 1 true 25 .nil) 3 false 20 (.node 5 .nil 1 true 10 .nil)))
/-! # Theorems -/

/-! ## The store -/

theorem deref_some {α : Type} {mem : rb_mem α} {a : Nat} {n : rb_node_s α}
    (h : mem[a]? = some (some n)) : deref mem (some a) = .ok n := by
  simp only [deref, h]

theorem deref_ok_iff {α : Type} (mem : rb_mem α) (ptr : rb_node_p) (n : rb_node_s α) :
    deref mem ptr = .ok n ↔ ∃ a, ptr = some a ∧ mem[a]? = some (some n) := by
  cases ptr with
  | none => simp [deref]
  | some a =>
    simp only [deref]
    split
    · next m h =>
      constructor
      · intro h1; cases h1; exact ⟨a, rfl, h⟩
      · rintro ⟨b, hb, hn⟩
        cases hb
        rw [h] at hn
        cases hn
        rfl
    · next h =>
      constructor
      · intro h1; cases h1
      · rintro ⟨b, hb, hn⟩
        cases hb
        exact absurd hn (h n)

theorem update_some {α : Type} {mem : rb_mem α} {a : Nat} {n : rb_node_s α}
    (h : mem[a]? = some (some n)) (f : rb_node_s α → rb_node_s α) :
    update mem (some a) f = .ok (mem.set a (some (f n))) := by
  simp only [update, h, store]

theorem lt_length_of_getElem? {β : Type} {l : List β} {a : Nat} {x : β} (h : l[a]? = some x) :
    a < l.length := by
  by_contra hc
  rw [List.getElem?_eq_none (by omega)] at h
  cases h

/-! ## Pictures and what the store holds -/

theorem ptr_node {α : Type} (a : Nat) (t0 : Tree α) (s : Nat) (r : Bool) (d : α) (t1 : Tree α) :
    (Tree.node a t0 s r d t1).ptr = some a := rfl

theorem reify_sound {α : Type} (mem : rb_mem α) :
    ∀ (fuel : Nat) (ptr parent : rb_node_p) (t : Tree α),
      reify mem fuel ptr parent = some t → t.ptr = ptr ∧ realizes mem t parent := by
  intro fuel
  induction fuel with
  | zero => intro ptr parent t h; simp [reify] at h
  | succ fuel ih =>
    intro ptr parent t h
    cases ptr with
    | none =>
      simp only [reify, Option.some.injEq] at h
      subst h
      exact ⟨rfl, trivial⟩
    | some a =>
      simp only [reify] at h
      split at h
      · next n hn =>
        split at h
        · next hp =>
          split at h
          · next t0 t1 h0 h1 =>
            simp only [Option.some.injEq] at h
            subst h
            obtain ⟨p0, r0⟩ := ih _ _ _ h0
            obtain ⟨p1, r1⟩ := ih _ _ _ h1
            refine ⟨rfl, ?_, r0, r1⟩
            rw [hn, p0, p1, ← hp]
          · cases h
        · cases h
      · cases h

theorem reify_complete {α : Type} (mem : rb_mem α) :
    ∀ (t : Tree α) (parent : rb_node_p) (fuel : Nat),
      realizes mem t parent → t.height < fuel → reify mem fuel t.ptr parent = some t := by
  intro t
  induction t with
  | nil =>
    intro parent fuel _ hf
    cases fuel with
    | zero => cases hf
    | succ fuel => rfl
  | node a t0 s r d t1 ih0 ih1 =>
    intro parent fuel hr hf
    cases fuel with
    | zero => cases hf
    | succ fuel =>
      obtain ⟨hc, r0, r1⟩ := hr
      simp only [Tree.height] at hf
      have h0 := ih0 (some a) fuel r0 (by omega)
      have h1 := ih1 (some a) fuel r1 (by omega)
      rw [ptr_node]
      simp only [reify, hc, if_true]
      rw [h0, h1]

theorem height_le_length {α : Type} (t : Tree α) : t.height ≤ t.addrs.length := by
  induction t with
  | nil => simp [Tree.height, Tree.addrs]
  | node a t0 s r d t1 ih0 ih1 =>
    simp only [Tree.height, Tree.addrs, List.length_cons, List.length_append]
    omega

theorem realizes_addrs_lt {α : Type} (mem : rb_mem α) (t : Tree α) :
    ∀ parent, realizes mem t parent → ∀ a ∈ t.addrs, a < mem.length := by
  induction t with
  | nil => intro _ _ a ha; simp [Tree.addrs] at ha
  | node b t0 s r d t1 ih0 ih1 =>
    intro parent hr a ha
    obtain ⟨hc, r0, r1⟩ := hr
    simp only [Tree.addrs, List.mem_cons, List.mem_append] at ha
    rcases ha with rfl | ha | ha
    · exact lt_length_of_getElem? hc
    · exact ih0 _ r0 a ha
    · exact ih1 _ r1 a ha

theorem length_le_of_nodup_lt (l : List Nat) (n : Nat) (hd : l.Nodup) (hb : ∀ a ∈ l, a < n) :
    l.length ≤ n := by
  have h := (List.subperm_of_subset hd (fun a ha => List.mem_range.2 (hb a ha))).length_le
  simpa using h

/-- The picture of a well formed tree is held by the store, starts at the
root, and is lower than the step budget. -/
theorem well_formed_realizes {α : Type} {mem : rb_mem α} {root : rb_node_p} {t : Tree α}
    (h : well_formed mem root t) : t.ptr = root ∧ realizes mem t none := 
  reify_sound mem _ _ _ _ h.1

theorem realizes_well_formed {α : Type} {mem : rb_mem α} {t : Tree α}
    (hr : realizes mem t none) (hd : t.addrs.Nodup) : well_formed mem t.ptr t := by
  refine ⟨reify_complete mem t none _ hr ?_, hd⟩
  have h1 := height_le_length t
  have h2 := length_le_of_nodup_lt _ _ hd (realizes_addrs_lt mem t none hr)
  simp only [budget]
  omega

theorem realizes_frame {α : Type} (mem mem1 : rb_mem α) (t : Tree α) :
    ∀ parent, realizes mem t parent → (∀ a ∈ t.addrs, mem1[a]? = mem[a]?) →
      realizes mem1 t parent := by
  induction t with
  | nil => intro _ _ _; trivial
  | node b t0 s r d t1 ih0 ih1 =>
    intro parent hr hf
    obtain ⟨hc, r0, r1⟩ := hr
    refine ⟨?_, ih0 _ r0 ?_, ih1 _ r1 ?_⟩
    · rw [hf b (by simp [Tree.addrs])]; exact hc
    · intro a ha; exact hf a (by simp [Tree.addrs, ha])
    · intro a ha; exact hf a (by simp [Tree.addrs, ha])

/-! ## Forgetting sizes and colours -/

theorem blur_ptr {α : Type} (c : Bool) (t : Tree α) : (t.blur c).ptr = t.ptr := by
  cases t <;> rfl

theorem blur_addrs {α : Type} (c : Bool) (t : Tree α) : (t.blur c).addrs = t.addrs := by
  induction t with
  | nil => rfl
  | node a t0 s r d t1 ih0 ih1 => simp only [Tree.blur, Tree.addrs, ih0, ih1]

theorem blur_toList1 {α : Type} (c : Bool) (t : Tree α) : (t.blur c).toList1 = t.toList1 := by
  induction t with
  | nil => rfl
  | node a t0 s r d t1 ih0 ih1 => simp only [Tree.blur, Tree.toList1, ih0, ih1]

theorem blur_toList0 {α : Type} (c : Bool) (t : Tree α) : (t.blur c).toList0 = t.toList0 := by
  induction t with
  | nil => rfl
  | node a t0 s r d t1 ih0 ih1 => simp only [Tree.blur, Tree.toList0, ih0, ih1]

theorem blur_getElem? {α : Type} (c : Bool) (mem : rb_mem α) (a : Nat) :
    (blur c mem)[a]? = (mem[a]?).map (Option.map (rb_node_s.blur c)) := by
  simp [blur]

theorem blur_length {α : Type} (c : Bool) (mem : rb_mem α) : (blur c mem).length = mem.length := by
  simp [blur]

theorem length_eq_of_blur_eq {α : Type} {c : Bool} {mem mem1 : rb_mem α}
    (h : blur c mem1 = blur c mem) : mem1.length = mem.length := by
  have := congrArg List.length h
  simpa [blur_length] using this

theorem blur_set {α : Type} (c : Bool) (mem : rb_mem α) (a : Nat) (n m : rb_node_s α)
    (h : mem[a]? = some (some n)) (hb : m.blur c = n.blur c) :
    blur c (mem.set a (some m)) = blur c mem := by
  apply List.ext_getElem?
  intro i
  simp only [blur_getElem?, List.getElem?_set]
  by_cases hi : a = i
  · subst hi
    have hl := lt_length_of_getElem? h
    simp [hl, h, hb]
  · simp [hi]

theorem blur_weaken {α : Type} {mem mem1 : rb_mem α} (h : blur true mem1 = blur true mem) :
    blur false mem1 = blur false mem := by
  have e : ∀ m : rb_mem α, blur false m = blur false (blur true m) := by
    intro m
    simp only [blur, List.map_map]
    congr 1
    funext o
    cases o <;> rfl
  rw [e mem1, e mem, h]

theorem realizes_blur {α : Type} (c : Bool) (mem : rb_mem α) (t : Tree α) :
    ∀ parent, realizes mem t parent → realizes (blur c mem) (t.blur c) parent := by
  induction t with
  | nil => intro _ _; trivial
  | node b t0 s r d t1 ih0 ih1 =>
    intro parent hr
    obtain ⟨hc, r0, r1⟩ := hr
    refine ⟨?_, ih0 _ r0, ih1 _ r1⟩
    rw [blur_getElem?, hc, blur_ptr, blur_ptr]
    rfl

theorem realizes_unblur {α : Type} (c : Bool) (mem : rb_mem α) (s : Tree α) :
    ∀ parent, realizes (blur c mem) s parent →
      ∃ t, realizes mem t parent ∧ t.blur c = s := by
  induction s with
  | nil => intro _ _; exact ⟨.nil, trivial, rfl⟩
  | node b s0 z r d s1 ih0 ih1 =>
    intro parent hr
    obtain ⟨hc, r0, r1⟩ := hr
    obtain ⟨t0, q0, e0⟩ := ih0 _ r0
    obtain ⟨t1, q1, e1⟩ := ih1 _ r1
    rw [blur_getElem?] at hc
    cases hm : mem[b]? with
    | none => rw [hm] at hc; cases hc
    | some o =>
      cases o with
      | none => rw [hm] at hc; cases hc
      | some n =>
        rw [hm] at hc
        simp only [Option.map_some', Option.some.injEq, rb_node_s.blur, rb_node_s.mk.injEq] at hc
        obtain ⟨hp, h0, h1, hz, hcol, hd⟩ := hc
        refine ⟨.node b t0 n.size n.is_red n.data t1, ⟨?_, q0, q1⟩, ?_⟩
        · rw [hm, ← hp, ← blur_ptr c t0, ← blur_ptr c t1, e0, e1, ← h0, ← h1]
        · simp only [Tree.blur, e0, e1, hcol, hd, hz]

/-! ## The descent of `_rb_insert` -/

theorem descend_eq {α : Type} (lt : α → α → Bool) (v : α) (mem : rb_mem α) :
    ∀ (t : Tree α) (parent : rb_node_p) (dir : Bool) (fuel : Nat),
      realizes mem t parent → t.height < fuel →
      _rb_insert_descend lt v mem fuel t.ptr parent dir = .ok (t.attach_parent lt v parent dir) := by
  intro t
  induction t with
  | nil =>
    intro parent dir fuel _ hf
    cases fuel with
    | zero => cases hf
    | succ fuel => rfl
  | node b t0 s r d t1 ih0 ih1 =>
    intro parent dir fuel hr hf
    cases fuel with
    | zero => cases hf
    | succ fuel =>
      obtain ⟨hc, r0, r1⟩ := hr
      simp only [Tree.height] at hf
      rw [ptr_node]
      simp only [_rb_insert_descend, deref_some hc, bind, Except.bind, Tree.attach_parent]
      cases hd : lt v d
      · simpa [rb_node_s.childs] using ih0 (some b) false fuel r0 (by omega)
      · simpa [rb_node_s.childs] using ih1 (some b) true fuel r1 (by omega)

theorem attach_parent_nil {α : Type} (lt : α → α → Bool) (v : α) (parent : rb_node_p)
    (dir : Bool) : (Tree.nil : Tree α).attach_parent lt v parent dir = (parent, dir) := rfl

/-- On a picture that is not empty the descent ends under one of its nodes;
the side it ends on is the outcome of the last comparison. -/
theorem attach_parent_mem {α : Type} (lt : α → α → Bool) (v : α) (t : Tree α) :
    ∀ (parent : rb_node_p) (dir : Bool), t ≠ .nil →
      ∃ pa, (t.attach_parent lt v parent dir).1 = some pa ∧ pa ∈ t.addrs := by
  induction t with
  | nil => intro _ _ h; exact absurd rfl h
  | node b t0 s r d t1 ih0 ih1 =>
    intro parent dir _
    simp only [Tree.attach_parent]
    cases hd : lt v d
    · simp only [Bool.false_eq_true, if_false]
      cases h0 : t0 with
      | nil => exact ⟨b, rfl, by simp [Tree.addrs]⟩
      | node b0 u0 s0 r0 d0 u1 =>
        obtain ⟨pa, e, hm⟩ := ih0 (some b) false (by rw [h0]; exact Tree.noConfusion)
        rw [h0] at e hm
        exact ⟨pa, e, by simp only [Tree.addrs, List.mem_cons, List.mem_append] at hm ⊢; tauto⟩
    · simp only [if_true]
      cases h1 : t1 with
      | nil => exact ⟨b, rfl, by simp [Tree.addrs]⟩
      | node b0 u0 s0 r0 d0 u1 =>
        obtain ⟨pa, e, hm⟩ := ih1 (some b) true (by rw [h1]; exact Tree.noConfusion)
        rw [h1] at e hm
        exact ⟨pa, e, by simp only [Tree.addrs, List.mem_cons, List.mem_append] at hm ⊢; tauto⟩

theorem attach_ptr {α : Type} (lt : α → α → Bool) (v : α) (a : Nat) (t : Tree α)
    (h : t ≠ .nil) : (t.attach lt v a).ptr = t.ptr := by
  cases t with
  | nil => exact absurd rfl h
  | node b t0 s r d t1 =>
    simp only [Tree.attach]
    split <;> rfl

theorem attach_addrs {α : Type} (lt : α → α → Bool) (v : α) (a : Nat) (t : Tree α) :
    (t.attach lt v a).addrs.Perm (a :: t.addrs) := by
  induction t with
  | nil => exact List.Perm.refl _
  | node b t0 s r d t1 ih0 ih1 =>
    simp only [Tree.attach]
    split
    · simp only [Tree.addrs]
      have h := (List.Perm.append_left t0.addrs ih1).cons b
      refine h.trans ?_
      refine (List.Perm.cons b List.perm_middle).trans ?_
      exact List.Perm.swap a b _
    · simp only [Tree.addrs]
      have h := (List.Perm.append_right t1.addrs ih0).cons b
      refine h.trans ?_
      exact List.Perm.swap a b _

theorem realizes_cell {α : Type} (mem : rb_mem α) (t : Tree α) :
    ∀ parent, realizes mem t parent → ∀ a ∈ t.addrs, ∃ n, mem[a]? = some (some n) := by
  induction t with
  | nil => intro _ _ a ha; simp [Tree.addrs] at ha
  | node b t0 s r d t1 ih0 ih1 =>
    intro parent hr a ha
    obtain ⟨hc, r0, r1⟩ := hr
    simp only [Tree.addrs, List.mem_cons, List.mem_append] at ha
    rcases ha with rfl | ha | ha
    · exact ⟨_, hc⟩
    · exact ih0 _ r0 a ha
    · exact ih1 _ r1 a ha

/-- The store with the new leaf linked in: the cell of the parent `pa` gets
the new address in `childs[dir]`, and the cell of the new node is appended. -/
theorem attach_realizes {α : Type} (lt : α → α → Bool) (v : α) (mem : rb_mem α) (t : Tree α) :
    ∀ (parent : rb_node_p) (dir0 : Bool), realizes mem t parent → t.addrs.Nodup →
      ∀ (pa : Nat) (dir : Bool) (pn : rb_node_s α),
        t.attach_parent lt v parent dir0 = (some pa, dir) → mem[pa]? = some (some pn) →
        realizes (mem.set pa (some (pn.setChild dir (some mem.length)))
            ++ [some ⟨some pa, none, none, 1, true, v⟩])
          (t.attach lt v mem.length) parent := by
  induction t with
  | nil =>
    intro parent dir0 _ _ pa dir pn hap hpn
    simp only [attach_parent_nil, Prod.mk.injEq] at hap
    obtain ⟨rfl, rfl⟩ := hap
    refine ⟨?_, trivial, trivial⟩
    simp [Tree.ptr]
  | node b t0 s r d t1 ih0 ih1 =>
    intro parent dir0 hr hnd pa dir pn hap hpn
    obtain ⟨hc, r0, r1⟩ := hr
    simp only [Tree.addrs, List.nodup_cons, List.mem_append, not_or, List.nodup_append] at hnd
    obtain ⟨⟨hb0, hb1⟩, hd0, hd1, hdis⟩ := hnd
    have hbl := lt_length_of_getElem? hc
    have hpl := lt_length_of_getElem? hpn
    have frame : ∀ (u : Tree α) (q : rb_node_p), realizes mem u q → pa ∉ u.addrs →
        realizes (mem.set pa (some (pn.setChild dir (some mem.length)))
            ++ [some ⟨some pa, none, none, 1, true, v⟩]) u q := by
      intro u q hu hpa
      refine realizes_frame mem _ u q hu ?_
      intro x hx
      have hxl := realizes_addrs_lt mem u q hu x hx
      have hne : pa ≠ x := fun e => hpa (e ▸ hx)
      rw [List.getElem?_append_left (by simpa using hxl), List.getElem?_set_ne hne]
    simp only [Tree.attach_parent] at hap
    simp only [Tree.attach]
    cases hd : lt v d
    · simp only [hd, Bool.false_eq_true, if_false] at hap ⊢
      have ih := ih0 (some b) false r0 hd0 pa dir pn hap hpn
      cases h0 : t0 with
      | nil =>
        rw [h0] at hap ih hc
        simp only [attach_parent_nil, Prod.mk.injEq, Option.some.injEq] at hap
        obtain ⟨rfl, rfl⟩ := hap
        rw [hc] at hpn
        simp only [Option.some.injEq] at hpn
        subst hpn
        refine ⟨?_, ih, frame t1 _ r1 hb1⟩
        rw [List.getElem?_append_left (by simpa using hbl), List.getElem?_set_self hbl]
        rfl
      | node b0 u0 s0 c0 d0 u1 =>
        obtain ⟨pa', e, hm⟩ := attach_parent_mem lt v t0 (some b) false
          (by rw [h0]; exact Tree.noConfusion)
        rw [hap] at e
        simp only [Option.some.injEq] at e
        subst e
        rw [← h0]
        have hne : pa ≠ b := fun e => hb0 (e ▸ hm)
        refine ⟨?_, ih, frame t1 _ r1 (fun h => hdis hm h)⟩
        rw [List.getElem?_append_left (by simpa using hbl), List.getElem?_set_ne hne, hc,
          attach_ptr lt v _ t0 (by rw [h0]; exact Tree.noConfusion)]
    · simp only [hd, if_true] at hap ⊢
      have ih := ih1 (some b) true r1 hd1 pa dir pn hap hpn
      cases h1 : t1 with
      | nil =>
        rw [h1] at hap ih hc
        simp only [attach_parent_nil, Prod.mk.injEq, Option.some.injEq] at hap
        obtain ⟨rfl, rfl⟩ := hap
        rw [hc] at hpn
        simp only [Option.some.injEq] at hpn
        subst hpn
        refine ⟨?_, frame t0 _ r0 hb0, ih⟩
        rw [List.getElem?_append_left (by simpa using hbl), List.getElem?_set_self hbl]
        rfl
      | node b0 u0 s0 c0 d0 u1 =>
        obtain ⟨pa', e, hm⟩ := attach_parent_mem lt v t1 (some b) true
          (by rw [h1]; exact Tree.noConfusion)
        rw [hap] at e
        simp only [Option.some.injEq] at e
        subst e
        rw [← h1]
        have hne : pa ≠ b := fun e => hb1 (e ▸ hm)
        refine ⟨?_, frame t0 _ r0 (fun h => hdis h hm), ih⟩
        rw [List.getElem?_append_left (by simpa using hbl), List.getElem?_set_ne hne, hc,
          attach_ptr lt v _ t1 (by rw [h1]; exact Tree.noConfusion)]

/-! ## The walk to the root that increments the sizes -/

theorem chain_of_same_p {α : Type} (mem mem1 : rb_mem α)
    (h : ∀ (a : Nat) (n : rb_node_s α), mem[a]? = some (some n) →
      ∃ m : rb_node_s α, mem1[a]? = some (some m) ∧ m.p = n.p) :
    ∀ (k : Nat) (ptr : rb_node_p), chain mem k ptr → chain mem1 k ptr := by
  intro k
  induction k with
  | zero => intro ptr hc; exact hc
  | succ k ih =>
    intro ptr hc
    obtain ⟨a, n, e, hn, hk⟩ := hc
    obtain ⟨m, hm, hp⟩ := h a n hn
    exact ⟨a, m, e, hm, hp ▸ ih _ hk⟩

theorem getElem?_set_some {β : Type} (l : List (Option β)) (a : Nat) (x y z : β)
    (b : Nat) (hb : l[b]? = some (some x)) (ha : l[a]? = some (some z)):
    ∃ w, (l.set a (some y))[b]? = some (some w) ∧ (a ≠ b → w = x) ∧ (a = b → w = y) := by
  by_cases e : a = b
  · subst e
    refine ⟨y, ?_, fun h => absurd rfl h, fun _ => rfl⟩
    rw [List.getElem?_set_self (lt_length_of_getElem? ha)]
  · refine ⟨x, ?_, fun _ => rfl, fun h => absurd h e⟩
    rw [List.getElem?_set_ne e, hb]

theorem grow_ok {α : Type} :
    ∀ (k : Nat) (mem : rb_mem α) (ptr : rb_node_p) (fuel : Nat), chain mem k ptr → k < fuel →
      ∃ mem1, _rb_insert_grow fuel mem ptr = .ok mem1 ∧ blur true mem1 = blur true mem := by
  intro k
  induction k with
  | zero =>
    intro mem ptr fuel hc hf
    cases fuel with
    | zero => cases hf
    | succ fuel =>
      cases hc
      exact ⟨mem, rfl, rfl⟩
  | succ k ih =>
    intro mem ptr fuel hc hf
    cases fuel with
    | zero => cases hf
    | succ fuel =>
      obtain ⟨a, n, e, hn, hk⟩ := hc
      subst e
      have hk1 : chain (mem.set a (some { n with size := (n.size + 1) % SIZE_MOD })) k n.p := by
        refine chain_of_same_p mem _ ?_ k _ hk
        intro b x hx
        obtain ⟨w, hw, h1, h2⟩ := getElem?_set_some mem a x { n with size := (n.size + 1) % SIZE_MOD } n b hx hn
        refine ⟨w, hw, ?_⟩
        by_cases e : a = b
        · rw [h2 e]
          subst e
          rw [hn] at hx
          cases hx
          rfl
        · rw [h1 e]
      obtain ⟨mem1, h1, h2⟩ := ih _ _ fuel hk1 (by omega)
      refine ⟨mem1, ?_, ?_⟩
      · simp only [_rb_insert_grow, deref_some hn, update_some hn, bind, Except.bind]
        simpa using h1
      · rw [h2]
        exact blur_set true mem a n _ hn rfl

/-- The node under which the descent ends is linked to the root through
`p` links, by no more steps than the picture is high. -/
theorem chain_attach_parent {α : Type} (lt : α → α → Bool) (v : α) (mem : rb_mem α)
    (t : Tree α) :
    ∀ (parent : rb_node_p) (dir0 : Bool) (k : Nat), realizes mem t parent → chain mem k parent →
      ∃ j, j ≤ t.height ∧ chain mem (k + j) (t.attach_parent lt v parent dir0).1 := by
  induction t with
  | nil => intro parent dir0 k _ hc; exact ⟨0, Nat.le_refl _, hc⟩
  | node b t0 s r d t1 ih0 ih1 =>
    intro parent dir0 k hr hc
    obtain ⟨hcell, r0, r1⟩ := hr
    have hb : chain mem (k + 1) (some b) := ⟨b, _, rfl, hcell, hc⟩
    simp only [Tree.attach_parent, Tree.height]
    cases hd : lt v d
    · obtain ⟨j, hj, hch⟩ := ih0 (some b) false (k + 1) r0 hb
      refine ⟨j + 1, by omega, ?_⟩
      simpa [Nat.add_assoc, Nat.add_comm 1 j] using hch
    · obtain ⟨j, hj, hch⟩ := ih1 (some b) true (k + 1) r1 hb
      refine ⟨j + 1, by omega, ?_⟩
      simpa [Nat.add_assoc, Nat.add_comm 1 j] using hch

/-! ## The fix-up on the two ways that do not rotate -/

theorem recolour {α : Type} (m : rb_mem α) (a : Nat) (c : Bool) (n : rb_node_s α)
    (h : m[a]? = some (some n)) :
    update m (some a) (fun x => { x with is_red := c })
        = .ok (m.set a (some { n with is_red := c })) ∧
      blur false (m.set a (some { n with is_red := c })) = blur false m ∧
      ∀ (b : Nat) (x : rb_node_s α), m[b]? = some (some x) →
        ∃ y : rb_node_s α, (m.set a (some { n with is_red := c }))[b]? = some (some y) ∧
          (b ≠ a → y = x) ∧ (b = a → y = { x with is_red := c }) := by
  refine ⟨update_some h _, blur_set false m a n _ h rfl, ?_⟩
  intro b x hx
  by_cases e : b = a
  · subst e
    rw [h] at hx
    cases hx
    refine ⟨_, ?_, fun hne => absurd rfl hne, fun _ => rfl⟩
    rw [List.getElem?_set_self (lt_length_of_getElem? h)]
  · refine ⟨x, ?_, fun _ => rfl, fun h => absurd h e⟩
    rw [List.getElem?_set_ne (fun h => e h.symm), hx]

/-- The parent of the new node is black: the loop is not entered, and only
the colour of the root is written. -/
theorem fixup_black {α : Type} (m : rb_mem α) (tree : rb_tree_s α) (pa ro : Nat)
    (n : rb_node_p) (dir : Bool) (pn rn : rb_node_s α)
    (hroot : tree.root = some ro) (hr : m[ro]? = some (some rn))
    (hp : m[pa]? = some (some pn)) (hb : pn.is_red = false) :
    ∃ m1, _rb_insert_fixup m tree (some pa) n dir = .ok (m1, some pa, n) ∧
      blur false m1 = blur false m := by
  obtain ⟨h1, h2, _⟩ := recolour m ro false rn hr
  refine ⟨_, ?_, h2⟩
  simp only [_rb_insert_fixup, budget, _rb_insert_fixup_loop, deref_some hp, hb, hroot,
    bind, Except.bind]
  simp only [reduceCtorEq, if_false, Bool.not_false, if_true]
  rw [h1]
  rfl

/-- The parent of the new node is red and so is its sibling: both are made
black and the grandparent red; the loop then finds `*parent` black and stops. -/
theorem fixup_red_uncle {α : Type} (m : rb_mem α) (tree : rb_tree_s α) (pa ro g u : Nat)
    (n : rb_node_p) (dir : Bool) (pn rn gn un : rb_node_s α)
    (hroot : tree.root = some ro) (hr : m[ro]? = some (some rn))
    (hp : m[pa]? = some (some pn)) (hred : pn.is_red = true)
    (hg : pn.p = some g) (hgn : m[g]? = some (some gn)) (hne : g ≠ pa)
    (hu : gn.childs (!(decide (some pa = gn.childs1))) = some u)
    (hun : m[u]? = some (some un)) (hur : un.is_red = true) :
    ∃ m1, _rb_insert_fixup m tree (some pa) n dir = .ok (m1, some pa, some g) ∧
      blur false m1 = blur false m := by
  -- the three writes of the red-uncle branch
  obtain ⟨w1, b1, k1⟩ := recolour m u false un hun
  obtain ⟨pn1, hp1, _, _⟩ := k1 pa pn hp
  obtain ⟨w2, b2, k2⟩ := recolour _ pa false pn1 hp1
  obtain ⟨gn1, hg1, _, _⟩ := k1 g gn hgn
  obtain ⟨gn2, hg2, _, _⟩ := k2 g gn1 hg1
  obtain ⟨w3, b3, k3⟩ := recolour _ g true gn2 hg2
  -- the cell of the parent after them is black
  obtain ⟨pn2, hp2, _, e2⟩ := k2 pa pn1 hp1
  obtain ⟨pn3, hp3, e3, _⟩ := k3 pa pn2 hp2
  have hblack : pn3.is_red = false := by rw [e3 (fun e => hne e.symm), e2 rfl]
  -- the write to the root
  obtain ⟨rn1, hr1, _, _⟩ := k1 ro rn hr
  obtain ⟨rn2, hr2, _, _⟩ := k2 ro rn1 hr1
  obtain ⟨rn3, hr3, _, _⟩ := k3 ro rn2 hr2
  obtain ⟨w4, b4, _⟩ := recolour _ ro false rn3 hr3
  refine ⟨_, ?_, by rw [b4, b3, b2, b1]⟩
  have hlen : m.length = (m.length - 1) + 1 := by
    have := lt_length_of_getElem? hp
    omega
  simp only [_rb_insert_fixup, budget]
  rw [hlen]
  simp only [_rb_insert_fixup_loop, _rb_child_dir, deref_some hp, deref_some hgn, hg, hred, hu,
    deref_some hun, hur, hroot, bind, Except.bind, pure, Except.pure]
  simp only [reduceCtorEq, if_false, Bool.not_true, Bool.false_eq_true, if_true]
  rw [w1]
  simp only []
  rw [w2]
  simp only []
  rw [w3]
  simp only [_rb_insert_fixup_loop, deref_some hp3, hblack, bind, Except.bind, pure,
    Except.pure]
  simp only [reduceCtorEq, if_false, Bool.not_false, if_true]
  rw [w4]

/-! ## Where the descent lands when no rotation is met -/

theorem ptr_mem_addrs {α : Type} (t : Tree α) (a : Nat) (h : t.ptr = some a) : a ∈ t.addrs := by
  cases t with
  | nil => cases h
  | node b t0 s r d t1 =>
    simp only [Tree.ptr, Option.some.injEq] at h
    subst h
    simp [Tree.addrs]

theorem ptr_eq_none {α : Type} (t : Tree α) : t.ptr = none ↔ t = .nil := by
  cases t <;> simp [Tree.ptr]

theorem red_cell {α : Type} (mem : rb_mem α) (o : Tree α) (q : rb_node_p)
    (hr : realizes mem o q) (hred : o.red = true) :
    ∃ (u : Nat) (un : rb_node_s α),
      o.ptr = some u ∧ mem[u]? = some (some un) ∧ un.is_red = true ∧ u ∈ o.addrs := by
  cases o with
  | nil => cases hred
  | node u t0 s r d t1 =>
    simp only [Tree.red] at hred
    subst hred
    exact ⟨u, _, rfl, hr.1, rfl, by simp [Tree.addrs]⟩

/-- What the fix-up will find at the node the descent ends under, when the
insertion is calm: the node is black, or it is red, hangs from a grandparent,
and its sibling there is red. -/
theorem calm_landing {α : Type} (lt : α → α → Bool) (v : α) (mem : rb_mem α) (t : Tree α) :
    ∀ (parent : rb_node_p) (dir0 sr : Bool), realizes mem t parent → t.addrs.Nodup →
      t ≠ .nil → t.calm lt v sr = true →
      (sr = true → ∃ (g : Nat) (gn : rb_node_s α) (u : Nat) (un : rb_node_s α),
        parent = some g ∧ mem[g]? = some (some gn) ∧
        gn.childs (!(decide (t.ptr = gn.childs1))) = some u ∧
        mem[u]? = some (some un) ∧ un.is_red = true ∧ g ∉ t.addrs) →
      ∃ (pa : Nat) (pn : rb_node_s α),
        (t.attach_parent lt v parent dir0).1 = some pa ∧ mem[pa]? = some (some pn) ∧
        (pn.is_red = false ∨
          ∃ (g : Nat) (gn : rb_node_s α) (u : Nat) (un : rb_node_s α),
            pn.p = some g ∧ mem[g]? = some (some gn) ∧ g ≠ pa ∧
            gn.childs (!(decide (some pa = gn.childs1))) = some u ∧
            mem[u]? = some (some un) ∧ un.is_red = true) := by
  induction t with
  | nil => intro _ _ _ _ _ h; exact absurd rfl h
  | node b t0 s r d t1 ih0 ih1 =>
    intro parent dir0 sr hr hnd _ hcalm hsr
    obtain ⟨hc, r0, r1⟩ := hr
    simp only [Tree.addrs, List.nodup_cons, List.mem_append, not_or, List.nodup_append] at hnd
    obtain ⟨⟨hb0, hb1⟩, hd0, hd1, hdis⟩ := hnd
    -- the descent ends right here
    have here : (!r || sr) = true →
        ∃ (pa : Nat) (pn : rb_node_s α),
          (some b : rb_node_p) = some pa ∧ mem[pa]? = some (some pn) ∧
          (pn.is_red = false ∨
            ∃ (g : Nat) (gn : rb_node_s α) (u : Nat) (un : rb_node_s α),
              pn.p = some g ∧ mem[g]? = some (some gn) ∧ g ≠ pa ∧
              gn.childs (!(decide (some pa = gn.childs1))) = some u ∧
              mem[u]? = some (some un) ∧ un.is_red = true) := by
      intro hcol
      refine ⟨b, _, rfl, hc, ?_⟩
      cases r with
      | false => exact Or.inl rfl
      | true =>
        simp only [Bool.not_true, Bool.false_or] at hcol
        obtain ⟨g, gn, u, un, e, hgn, hu, hun, hur, hg⟩ := hsr hcol
        refine Or.inr ⟨g, gn, u, un, e, hgn, ?_, hu, hun, hur⟩
        intro e1
        exact hg (by simp [Tree.addrs, e1])
    simp only [Tree.calm] at hcalm
    simp only [Tree.attach_parent]
    cases hd : lt v d
    · simp only [hd, Bool.false_eq_true, if_false] at hcalm ⊢
      by_cases h0 : t0.ptr = none
      · rw [if_pos h0] at hcalm
        rw [(ptr_eq_none t0).1 h0]
        exact here hcalm
      · rw [if_neg h0] at hcalm
        have hne : t0 ≠ .nil := fun e => h0 ((ptr_eq_none t0).2 e)
        refine ih0 (some b) false t1.red r0 hd0 hne hcalm ?_
        intro hred
        obtain ⟨u, un, hpu, hun, hur, hmu⟩ := red_cell mem t1 _ r1 hred
        refine ⟨b, _, u, un, rfl, hc, ?_, hun, hur, hb0⟩
        have hne1 : t0.ptr ≠ t1.ptr := by
          intro e
          cases h : t0.ptr with
          | none => exact h0 h
          | some x =>
            have hx0 := ptr_mem_addrs t0 x h
            have hx1 := ptr_mem_addrs t1 x (by rw [← e, h])
            exact hdis hx0 hx1
        simp [rb_node_s.childs, hne1, hpu]
    · simp only [hd, if_true] at hcalm ⊢
      by_cases h1 : t1.ptr = none
      · rw [if_pos h1] at hcalm
        rw [(ptr_eq_none t1).1 h1]
        exact here hcalm
      · rw [if_neg h1] at hcalm
        have hne : t1 ≠ .nil := fun e => h1 ((ptr_eq_none t1).2 e)
        refine ih1 (some b) true t0.red r1 hd1 hne hcalm ?_
        intro hred
        obtain ⟨u, un, hpu, hun, hur, hmu⟩ := red_cell mem t0 _ r0 hred
        refine ⟨b, _, u, un, rfl, hc, ?_, hun, hur, hb1⟩
        simp [rb_node_s.childs, hpu]

/-! ## `_rb_insert` on a tree that is not empty -/

/-- The store once the new node is allocated and linked under `pa`, before
the walk that increments the sizes of the ancestors. -/
theorem insert_unfold {α : Type} (mem : rb_mem α) (tree : rb_tree_s α) (v : α) (pa : Nat)
    (dir : Bool) (pn : rb_node_s α)
    (hdesc : _rb_insert_descend tree.lt v (mem ++ [some ⟨none, none, none, 1, false, v⟩])
      (mem.length + 2) tree.root none false = .ok (some pa, dir))
    (hpn : mem[pa]? = some (some pn)) :
    _rb_insert mem tree v =
      (_rb_insert_grow (mem.length + 2)
          (mem.set pa (some { pn.setChild dir (some mem.length) with
              size := ((pn.setChild dir (some mem.length)).size + 1) % SIZE_MOD })
            ++ [some ⟨some pa, none, none, 1, true, v⟩]) (some pa)).bind
        (fun m6 => (_rb_insert_fixup m6 tree (some pa) (some mem.length) dir).bind
          (fun r => .ok (r.1, tree, r.2.2))) := by
  have hpl := lt_length_of_getElem? hpn
  have e1 : (mem ++ [some (⟨none, none, none, 1, false, v⟩ : rb_node_s α)])[mem.length]?
      = some (some ⟨none, none, none, 1, false, v⟩) := by simp
  simp only [_rb_insert, alloc, budget, List.length_append, List.length_singleton, hdesc,
    bind, Except.bind, update_some e1]
  simp only [reduceCtorEq, if_false]
  have e2 : ((mem ++ [some (⟨none, none, none, 1, false, v⟩ : rb_node_s α)]).set mem.length
      (some ⟨none, none, none, 1, true, v⟩))[pa]? = some (some pn) := by
    rw [List.getElem?_set_ne (by omega), List.getElem?_append_left hpl, hpn]
  rw [update_some e2]
  simp only []
  have e3 : (((mem ++ [some (⟨none, none, none, 1, false, v⟩ : rb_node_s α)]).set mem.length
      (some ⟨none, none, none, 1, true, v⟩)).set pa
        (some (pn.setChild dir (some mem.length))))[pa]?
      = some (some (pn.setChild dir (some mem.length))) := by
    rw [List.getElem?_set_self (by simp; omega)]
  rw [update_some e3]
  simp only []
  have e4 : ((((mem ++ [some (⟨none, none, none, 1, false, v⟩ : rb_node_s α)]).set mem.length
      (some ⟨none, none, none, 1, true, v⟩)).set pa
        (some (pn.setChild dir (some mem.length)))).set pa
          (some { pn.setChild dir (some mem.length) with
              size := ((pn.setChild dir (some mem.length)).size + 1) % SIZE_MOD }))[mem.length]?
      = some (some ⟨none, none, none, 1, true, v⟩) := by
    rw [List.getElem?_set_ne (by omega), List.getElem?_set_ne (by omega),
      List.getElem?_set_self (by simp)]
  rw [update_some e4]
  simp only []
  have e5 : (((((mem ++ [some (⟨none, none, none, 1, false, v⟩ : rb_node_s α)]).set mem.length
      (some ⟨none, none, none, 1, true, v⟩)).set pa
        (some (pn.setChild dir (some mem.length)))).set pa
          (some { pn.setChild dir (some mem.length) with
              size := ((pn.setChild dir (some mem.length)).size + 1) % SIZE_MOD })).set mem.length
            (some ⟨some pa, none, none, 1, true, v⟩))
      = mem.set pa (some { pn.setChild dir (some mem.length) with
              size := ((pn.setChild dir (some mem.length)).size + 1) % SIZE_MOD })
            ++ [some ⟨some pa, none, none, 1, true, v⟩] := by
    apply List.ext_getElem?
    intro i
    by_cases hi : i < mem.length
    · rw [List.getElem?_set_ne (by omega), List.getElem?_append_left (by simpa using hi)]
      by_cases hp : pa = i
      · subst hp
        rw [List.getElem?_set_self (by simp; omega), List.getElem?_set_self hi]
      · rw [List.getElem?_set_ne hp, List.getElem?_set_ne hp, List.getElem?_set_ne (by omega),
          List.getElem?_append_left hi, List.getElem?_set_ne hp]
    · by_cases hi2 : i = mem.length
      · subst hi2
        rw [List.getElem?_set_self (by simp), List.getElem?_append_right (by simp)]
        simp
      · rw [List.getElem?_eq_none (by simp; omega), List.getElem?_eq_none (by simp; omega)]
  rw [e5]
  simp only [List.length_append, List.length_set, List.length_singleton]

theorem of_blur_eq {α : Type} {c : Bool} {m1 m2 : rb_mem α} (h : blur c m1 = blur c m2)
    (x : Nat) (n : rb_node_s α) (hx : m2[x]? = some (some n)) :
    ∃ n1 : rb_node_s α, m1[x]? = some (some n1) ∧ n1.blur c = n.blur c := by
  have e := congrArg (fun l => l[x]?) h
  simp only [blur_getElem?, hx, Option.map_some'] at e
  cases h1 : m1[x]? with
  | none => rw [h1] at e; cases e
  | some o =>
    cases o with
    | none => rw [h1] at e; cases e
    | some n1 =>
      rw [h1] at e
      simp only [Option.map_some', Option.some.injEq] at e
      exact ⟨n1, rfl, e⟩

theorem blur_true_fields {α : Type} {n1 n : rb_node_s α} (h : n1.blur true = n.blur true) :
    n1.p = n.p ∧ n1.childs0 = n.childs0 ∧ n1.childs1 = n.childs1 ∧ n1.is_red = n.is_red ∧
      n1.data = n.data := by
  simp only [rb_node_s.blur, Bool.true_and, rb_node_s.mk.injEq, true_and] at h
  exact h

/-- A cell of the old store, seen after the new node is linked under `pa`
and the sizes have been incremented: links and colour are as before, except
for the child links of `pa`. -/
theorem linked_cell {α : Type} (mem mem6 : rb_mem α) (pa : Nat) (pn pn2 new : rb_node_s α)
    (hb : blur true mem6 = blur true (mem.set pa (some pn2) ++ [some new]))
    (hpn : mem[pa]? = some (some pn)) (hp2 : pn2.p = pn.p) (hc2 : pn2.is_red = pn.is_red)
    (x : Nat) (n : rb_node_s α) (hx : mem[x]? = some (some n)) :
    ∃ n6 : rb_node_s α, mem6[x]? = some (some n6) ∧ n6.p = n.p ∧ n6.is_red = n.is_red ∧
      (x ≠ pa → n6.childs0 = n.childs0 ∧ n6.childs1 = n.childs1) := by
  have hxl := lt_length_of_getElem? hx
  by_cases e : x = pa
  · subst e
    rw [hpn] at hx
    cases hx
    have h5 : (mem.set x (some pn2) ++ [some new])[x]? = some (some pn2) := by
      rw [List.getElem?_append_left (by simpa using hxl), List.getElem?_set_self hxl]
    obtain ⟨n6, h6, hbl⟩ := of_blur_eq hb x pn2 h5
    obtain ⟨f1, _, _, f4, _⟩ := blur_true_fields hbl
    exact ⟨n6, h6, by rw [f1, hp2], by rw [f4, hc2], fun h => absurd rfl h⟩
  · have h5 : (mem.set pa (some pn2) ++ [some new])[x]? = some (some n) := by
      rw [List.getElem?_append_left (by simpa using hxl),
        List.getElem?_set_ne (fun h => e h.symm), hx]
    obtain ⟨n6, h6, hbl⟩ := of_blur_eq hb x n h5
    obtain ⟨f1, f2, f3, f4, _⟩ := blur_true_fields hbl
    exact ⟨n6, h6, f1, f4, fun _ => ⟨f2, f3⟩⟩

theorem childs_congr {α : Type} {n6 n : rb_node_s α} (h0 : n6.childs0 = n.childs0)
    (h1 : n6.childs1 = n.childs1) (d : Bool) : n6.childs d = n.childs d := by
  cases d <;> simp [rb_node_s.childs, h0, h1]

theorem setChild_p {α : Type} (n : rb_node_s α) (d : Bool) (c : rb_node_p) :
    (n.setChild d c).p = n.p := by
  cases d <;> rfl

theorem setChild_is_red {α : Type} (n : rb_node_s α) (d : Bool) (c : rb_node_p) :
    (n.setChild d c).is_red = n.is_red := by
  cases d <;> rfl

/-- A calm insertion completes; up to sizes and colours, the store it leaves
is the old store with the new leaf linked in where the descent ended. -/
theorem insert_calm_store {α : Type} (lt : α → α → Bool) (v : α) (mem : rb_mem α)
    (root : rb_node_p) (t : Tree α) (hwf : well_formed mem root t)
    (hcalm : t.calm lt v false = true) :
    ∃ mem1 h,
      _rb_insert mem ⟨root, lt⟩ v = .ok (mem1, ⟨(t.attach lt v mem.length).ptr, lt⟩, h) ∧
      realizes (linked mem (t.attach_parent lt v none false).1
        (t.attach_parent lt v none false).2 v) (t.attach lt v mem.length) none ∧
      blur false mem1 = blur false (linked mem (t.attach_parent lt v none false).1
        (t.attach_parent lt v none false).2 v) := by
  obtain ⟨hptr, hr⟩ := well_formed_realizes hwf
  have hnd := hwf.2
  have hlt := realizes_addrs_lt mem t none hr
  by_cases hnil : t = .nil
  · subst hnil
    simp only [Tree.ptr] at hptr
    subst hptr
    have hins : _rb_insert mem ⟨none, lt⟩ v
        = .ok (mem ++ [some ⟨none, none, none, 1, true, v⟩], ⟨some mem.length, lt⟩,
            some mem.length) := by
      simp [_rb_insert, alloc, budget, _rb_insert_descend, update, store, bind, Except.bind]
    exact ⟨_, _, hins, ⟨by simp [linked, Tree.attach_parent, Tree.ptr], trivial, trivial⟩, rfl⟩
  · obtain ⟨pa, hpa, hmem⟩ := attach_parent_mem lt v t none false hnil
    obtain ⟨pn, hpn⟩ := realizes_cell mem t none hr pa hmem
    have hap : t.attach_parent lt v none false = (some pa, (t.attach_parent lt v none false).2) :=
      Prod.ext hpa rfl
    generalize (t.attach_parent lt v none false).2 = dir at hap
    -- the descent
    have hra : realizes (mem ++ [some ⟨none, none, none, 1, false, v⟩]) t none :=
      realizes_frame mem _ t none hr (fun a ha => List.getElem?_append_left (hlt a ha))
    have hheight : t.height < mem.length + 2 := by
      have h1 := height_le_length t
      have h2 := length_le_of_nodup_lt _ _ hnd hlt
      omega
    have hdesc := descend_eq lt v _ t none false (mem.length + 2) hra hheight
    rw [hptr, hap] at hdesc
    rw [insert_unfold mem ⟨root, lt⟩ v pa dir pn hdesc hpn]
    -- the walk that increments the sizes
    obtain ⟨j, hj, hch⟩ := chain_attach_parent lt v mem t none false 0 hr rfl
    rw [hap, Nat.zero_add] at hch
    replace hch : chain mem j (some pa) := hch
    have hch5 : chain (mem.set pa (some { pn.setChild dir (some mem.length) with
              size := ((pn.setChild dir (some mem.length)).size + 1) % SIZE_MOD })
            ++ [some ⟨some pa, none, none, 1, true, v⟩]) j (some pa) := by
      refine chain_of_same_p mem _ ?_ j _ hch
      intro x n hx
      have hxl := lt_length_of_getElem? hx
      by_cases e : x = pa
      · subst e
        rw [hpn] at hx
        cases hx
        have hcell : (mem.set x (some { pn.setChild dir (some mem.length) with
              size := ((pn.setChild dir (some mem.length)).size + 1) % SIZE_MOD })
            ++ [some ⟨some x, none, none, 1, true, v⟩])[x]?
            = some (some { pn.setChild dir (some mem.length) with
              size := ((pn.setChild dir (some mem.length)).size + 1) % SIZE_MOD }) := by
          rw [List.getElem?_append_left (by simpa using hxl), List.getElem?_set_self hxl]
        exact ⟨_, hcell, setChild_p pn dir _⟩
      · refine ⟨n, ?_, rfl⟩
        rw [List.getElem?_append_left (by simpa using hxl),
          List.getElem?_set_ne (fun h => e h.symm), hx]
    obtain ⟨mem6, hgrow, hb6⟩ := grow_ok j _ (some pa) (mem.length + 2) hch5 (by omega)
    rw [hgrow]
    simp only [Except.bind]
    -- the fix-up
    have cell6 := linked_cell mem mem6 pa pn _ _ hb6 hpn (setChild_p pn dir _)
      (setChild_is_red pn dir _)
    obtain ⟨b, hb⟩ : ∃ b, root = some b := by
      cases t with
      | nil => exact absurd rfl hnil
      | node b _ _ _ _ _ => exact ⟨b, hptr.symm⟩
    obtain ⟨rn, hrn⟩ := realizes_cell mem t none hr b (ptr_mem_addrs t b (hptr.trans hb))
    obtain ⟨rn6, hrn6, _⟩ := cell6 b rn hrn
    obtain ⟨pn6, hpn6, hpp, hpc, _⟩ := cell6 pa pn hpn
    have fix : ∃ m1 h, _rb_insert_fixup mem6 ⟨root, lt⟩ (some pa) (some mem.length) dir
        = .ok (m1, some pa, h) ∧ blur false m1 = blur false mem6 := by
      cases hcol : pn.is_red with
      | false =>
        obtain ⟨m1, h1, h2⟩ := fixup_black mem6 ⟨root, lt⟩ pa b (some mem.length) dir pn6 rn6
          hb hrn6 hpn6 (by rw [hpc]; exact hcol)
        exact ⟨m1, _, h1, h2⟩
      | true =>
        obtain ⟨pa1, pn1, e1, e2, hland⟩ := calm_landing lt v mem t none false false hr hnd hnil
          hcalm (by intro h; cases h)
        rw [hap] at e1
        simp only [Option.some.injEq] at e1
        subst e1
        rw [hpn] at e2
        simp only [Option.some.injEq] at e2
        subst e2
        rcases hland with hblack | ⟨g, gn, u, un, hg, hgn, hne, hu, hun, hur⟩
        · rw [hcol] at hblack; cases hblack
        · obtain ⟨gn6, hgn6, _, _, hgc⟩ := cell6 g gn hgn
          obtain ⟨un6, hun6, _, huc, _⟩ := cell6 u un hun
          obtain ⟨c0, c1⟩ := hgc hne
          obtain ⟨m1, h1, h2⟩ := fixup_red_uncle mem6 ⟨root, lt⟩ pa b g u (some mem.length) dir
            pn6 rn6 gn6 un6 hb hrn6 hpn6 (by rw [hpc]; exact hcol) (by rw [hpp]; exact hg) hgn6
            hne (by rw [childs_congr c0 c1, c1]; exact hu) hun6 (by rw [huc]; exact hur)
          exact ⟨m1, _, h1, h2⟩
    obtain ⟨m1, h, hfix, hb1⟩ := fix
    rw [hfix]
    -- the picture of the result
    have hlk : linked mem (t.attach_parent lt v none false).1 dir v
        = mem.set pa (some (pn.setChild dir (some mem.length)))
          ++ [some ⟨some pa, none, none, 1, true, v⟩] := by
      rw [hpa]
      simp only [linked, hpn]
    have hroot : (t.attach lt v mem.length).ptr = root := by
      rw [attach_ptr lt v _ t hnil, hptr]
    rw [hlk]
    refine ⟨m1, h, ?_, attach_realizes lt v mem t none false hr hnd pa dir pn hap hpn, ?_⟩
    · rw [hroot]
    · rw [hb1, blur_weaken hb6]
      simp only [blur, List.map_append, List.map_set, Option.map_some', List.map_cons,
        List.map_nil]
      cases dir <;> rfl

/-- A calm insertion completes; up to sizes and colours, the store it leaves
holds the picture with the new leaf attached where the descent ended. -/
theorem insert_calm {α : Type} (lt : α → α → Bool) (v : α) (mem : rb_mem α) (root : rb_node_p)
    (t : Tree α) (hwf : well_formed mem root t) (hcalm : t.calm lt v false = true) :
    ∃ mem1 h t1,
      _rb_insert mem ⟨root, lt⟩ v = .ok (mem1, ⟨(t.attach lt v mem.length).ptr, lt⟩, h) ∧
      well_formed mem1 (t.attach lt v mem.length).ptr t1 ∧
      t1.blur false = (t.attach lt v mem.length).blur false := by
  obtain ⟨mem1, h, hins, hM, hb⟩ := insert_calm_store lt v mem root t hwf hcalm
  obtain ⟨_, hr⟩ := well_formed_realizes hwf
  have hnd := hwf.2
  have hlt := realizes_addrs_lt mem t none hr
  have hfresh : mem.length ∉ t.addrs := fun h => Nat.lt_irrefl _ (hlt _ h)
  have h1 := realizes_blur false _ _ none hM
  rw [← hb] at h1
  obtain ⟨t1, q, e⟩ := realizes_unblur false mem1 _ none h1
  have hp : t1.ptr = (t.attach lt v mem.length).ptr := by
    rw [← blur_ptr false t1, e, blur_ptr]
  have hd : t1.addrs.Nodup := by
    rw [← blur_addrs false t1, e, blur_addrs]
    exact (attach_addrs lt v mem.length t).nodup_iff.2 (List.nodup_cons.2 ⟨hfresh, hnd⟩)
  refine ⟨mem1, h, t1, hins, ?_, e⟩
  rw [← hp]
  exact realizes_well_formed q hd

/-! ## Order -/

theorem strict_weak.asymm {α : Type} {lt : α → α → Bool} (h : strict_weak lt) (a b : α)
    (hab : lt a b = true) : lt b a = false := by
  cases hba : lt b a with
  | false => rfl
  | true =>
    have := h.trans a b a hab hba
    rw [h.irrefl a] at this
    cases this

theorem strict_weak.neg_trans {α : Type} {lt : α → α → Bool} (h : strict_weak lt) (a b c : α)
    (hab : lt a b = false) (hbc : lt b c = false) : lt a c = false := by
  cases hac : lt a c with
  | false => rfl
  | true =>
    have hba : lt b a = false := by
      cases hba : lt b a with
      | false => rfl
      | true =>
        have := h.trans b a c hba hac
        rw [hbc] at this
        cases this
    have hcb : lt c b = false := by
      cases hcb : lt c b with
      | false => rfl
      | true =>
        have := h.trans a c b hac hcb
        rw [hab] at this
        cases this
    have := (h.incomp a b c hab hba hbc hcb).1
    rw [hac] at this
    cases this

theorem int_lt_strict_weak : strict_weak int_lt := by
  refine ⟨?_, ?_, ?_⟩
  · intro a; simp [int_lt]
  · intro a b c; simp only [int_lt, decide_eq_true_eq]; omega
  · intro a b c; simp only [int_lt, decide_eq_false_iff_not]; omega

/-- Hanging `v` where the descent ends puts it, in the reading `childs[1]`,
node, `childs[0]`, after elements that are not above it and before elements
that are not below it. -/
theorem attach_toList1 {α : Type} (lt : α → α → Bool) (hlt : strict_weak lt) (v : α) (a : Nat)
    (t : Tree α) (hord : nondecreasing lt t.toList1) :
    ∃ l1 l2, t.toList1 = l1 ++ l2 ∧ (t.attach lt v a).toList1 = l1 ++ v :: l2 ∧
      (∀ x ∈ l1, lt v x = false) ∧ (∀ y ∈ l2, lt y v = false) := by
  induction t with
  | nil => exact ⟨[], [], rfl, rfl, by simp, by simp⟩
  | node b t0 s r d t1 ih0 ih1 =>
    simp only [nondecreasing, Tree.toList1, List.pairwise_append, List.pairwise_cons,
      List.mem_cons, forall_eq_or_imp] at hord
    obtain ⟨h1, ⟨hd0, h0⟩, h10⟩ := hord
    simp only [Tree.attach]
    cases hd : lt v d
    · obtain ⟨l1, l2, e, e', hb1, hb2⟩ := ih0 h0
      refine ⟨t1.toList1 ++ d :: l1, l2, ?_, ?_, ?_, hb2⟩
      · simp [Tree.toList1, e]
      · simp [Tree.toList1, e']
      · intro x hx
        simp only [List.mem_append, List.mem_cons] at hx
        rcases hx with hx | rfl | hx
        · exact hlt.neg_trans v d x hd (h10 x hx).1
        · exact hd
        · exact hb1 x hx
    · obtain ⟨l1, l2, e, e', hb1, hb2⟩ := ih1 h1
      refine ⟨l1, l2 ++ d :: t0.toList1, ?_, ?_, hb1, ?_⟩
      · simp [Tree.toList1, e]
      · simp [Tree.toList1, e']
      · intro y hy
        simp only [List.mem_append, List.mem_cons] at hy
        rcases hy with hy | rfl | hy
        · exact hb2 y hy
        · exact hlt.asymm v y hd
        · cases hyv : lt y v with
          | false => rfl
          | true =>
            have := hlt.trans y v d hyv hd
            rw [hd0 y hy] at this
            cases this

theorem nondecreasing_insert {α : Type} (lt : α → α → Bool) (v : α) (l1 l2 : List α)
    (h : nondecreasing lt (l1 ++ l2)) (hb1 : ∀ x ∈ l1, lt v x = false)
    (hb2 : ∀ y ∈ l2, lt y v = false) : nondecreasing lt (l1 ++ v :: l2) := by
  simp only [nondecreasing, List.pairwise_append, List.pairwise_cons, List.mem_cons,
    forall_eq_or_imp] at h ⊢
  obtain ⟨h1, h2, h12⟩ := h
  exact ⟨h1, ⟨hb2, h2⟩, fun x hx => ⟨hb1 x hx, h12 x hx⟩⟩

/-! # The claims -/

/-! ## Insertion into the empty tree -/

/-- C1: for every comparator and value, inserting into the empty tree made by
`rb_create` completes; the returned handle is the root, a node that did not
exist before, with payload `v`, size 1, no children and no parent. -/
theorem insert_into_empty {α : Type} (lt : α → α → Bool) (v : α) (mem : rb_mem α) :
    ∃ mem1 tree1 a nd,
      _rb_insert mem (rb_create lt) v = .ok (mem1, tree1, some a) ∧
      tree1.root = some a ∧ mem[a]? = none ∧
      deref mem1 (some a) = .ok nd ∧
      nd.data = v ∧ nd.size = 1 ∧ nd.childs0 = none ∧ nd.childs1 = none ∧ nd.p = none := by
  refine ⟨mem ++ [some ⟨none, none, none, 1, true, v⟩], ⟨some mem.length, lt⟩, mem.length,
    ⟨none, none, none, 1, true, v⟩, ?_, rfl, ?_, ?_, rfl, rfl, rfl, rfl, rfl⟩
  · simp [_rb_insert, alloc, rb_create, budget, _rb_insert_descend, update, store, bind,
      Except.bind]
  · simp
  · simp [deref]

/-- C2: inserting into the empty tree returns at once, before the fix-up that
blackens the root is reached, so the root it leaves behind is red. -/
theorem insert_into_empty_root_red {α : Type} (lt : α → α → Bool) (v : α) (mem : rb_mem α) :
    ∃ mem1 tree1 h nd,
      _rb_insert mem (rb_create lt) v = .ok (mem1, tree1, h) ∧
      deref mem1 tree1.root = .ok nd ∧ nd.is_red = true := by
  refine ⟨mem ++ [some ⟨none, none, none, 1, true, v⟩], ⟨some mem.length, lt⟩, some mem.length,
    ⟨none, none, none, 1, true, v⟩, ?_, ?_, rfl⟩
  · simp [_rb_insert, alloc, rb_create, budget, _rb_insert_descend, update, store, bind,
      Except.bind]
  · simp [deref]

/-- C3: inserting 10 and then 20 into a new empty tree: the first insertion
leaves a red root, and the second one reads through the root's absent parent
in `_rb_child_dir` and does not return, so 30 is never inserted. -/
theorem insert_10_20_faults :
    _rb_insert [] (rb_create int_lt) 10
        = .ok ([some ⟨none, none, none, 1, true, 10⟩], ⟨some 0, int_lt⟩, some 0) ∧
      _rb_insert [some ⟨none, none, none, 1, true, 10⟩] ⟨some 0, int_lt⟩ 20
        = .error .null_deref :=
  ⟨rfl, rfl⟩

/-- C5: on the seven-node red-black tree, inserting 5 completes (uncle red:
recolour, then the loop stops because `*parent` was not moved up) and leaves
the red node 30 with the red child 20. -/
theorem insert_leaves_red_red :
    ∃ t mem1 h t1,
      well_formed seven_nodes (some 0) t ∧ t.red_black = true ∧
      _rb_insert seven_nodes ⟨some 0, int_lt⟩ 5 = .ok (mem1, ⟨some 0, int_lt⟩, h) ∧
      well_formed mem1 (some 0) t1 ∧ t1.no_red_red = false ∧ t1.balanced = true :=
  ⟨.node 0 (.node 2 .nil 1 false 60 .nil) 7 false 50
      (.node 1 (.node 4 .nil 1 false 40 .nil) 5 true 30
        (.node 3 (.node 6 .nil 1 true 25 .nil) 3 false 20 (.node 5 .nil 1 true 10 .nil))),
    _, _,
    .node 0 (.node 2 .nil 1 false 60 .nil) 8 false 50
      (.node 1 (.node 4 .nil 1 false 40 .nil) 6 true 30
        (.node 3 (.node 6 .nil 1 false 25 .nil) 4 true 20
          (.node 5 .nil 3 false 10 (.node 7 .nil 1 true 5 .nil)))),
    by decide, by decide, rfl, by decide, by decide, by decide⟩

/-- C6: inserting into a one-node tree completes and leaves the root with
size 3 above a single leaf of size 1: the parent of the new node is counted
twice (`parent->size += 1`, then again by the walk to the root). -/
theorem insert_counts_parent_twice {α : Type} (lt : α → α → Bool) (a v : α) :
    ∃ t mem1 h t1,
      well_formed (one_black a) (some 0) t ∧ t.sizes_ok = true ∧
      _rb_insert (one_black a) ⟨some 0, lt⟩ v = .ok (mem1, ⟨some 0, lt⟩, h) ∧
      well_formed mem1 (some 0) t1 ∧ t1.sz = 3 ∧ t1.addrs.length = 2 ∧ t1.sizes_ok = false := by
  cases hd : lt v a
  · refine ⟨.node 0 .nil 1 false a .nil,
      [some ⟨none, some 1, none, 3, false, a⟩, some ⟨some 0, none, none, 1, true, v⟩], some 1,
      .node 0 (.node 1 .nil 1 true v .nil) 3 false a .nil,
      ⟨rfl, by simp [Tree.addrs]⟩, rfl, ?_, ⟨rfl, by simp [Tree.addrs]⟩, rfl, rfl, rfl⟩
    simp [_rb_insert, one_black, alloc, budget, _rb_insert_descend, deref, hd, rb_node_s.childs,
      update, store, rb_node_s.setChild, _rb_insert_grow, _rb_insert_fixup,
      _rb_insert_fixup_loop, bind, Except.bind, pure, Except.pure, SIZE_MOD]
  · refine ⟨.node 0 .nil 1 false a .nil,
      [some ⟨none, none, some 1, 3, false, a⟩, some ⟨some 0, none, none, 1, true, v⟩], some 1,
      .node 0 .nil 3 false a (.node 1 .nil 1 true v .nil),
      ⟨rfl, by simp [Tree.addrs]⟩, rfl, ?_, ⟨rfl, by simp [Tree.addrs]⟩, rfl, rfl, rfl⟩
    simp [_rb_insert, one_black, alloc, budget, _rb_insert_descend, deref, hd, rb_node_s.childs,
      update, store, rb_node_s.setChild, _rb_insert_grow, _rb_insert_fixup,
      _rb_insert_fixup_loop, bind, Except.bind, pure, Except.pure, SIZE_MOD]

/-- C7: on a black root with two red leaves, whichever side the new value
goes to, the fix-up takes the red-uncle branch, which overwrites the caller's
`n` with the grandparent: the handle returned is the old root at address 0,
whose payload is `b`, and not the new node, which sits at address 3. -/
theorem insert_returns_grandparent {α : Type} (lt : α → α → Bool) (c0 b c1 v : α) :
    ∃ t, well_formed (red_leaves c0 b c1) (some 0) t ∧ t.red_black = true ∧
      ∃ mem1 nd new,
        _rb_insert (red_leaves c0 b c1) ⟨some 0, lt⟩ v = .ok (mem1, ⟨some 0, lt⟩, some 0) ∧
        deref mem1 (some 0) = .ok nd ∧ nd.data = b ∧
        (red_leaves c0 b c1)[3]? = none ∧ deref mem1 (some 3) = .ok new ∧ new.data = v := by
  refine ⟨.node 0 (.node 1 .nil 1 true c0 .nil) 3 false b (.node 2 .nil 1 true c1 .nil),
    ⟨rfl, by simp [Tree.addrs]⟩, rfl, ?_⟩
  cases h0 : lt v b <;> cases h1 : lt v c0 <;> cases h2 : lt v c1 <;>
    simp [_rb_insert, red_leaves, alloc, budget, _rb_insert_descend, deref, h0, h1, h2,
      rb_node_s.childs, update, store, rb_node_s.setChild, _rb_insert_grow, _rb_insert_fixup,
      _rb_insert_fixup_loop, _rb_child_dir, bind, Except.bind, pure, Except.pure, SIZE_MOD]

/-- C8: erasing the root of a valid tree made of a black root with two black
leaves retargets the removal to the node found in `childs[1]`, a black leaf;
after unlinking it the fix-up reads the colour of an absent child of the
sibling and does not return.  The witness of the claim cannot be built
either: inserting 1 to 7 into a new tree stops at the second insertion. -/
theorem erase_two_children_faults {α : Type} (lt : α → α → Bool) (c0 b c1 : α) :
    (∃ t, well_formed (black_leaves c0 b c1) (some 0) t ∧ t.red_black = true ∧
      t.sizes_ok = true) ∧
      rb_erase (black_leaves c0 b c1) ⟨some 0, lt⟩ (some 0) = .error .null_deref ∧
      insert_all [] (rb_create int_lt) [1, 2, 3, 4, 5, 6, 7] = .error .null_deref :=
  ⟨⟨.node 0 (.node 1 .nil 1 false c0 .nil) 3 false b (.node 2 .nil 1 false c1 .nil),
    ⟨rfl, by simp [Tree.addrs]⟩, rfl, rfl⟩, rfl, rfl⟩

/-- C9: erasing a black leaf of a valid tree (black root, two black leaves,
sizes 3, 1, 1): the fix-up reads the colour of an absent child of the sibling
and does not return, so no tree results. -/
theorem erase_black_leaf_faults {α : Type} (lt : α → α → Bool) (c0 b c1 : α) :
    (∃ t, well_formed (black_leaves c0 b c1) (some 0) t ∧ t.red_black = true ∧
      t.sizes_ok = true ∧ t.toList0 = [c0, b, c1]) ∧
      rb_erase (black_leaves c0 b c1) ⟨some 0, lt⟩ (some 1) = .error .null_deref ∧
      rb_erase (black_leaves c0 b c1) ⟨some 0, lt⟩ (some 2) = .error .null_deref :=
  ⟨⟨.node 0 (.node 1 .nil 1 false c0 .nil) 3 false b (.node 2 .nil 1 false c1 .nil),
    ⟨rfl, by simp [Tree.addrs]⟩, rfl, rfl, rfl⟩, rfl, rfl⟩

/-- C10: the round trip over the two values 1 and 2 does not reach the
erasures: the second insertion reads through the absent parent of the red
root left by the first. -/
theorem round_trip_two_faults :
    round_trip int_lt [1, 2] [1, 0] = .error .null_deref ∧
      round_trip int_lt [1, 2] [0, 1] = .error .null_deref :=
  ⟨rfl, rfl⟩

/-! ## Insertion and the order of the traversal -/

/-- C4, as stated, fails: the one-node tree holding 5 is well formed and its
traversal `childs[0]`, node, `childs[1]` is non-decreasing; inserting 3
completes and hangs 3 in `childs[1]` (because `lt(3, 5)` is true), so that
traversal becomes 5, 3. -/
theorem insert_breaks_childs0_order :
    strict_weak int_lt ∧
      well_formed (one_black (5 : Int)) (some 0) (.node 0 .nil 1 false 5 .nil) ∧
      nondecreasing int_lt (Tree.node 0 .nil 1 false (5 : Int) .nil).toList0 ∧
      _rb_insert (one_black (5 : Int)) ⟨some 0, int_lt⟩ 3
        = .ok ([some ⟨none, none, some 1, 3, false, 5⟩, some ⟨some 0, none, none, 1, true, 3⟩],
            ⟨some 0, int_lt⟩, some 1) ∧
      well_formed [some ⟨none, none, some 1, 3, false, (5 : Int)⟩,
          some ⟨some 0, none, none, 1, true, 3⟩] (some 0)
        (.node 0 .nil 3 false 5 (.node 1 .nil 1 true 3 .nil)) ∧
      (Tree.node 0 .nil 3 false (5 : Int) (.node 1 .nil 1 true 3 .nil)).toList0 = [5, 3] ∧
      ¬ nondecreasing int_lt
        (Tree.node 0 .nil 3 false (5 : Int) (.node 1 .nil 1 true 3 .nil)).toList0 :=
  ⟨int_lt_strict_weak, by decide, by decide, rfl, by decide, rfl, by decide⟩

/-- C4, amended: for a strict weak ordering, a well formed tree whose
traversal `childs[1]`, node, `childs[0]` is non-decreasing, and a value whose
insertion meets no rotation (the tree is empty, or the node the descent ends
under is black, or it is red with a red sibling), `_rb_insert` completes, the
tree is well formed again, its traversal `childs[1]`, node, `childs[0]` is the
old one with `v` put in at one place, and it is still non-decreasing. -/
theorem insert_keeps_childs1_order {α : Type} (lt : α → α → Bool) (hlt : strict_weak lt)
    (mem : rb_mem α) (root : rb_node_p) (t : Tree α) (v : α)
    (hwf : well_formed mem root t) (hord : nondecreasing lt t.toList1)
    (hcalm : t.calm lt v false = true) :
    ∃ mem1 tree1 h t1,
      _rb_insert mem ⟨root, lt⟩ v = .ok (mem1, tree1, h) ∧ tree1.lt = lt ∧
      well_formed mem1 tree1.root t1 ∧
      (∃ l1 l2, t.toList1 = l1 ++ l2 ∧ t1.toList1 = l1 ++ v :: l2) ∧
      nondecreasing lt t1.toList1 := by
  obtain ⟨mem1, h, t1, hins, hw, hb⟩ := insert_calm lt v mem root t hwf hcalm
  obtain ⟨l1, l2, e, e', hb1, hb2⟩ := attach_toList1 lt hlt v mem.length t hord
  have hl : t1.toList1 = l1 ++ v :: l2 := by
    rw [← blur_toList1 false t1, hb, blur_toList1, e']
  refine ⟨mem1, _, h, t1, hins, rfl, hw, ⟨l1, l2, e, hl⟩, ?_⟩
  rw [hl]
  exact nondecreasing_insert lt v l1 l2 (e ▸ hord) hb1 hb2

/-- The amended C4 at a tree with a black root 2 and the red leaves 3 (in
`childs[0]`) and 1 (in `childs[1]`), inserting 0 under the red leaf 1. -/
theorem insert_keeps_childs1_order_witness :
    strict_weak int_lt ∧
      well_formed (red_leaves (3 : Int) 2 1) (some 0)
        (.node 0 (.node 1 .nil 1 true 3 .nil) 3 false 2 (.node 2 .nil 1 true 1 .nil)) ∧
      nondecreasing int_lt (Tree.node 0 (.node 1 .nil 1 true 3 .nil) 3 false (2 : Int)
        (.node 2 .nil 1 true 1 .nil)).toList1 ∧
      (Tree.node 0 (.node 1 .nil 1 true 3 .nil) 3 false (2 : Int)
        (.node 2 .nil 1 true 1 .nil)).calm int_lt 0 false = true ∧
      ∃ mem1 tree1 h t1,
        _rb_insert (red_leaves (3 : Int) 2 1) ⟨some 0, int_lt⟩ 0 = .ok (mem1, tree1, h) ∧
        tree1.lt = int_lt ∧ well_formed mem1 tree1.root t1 ∧
        (∃ l1 l2, (Tree.node 0 (.node 1 .nil 1 true 3 .nil) 3 false (2 : Int)
            (.node 2 .nil 1 true 1 .nil)).toList1 = l1 ++ l2 ∧ t1.toList1 = l1 ++ 0 :: l2) ∧
        nondecreasing int_lt t1.toList1 :=
  ⟨int_lt_strict_weak, by decide, by decide, by decide,
    insert_keeps_childs1_order int_lt int_lt_strict_weak (red_leaves 3 2 1) (some 0)
      (.node 0 (.node 1 .nil 1 true 3 .nil) 3 false 2 (.node 2 .nil 1 true 1 .nil)) 0
      (by decide) (by decide) (by decide)⟩

/-! ## Insertions that rotate

The two theorems below show what the amended C4 leaves out: on a red-black
tree the rotating branch reads the `size` of an absent child, and where the
rotation does complete at the root, `tree->root` is not moved to the promoted
node. -/

/-- With a red parent and no uncle the fix-up rotates at the grandparent, and
`_rb_rotate` reads `r->childs[dir]->size` through the absent uncle. -/
theorem insert_rotation_faults :
    well_formed [some ⟨none, none, some 1, 2, false, (2 : Int)⟩,
        some ⟨some 0, none, none, 1, true, 1⟩] (some 0)
      (.node 0 .nil 2 false 2 (.node 1 .nil 1 true 1 .nil)) ∧
      _rb_insert [some ⟨none, none, some 1, 2, false, (2 : Int)⟩,
        some ⟨some 0, none, none, 1, true, 1⟩] ⟨some 0, int_lt⟩ 0 = .error .null_deref :=
  ⟨by decide, rfl⟩

/-- On the lopsided tree the rotation at the root completes, but `tree->root`
still points to the old root, which now has a parent: the tree below
`tree->root` is no longer well formed, and the new node is not below it. -/
theorem insert_rotation_detaches_root :
    (∃ t, well_formed lopsided (some 0) t ∧ t.toList1 = [5, 7, 10, 15] ∧ t.sizes_ok = true) ∧
      ∃ mem1 nd, _rb_insert lopsided ⟨some 0, int_lt⟩ 1 = .ok (mem1, ⟨some 0, int_lt⟩, some 4) ∧
        picture mem1 (some 0) = none ∧ deref mem1 (some 0) = .ok nd ∧ nd.p = some 1 :=
  ⟨⟨_, ⟨rfl, by decide⟩, rfl, rfl⟩, _, _, rfl, rfl, rfl, rfl⟩


/-! ## Creation, and erasing nothing -/

/-- C12: for every comparator, `rb_create` returns a tree whose root is absent
and whose stored comparator is the one given. -/
theorem rb_create_empty {α : Type} (lt : α → α → Bool) :
    (rb_create lt).root = none ∧ (rb_create lt).lt = lt :=
  ⟨rfl, rfl⟩

/-- C13: `rb_erase` with an absent handle completes and returns the store and
the tree handle it was given: no cell, and neither the root nor the
comparator, is touched. -/
theorem erase_null_is_noop {α : Type} (mem : rb_mem α) (tree : rb_tree_s α) :
    rb_erase mem tree none = .ok (mem, tree) :=
  rfl

/-! ## Where equal values go -/

/-- C11, as stated, fails: inserting 5 into the one-node tree holding 5
completes and hangs the new node in `childs[0]` of the old one, whose
`childs[1]` stays absent; and in a tree whose root 5 has both children, the
descent for 5 ends under the node in `childs[0]`. -/
theorem insert_equal_lands_in_childs0 :
    int_lt 5 5 = false ∧
      _rb_insert (one_black (5 : Int)) ⟨some 0, int_lt⟩ 5
        = .ok ([some ⟨none, some 1, none, 3, false, 5⟩, some ⟨some 0, none, none, 1, true, 5⟩],
            ⟨some 0, int_lt⟩, some 1) ∧
      _rb_insert_descend int_lt 5 (red_leaves (7 : Int) 5 3) 4 (some 0) none false
        = .ok (some 1, true) :=
  ⟨rfl, rfl, rfl⟩

/-- C11, amended: when the descent of `_rb_insert` visits a node whose payload
is equal to `v` under `lt`, it continues into `childs[0]` of that node; in
particular, inserting `v` into the tree that holds a single black node with an
equal value `a` completes and hangs the new node in `childs[0]` of that node,
and the traversal `childs[1]`, node, `childs[0]` is `a`, `v`. -/
theorem descent_equal_takes_childs0 {α : Type} (lt : α → α → Bool) (v a : α) (mem : rb_mem α)
    (cur parent : rb_node_p) (dir : Bool) (fuel : Nat) (cn : rb_node_s α)
    (hcur : deref mem cur = .ok cn)
    (h1 : lt v cn.data = false) (_h2 : lt cn.data v = false)
    (h3 : lt v a = false) (_h4 : lt a v = false) :
    _rb_insert_descend lt v mem (fuel + 1) cur parent dir
        = _rb_insert_descend lt v mem fuel cn.childs0 cur false ∧
      ∃ mem1 nd t1,
        _rb_insert (one_black a) ⟨some 0, lt⟩ v = .ok (mem1, ⟨some 0, lt⟩, some 1) ∧
        deref mem1 (some 0) = .ok nd ∧ nd.childs0 = some 1 ∧ nd.childs1 = none ∧
        well_formed mem1 (some 0) t1 ∧ t1.toList1 = [a, v] := by
  constructor
  · have hne : cur ≠ none := by
      intro e
      subst e
      simp [deref] at hcur
    simp [_rb_insert_descend, hne, hcur, h1, bind, Except.bind, rb_node_s.childs]
  · refine ⟨[some ⟨none, some 1, none, 3, false, a⟩, some ⟨some 0, none, none, 1, true, v⟩], _,
      .node 0 (.node 1 .nil 1 true v .nil) 3 false a .nil, ?_, rfl, rfl, rfl,
      ⟨rfl, by simp [Tree.addrs]⟩, rfl⟩
    simp [_rb_insert, one_black, alloc, budget, _rb_insert_descend, deref, h3, rb_node_s.childs,
      update, store, rb_node_s.setChild, _rb_insert_grow, _rb_insert_fixup,
      _rb_insert_fixup_loop, bind, Except.bind, pure, Except.pure, SIZE_MOD]

/-- The amended C11 at the comparator of `main.c` with `v = a = 5`, the
descent starting at the root of a tree whose root 5 has both children. -/
theorem descent_equal_takes_childs0_witness :
    deref (red_leaves (7 : Int) 5 3) (some 0) = .ok ⟨none, some 1, some 2, 3, false, 5⟩ ∧
      int_lt 5 5 = false ∧
      (_rb_insert_descend int_lt 5 (red_leaves (7 : Int) 5 3) (3 + 1) (some 0) none false
          = _rb_insert_descend int_lt 5 (red_leaves (7 : Int) 5 3) 3 (some 1) (some 0) false ∧
        ∃ mem1 nd t1,
          _rb_insert (one_black (5 : Int)) ⟨some 0, int_lt⟩ 5
            = .ok (mem1, ⟨some 0, int_lt⟩, some 1) ∧
          deref mem1 (some 0) = .ok nd ∧ nd.childs0 = some 1 ∧ nd.childs1 = none ∧
          well_formed mem1 (some 0) t1 ∧ t1.toList1 = [5, 5]) :=
  ⟨rfl, rfl,
    descent_equal_takes_childs0 int_lt 5 5 (red_leaves 7 5 3) (some 0) none false 3
      ⟨none, some 1, some 2, 3, false, 5⟩ rfl rfl rfl rfl rfl⟩

/-! ## The rotation -/

/-- C15: `_rb_rotate` reads `r->childs[dir]->size` and
`new_root->childs[dir]->size` without looking whether these children exist.
On a node with the child opposite `dir` present and the child on side `dir`
absent, and on a node with both children present but no grandchild to
displace, it reads through `NULL` instead of counting 0. -/
theorem rotate_reads_absent_child {α : Type} (b c0 c1 : α) :
    (∃ t, well_formed (one_child b c1) (some 0) t ∧ t.sizes_ok = true) ∧
      _rb_rotate (one_child b c1) (some 0) false = .error .null_deref ∧
      (∃ t, well_formed (two_leaves c0 b c1) (some 0) t ∧ t.sizes_ok = true) ∧
      _rb_rotate (two_leaves c0 b c1) (some 0) false = .error .null_deref ∧
      _rb_rotate (two_leaves c0 b c1) (some 0) true = .error .null_deref :=
  ⟨⟨.node 0 .nil 2 false b (.node 1 .nil 1 true c1 .nil), ⟨rfl, by simp [Tree.addrs]⟩, rfl⟩, rfl,
    ⟨.node 0 (.node 1 .nil 1 false c0 .nil) 3 false b (.node 2 .nil 1 false c1 .nil),
      ⟨rfl, by simp [Tree.addrs]⟩, rfl⟩, rfl, rfl⟩

/-- C16: rotating the node 30 of the six-node tree, which hangs in
`childs[0]` of the root, with `dir = 1` completes and promotes the node 20;
the root's `childs[0]` still points to 30, and its `childs[1]`, which held the
leaf 60, now points to 20: `_rb_child_dir(r)` is asked after `r->p` has been
set to the promoted node, so the slot written is always `childs[dir]`. -/
theorem rotate_writes_wrong_slot :
    (∃ t, well_formed six_nodes (some 0) t ∧ t.sizes_ok = true) ∧
      deref six_nodes (some 0) = .ok ⟨none, some 1, some 2, 6, false, 50⟩ ∧
      ∃ mem1 pn nn,
        _rb_rotate six_nodes (some 1) true = .ok (mem1, some 3) ∧
        deref mem1 (some 0) = .ok pn ∧ pn.childs0 = some 1 ∧ pn.childs1 = some 3 ∧
        deref mem1 (some 3) = .ok nn ∧ nn.p = some 0 :=
  ⟨⟨_, ⟨rfl, by decide⟩, rfl⟩, rfl, _, _, _, rfl, rfl, rfl, rfl, rfl, rfl⟩

/-! ## What the three entry points can build -/

/-- On a tree whose root is a red node without parent, `_rb_insert` reads
through the absent parent of the root in `_rb_child_dir`. -/
theorem insert_under_red_root {α : Type} (lt : α → α → Bool) (mem : rb_mem α) (r : Nat)
    (rn : rb_node_s α) (b : α) (hr : mem[r]? = some (some rn)) (hp : rn.p = none)
    (hc0 : rn.childs0 = none) (hc1 : rn.childs1 = none) (hred : rn.is_red = true) :
    _rb_insert mem ⟨some r, lt⟩ b = .error .null_deref := by
  have hrl := lt_length_of_getElem? hr
  have hdesc : _rb_insert_descend lt b (mem ++ [some ⟨none, none, none, 1, false, b⟩])
      (mem.length + 2) (some r) none false = .ok (some r, lt b rn.data) := by
    have e : (mem ++ [some (⟨none, none, none, 1, false, b⟩ : rb_node_s α)])[r]?
        = some (some rn) := by
      rw [List.getElem?_append_left hrl, hr]
    simp only [_rb_insert_descend, deref_some e, bind, Except.bind]
    cases lt b rn.data <;> simp [rb_node_s.childs, hc0, hc1]
  rw [insert_unfold mem ⟨some r, lt⟩ b r (lt b rn.data) rn hdesc hr]
  have hch : chain (mem.set r (some { rn.setChild (lt b rn.data) (some mem.length) with
        size := ((rn.setChild (lt b rn.data) (some mem.length)).size + 1) % SIZE_MOD })
      ++ [some ⟨some r, none, none, 1, true, b⟩]) 1 (some r) := by
    have hcell : (mem.set r (some { rn.setChild (lt b rn.data) (some mem.length) with
          size := ((rn.setChild (lt b rn.data) (some mem.length)).size + 1) % SIZE_MOD })
        ++ [some ⟨some r, none, none, 1, true, b⟩])[r]?
        = some (some { rn.setChild (lt b rn.data) (some mem.length) with
          size := ((rn.setChild (lt b rn.data) (some mem.length)).size + 1) % SIZE_MOD }) := by
      rw [List.getElem?_append_left (by simpa using hrl), List.getElem?_set_self hrl]
    have hpp : (rn.setChild (lt b rn.data) (some mem.length)).p = none := by
      rw [setChild_p, hp]
    exact ⟨r, _, rfl, hcell, hpp⟩
  obtain ⟨mem6, hgrow, hb6⟩ := grow_ok 1 _ (some r) (mem.length + 2) hch (by omega)
  rw [hgrow]
  obtain ⟨rn6, hr6, hp6, hc6, _⟩ := linked_cell mem mem6 r rn _ _ hb6 hr
    (setChild_p rn _ _) (setChild_is_red rn _ _) r rn hr
  have hnull : deref mem6 none = .error .null_deref := rfl
  simp only [Except.bind, _rb_insert_fixup, budget, _rb_insert_fixup_loop, deref_some hr6,
    hc6, hred, _rb_child_dir, hp6, hp, hnull, bind]
  simp

/-- The second part of the invariant: what `_rb_insert` and `rb_erase` do to a
store that holds no live node except a lone red root. -/
theorem lone_root_insert {α : Type} (mem : rb_mem α) (tree : rb_tree_s α) (v : α)
    (mem1 : rb_mem α) (tree1 : rb_tree_s α) (h : rb_node_p)
    (hinv : lone_root mem tree.root) (hins : _rb_insert mem tree v = .ok (mem1, tree1, h)) :
    lone_root mem1 tree1.root ∧ tree1.lt = tree.lt := by
  obtain ⟨root, lt⟩ := tree
  cases root with
  | some r =>
    obtain ⟨⟨a, ha⟩, _⟩ := hinv
    rw [insert_under_red_root lt mem r _ v ha rfl rfl rfl rfl] at hins
    cases hins
  | none =>
    have e : _rb_insert mem ⟨none, lt⟩ v
        = .ok (mem ++ [some ⟨none, none, none, 1, true, v⟩], ⟨some mem.length, lt⟩,
            some mem.length) := by
      simp [_rb_insert, alloc, budget, _rb_insert_descend, update, store, bind, Except.bind]
    rw [e] at hins
    simp only [Except.ok.injEq, Prod.mk.injEq] at hins
    obtain ⟨rfl, rfl, rfl⟩ := hins
    refine ⟨⟨⟨v, by simp⟩, ?_⟩, rfl⟩
    intro a hne
    by_cases hl : a < mem.length
    · rw [List.getElem?_append_left hl]
      exact hinv a
    · left
      rw [List.getElem?_eq_none]
      simp only [List.length_append, List.length_singleton]
      omega

theorem deref_dead {α : Type} (mem : rb_mem α) (a : Nat)
    (h : mem[a]? = none ∨ mem[a]? = some none) : deref mem (some a) = .error .dangling := by
  rcases h with h | h <;> simp [deref, h]

theorem lone_root_erase {α : Type} (mem : rb_mem α) (tree : rb_tree_s α) (n : rb_node_p)
    (mem1 : rb_mem α) (tree1 : rb_tree_s α)
    (hinv : lone_root mem tree.root) (hers : rb_erase mem tree n = .ok (mem1, tree1)) :
    lone_root mem1 tree1.root ∧ tree1.lt = tree.lt := by
  obtain ⟨root, lt⟩ := tree
  cases n with
  | none =>
    simp only [rb_erase, if_true, Except.ok.injEq, Prod.mk.injEq] at hers
    obtain ⟨rfl, rfl⟩ := hers
    exact ⟨hinv, rfl⟩
  | some a =>
    cases root with
    | none =>
      simp [rb_erase, deref_dead mem a (hinv a), bind, Except.bind] at hers
    | some r =>
      obtain ⟨⟨v, hv⟩, hrest⟩ := hinv
      by_cases e : a = r
      · subst e
        have hal := lt_length_of_getElem? hv
        simp [rb_erase, rb_erase_fixup, deref_some hv, release, hv, bind, Except.bind, pure,
          Except.pure] at hers
        obtain ⟨rfl, rfl⟩ := hers
        refine ⟨?_, rfl⟩
        intro b
        by_cases eb : a = b
        · subst eb
          right
          rw [List.getElem?_set_self hal]
        · rw [List.getElem?_set_ne eb]
          exact hrest b (fun h => eb h.symm)
      · simp [rb_erase, deref_dead mem a (hrest a e), bind, Except.bind] at hers

theorem lone_root_reachable {α : Type} (lt : α → α → Bool) (mem : rb_mem α)
    (tree : rb_tree_s α) (h : reachable lt mem tree) : lone_root mem tree.root := by
  induction h with
  | create => intro a; left; simp
  | insert mem tree v mem1 tree1 h _ hins ih => exact (lone_root_insert mem tree v mem1 tree1 h ih hins).1
  | erase mem tree n mem1 tree1 _ hers ih => exact (lone_root_erase mem tree n mem1 tree1 ih hers).1

/-- C18: a program that only uses `rb_create`, `_rb_insert` and `rb_erase`
never holds a tree of two or more nodes; for every comparator, store and
values `a` and `b`, inserting `a` into the empty tree leaves a red root, on
which the insertion of `b` reads through the absent parent of the root and
does not return. -/
theorem api_never_builds_two_nodes {α : Type} (lt : α → α → Bool) (mem : rb_mem α)
    (tree : rb_tree_s α) (hreach : reachable lt mem tree) :
    (∃ t, well_formed mem tree.root t ∧ t.addrs.length ≤ 1) ∧
      ∀ (mem0 : rb_mem α) (a b : α), ∃ mem1 tree1 h,
        _rb_insert mem0 (rb_create lt) a = .ok (mem1, tree1, h) ∧
        _rb_insert mem1 tree1 b = .error .null_deref := by
  constructor
  · have hinv := lone_root_reachable lt mem tree hreach
    cases hroot : tree.root with
    | none => exact ⟨.nil, ⟨by simp [picture, budget, reify], by simp [Tree.addrs]⟩, by simp [Tree.addrs]⟩
    | some r =>
      rw [hroot] at hinv
      obtain ⟨⟨v, hv⟩, _⟩ := hinv
      refine ⟨.node r .nil 1 true v .nil, ⟨?_, by simp [Tree.addrs]⟩, by simp [Tree.addrs]⟩
      have hl := lt_length_of_getElem? hv
      have e : budget mem = (mem.length - 1) + 1 + 1 := by simp only [budget]; omega
      simp only [picture]
      rw [e]
      simp [reify, hv]
  · intro mem0 a b
    refine ⟨mem0 ++ [some ⟨none, none, none, 1, true, a⟩], ⟨some mem0.length, lt⟩,
      some mem0.length, ?_, ?_⟩
    · simp [_rb_insert, alloc, rb_create, budget, _rb_insert_descend, update, store, bind,
        Except.bind]
    · exact insert_under_red_root lt _ mem0.length ⟨none, none, none, 1, true, a⟩ b (by simp)
        rfl rfl rfl rfl

/-- C18 at the state reached by one insertion into a new tree. -/
theorem api_never_builds_two_nodes_witness :
    reachable int_lt [some ⟨none, none, none, 1, true, (5 : Int)⟩] ⟨some 0, int_lt⟩ ∧
      ((∃ t, well_formed [some ⟨none, none, none, 1, true, (5 : Int)⟩]
          (rb_tree_s.mk (some 0) int_lt).root t ∧ t.addrs.length ≤ 1) ∧
        ∀ (mem0 : rb_mem Int) (a b : Int), ∃ mem1 tree1 h,
          _rb_insert mem0 (rb_create int_lt) a = .ok (mem1, tree1, h) ∧
          _rb_insert mem1 tree1 b = .error .null_deref) :=
  ⟨reachable.insert [] (rb_create int_lt) 5 _ _ (some 0) reachable.create rfl,
    api_never_builds_two_nodes int_lt _ _
      (reachable.insert [] (rb_create int_lt) 5 _ _ (some 0) reachable.create rfl)⟩

/-! ## The rotation, when it completes -/

theorem rotate_store {α : Type} (mem : rb_mem α) (r n h g : Nat) (dir : Bool)
    (rn nn hn gn : rb_node_s α)
    (hr : mem[r]? = some (some rn)) (hnn : mem[n]? = some (some nn))
    (hh : mem[h]? = some (some hn)) (hg : mem[g]? = some (some gn))
    (c1 : rn.childs (!dir) = some n) (c2 : rn.childs dir = some h)
    (c3 : nn.childs dir = some g)
    (d1 : r ≠ n) (d2 : r ≠ g) (d3 : n ≠ g) (d4 : h ≠ n) :
    ∃ M : rb_mem α,
      M[r]? = some (some ({ rn with size := (hn.size + gn.size + 1) % SIZE_MOD,
                                    p := some n }.setChild (!dir) (some g))) ∧
      M[n]? = some (some ({ nn with size := rn.size, p := rn.p }.setChild dir (some r))) ∧
      M[g]? = some (some { gn with p := some r }) ∧
      (∀ x, x ≠ r → x ≠ n → x ≠ g → M[x]? = mem[x]?) ∧
      M.length = mem.length ∧
      _rb_rotate mem (some r) dir =
        (if rn.p = none then .ok (M, some n) else
          (do
            let d ← _rb_child_dir M (some r)
            let m ← update M rn.p (fun x => x.setChild d (some n))
            pure (m, some n))) := by
  have lr := lt_length_of_getElem? hr
  have ln := lt_length_of_getElem? hnn
  have lg := lt_length_of_getElem? hg
  refine ⟨((((((mem.set n (some { nn with size := rn.size })).set r
      (some { rn with size := (hn.size + gn.size + 1) % SIZE_MOD })).set g
      (some { gn with p := some r })).set r
      (some ({ rn with size := (hn.size + gn.size + 1) % SIZE_MOD }.setChild (!dir) (some g)))).set n
      (some ({ nn with size := rn.size }.setChild dir (some r)))).set r
      (some { { rn with size := (hn.size + gn.size + 1) % SIZE_MOD }.setChild (!dir) (some g)
        with p := some n })).set n
      (some { { nn with size := rn.size }.setChild dir (some r) with p := rn.p }),
    ?_, ?_, ?_, ?_, ?_, ?_⟩
  · rw [List.getElem?_set_ne (Ne.symm d1), List.getElem?_set_self (by simpa using lr)]
    cases dir <;> rfl
  · rw [List.getElem?_set_self (by simpa using ln)]
    cases dir <;> rfl
  · rw [List.getElem?_set_ne d3, List.getElem?_set_ne d2, List.getElem?_set_ne d3,
      List.getElem?_set_ne d2, List.getElem?_set_self (by simpa using lg)]
  · intro x h1 h2 h3
    rw [List.getElem?_set_ne (Ne.symm h2), List.getElem?_set_ne (Ne.symm h1),
      List.getElem?_set_ne (Ne.symm h2), List.getElem?_set_ne (Ne.symm h1),
      List.getElem?_set_ne (Ne.symm h3), List.getElem?_set_ne (Ne.symm h1),
      List.getElem?_set_ne (Ne.symm h2)]
  · simp
  · set M1 := mem.set n (some { nn with size := rn.size }) with hM1
    have l1 : M1.length = mem.length := by simp [hM1]
    have e1 : M1[r]? = some (some rn) := by
      rw [hM1, List.getElem?_set_ne (Ne.symm d1), hr]
    have e2 : M1[h]? = some (some hn) := by
      rw [hM1, List.getElem?_set_ne (Ne.symm d4), hh]
    have e3 : M1[n]? = some (some { nn with size := rn.size }) := by
      rw [hM1, List.getElem?_set_self ln]
    have e4 : M1[g]? = some (some gn) := by
      rw [hM1, List.getElem?_set_ne d3, hg]
    have c3' : ({ nn with size := rn.size } : rb_node_s α).childs dir = some g := by
      rw [← c3]; cases dir <;> rfl
    set M2 := M1.set r (some { rn with size := (hn.size + gn.size + 1) % SIZE_MOD }) with hM2
    have l2 : M2.length = mem.length := by simp [hM2, l1]
    have f1 : M2[n]? = some (some { nn with size := rn.size }) := by
      rw [hM2, List.getElem?_set_ne d1, e3]
    have f2 : M2[g]? = some (some gn) := by
      rw [hM2, List.getElem?_set_ne d2, e4]
    have f3 : M2[r]? = some (some { rn with size := (hn.size + gn.size + 1) % SIZE_MOD }) := by
      rw [hM2, List.getElem?_set_self (by omega)]
    set M3 := M2.set g (some { gn with p := some r }) with hM3
    have l3 : M3.length = mem.length := by simp [hM3, l2]
    have g1 : M3[r]? = some (some { rn with size := (hn.size + gn.size + 1) % SIZE_MOD }) := by
      rw [hM3, List.getElem?_set_ne (Ne.symm d2), f3]
    have g2 : M3[n]? = some (some { nn with size := rn.size }) := by
      rw [hM3, List.getElem?_set_ne (Ne.symm d3), f1]
    set M4 := M3.set r
      (some ({ rn with size := (hn.size + gn.size + 1) % SIZE_MOD }.setChild (!dir) (some g)))
      with hM4
    have l4 : M4.length = mem.length := by simp [hM4, l3]
    have h1 : M4[n]? = some (some { nn with size := rn.size }) := by
      rw [hM4, List.getElem?_set_ne d1, g2]
    have h2 : M4[r]? = some (some
        ({ rn with size := (hn.size + gn.size + 1) % SIZE_MOD }.setChild (!dir) (some g))) := by
      rw [hM4, List.getElem?_set_self (by omega)]
    set M5 := M4.set n (some ({ nn with size := rn.size }.setChild dir (some r))) with hM5
    have l5 : M5.length = mem.length := by simp [hM5, l4]
    have i1 : M5[r]? = some (some
        ({ rn with size := (hn.size + gn.size + 1) % SIZE_MOD }.setChild (!dir) (some g))) := by
      rw [hM5, List.getElem?_set_ne (Ne.symm d1), h2]
    have i2 : M5[n]? = some (some ({ nn with size := rn.size }.setChild dir (some r))) := by
      rw [hM5, List.getElem?_set_self (by omega)]
    set M6 := M5.set r (some
      { { rn with size := (hn.size + gn.size + 1) % SIZE_MOD }.setChild (!dir) (some g)
        with p := some n }) with hM6
    have j1 : M6[n]? = some (some ({ nn with size := rn.size }.setChild dir (some r))) := by
      rw [hM6, List.getElem?_set_ne d1, i2]
    simp only [_rb_rotate, deref_some hr, c1, update_some hnn, deref_some e1, c2, deref_some e2,
      deref_some e3, bind, Except.bind, pure, Except.pure]
    simp only [reduceCtorEq, if_false]
    rw [c3']
    simp only [deref_some e4, update_some e1, deref_some f1, c3', update_some f2]
    simp only [reduceCtorEq, if_false, update_some g1, update_some h1, update_some i1,
      update_some j1]

theorem reify_of_realizes {α : Type} {mem : rb_mem α} {t : Tree α} {parent : rb_node_p}
    (hr : realizes mem t parent) (hd : t.addrs.Nodup) :
    reify mem (budget mem) t.ptr parent = some t := by
  refine reify_complete mem t parent _ hr ?_
  have h1 := height_le_length t
  have h2 := length_le_of_nodup_lt _ _ hd (realizes_addrs_lt mem t parent hr)
  simp only [budget]
  omega

theorem update_ok_cell {α : Type} {mem mem1 : rb_mem α} {q : Nat}
    {f : rb_node_s α → rb_node_s α} (h : update mem (some q) f = .ok mem1) :
    ∃ qn, mem[q]? = some (some qn) ∧ mem1 = mem.set q (some (f qn)) := by
  simp only [update, store] at h
  split at h
  · next n hn =>
    simp only [Except.ok.injEq] at h
    exact ⟨n, hn, h.symm⟩
  · cases h

/-- The outcome of a completed rotation, seen from the cells: the promoted
node, the rotated node and the displaced grandchild are rewritten, the parent
of the rotated node may be, and no other cell is. -/
theorem rotate_cells {α : Type} (mem mem1 : rb_mem α) (r n h g : Nat) (dir : Bool)
    (rn nn hn gn : rb_node_s α) (nr : rb_node_p)
    (hr : mem[r]? = some (some rn)) (hnn : mem[n]? = some (some nn))
    (hh : mem[h]? = some (some hn)) (hg : mem[g]? = some (some gn))
    (c1 : rn.childs (!dir) = some n) (c2 : rn.childs dir = some h)
    (c3 : nn.childs dir = some g)
    (d1 : r ≠ n) (d2 : r ≠ g) (d3 : n ≠ g) (d4 : h ≠ n)
    (hq : ∀ q, rn.p = some q → q ≠ r ∧ q ≠ n ∧ q ≠ g)
    (hrot : _rb_rotate mem (some r) dir = .ok (mem1, nr)) :
    nr = some n ∧
      mem1[r]? = some (some ({ rn with size := (hn.size + gn.size + 1) % SIZE_MOD,
                                       p := some n }.setChild (!dir) (some g))) ∧
      mem1[n]? = some (some ({ nn with size := rn.size, p := rn.p }.setChild dir (some r))) ∧
      mem1[g]? = some (some { gn with p := some r }) ∧
      (∀ x, x ≠ r → x ≠ n → x ≠ g → rn.p ≠ some x → mem1[x]? = mem[x]?) ∧
      mem1.length = mem.length := by
  obtain ⟨M, mr, mn, mg, mo, ml, heq⟩ :=
    rotate_store mem r n h g dir rn nn hn gn hr hnn hh hg c1 c2 c3 d1 d2 d3 d4
  rw [heq] at hrot
  cases hp : rn.p with
  | none =>
    simp only [hp, if_true, Except.ok.injEq, Prod.mk.injEq] at hrot
    obtain ⟨rfl, rfl⟩ := hrot
    exact ⟨rfl, mr, hp ▸ mn, mg, fun x h1 h2 h3 _ => mo x h1 h2 h3, ml⟩
  | some q =>
    obtain ⟨q1, q2, q3⟩ := hq q hp
    simp only [hp, reduceCtorEq, if_false, _rb_child_dir, deref_some mr, deref_some mn, bind,
      Except.bind, pure, Except.pure] at hrot
    have hpn : ∀ (x : rb_node_s α) (c : rb_node_p), x.p = some n →
        (x.setChild (!dir) c).p = some n := by
      intro x c hx
      rw [setChild_p, hx]
    rw [hpn _ _ rfl] at hrot
    simp only [deref_some mn] at hrot
    split at hrot
    · cases hrot
    · next m hu =>
      simp only [Except.ok.injEq, Prod.mk.injEq] at hrot
      obtain ⟨rfl, rfl⟩ := hrot
      obtain ⟨qn, hqn, rfl⟩ := update_ok_cell hu
      refine ⟨rfl, ?_, ?_, ?_, ?_, by simp [ml]⟩
      · rw [List.getElem?_set_ne q1, mr]
      · rw [List.getElem?_set_ne q2, mn, hp]
      · rw [List.getElem?_set_ne q3, mg]
      · intro x h1 h2 h3 h4
        rw [List.getElem?_set_ne (fun e => h4 (by rw [e])), mo x h1 h2 h3]

theorem rotate_assert {α : Type} (mem : rb_mem α) (r : Nat) (dir : Bool) (rn : rb_node_s α)
    (hr : mem[r]? = some (some rn)) (c1 : rn.childs (!dir) = none) :
    _rb_rotate mem (some r) dir = .error .assert_failed := by
  simp only [_rb_rotate, deref_some hr, c1, bind, Except.bind]
  simp

/-- The rotation reads `r->childs[dir]->size` through `NULL` when `r` has no
child on side `dir`. -/
theorem rotate_null_child {α : Type} (mem : rb_mem α) (r n : Nat) (dir : Bool)
    (rn nn : rb_node_s α) (hr : mem[r]? = some (some rn)) (hnn : mem[n]? = some (some nn))
    (c1 : rn.childs (!dir) = some n) (d1 : r ≠ n) (c2 : rn.childs dir = none) :
    _rb_rotate mem (some r) dir = .error .null_deref := by
  have e1 : (mem.set n (some { nn with size := rn.size }))[r]? = some (some rn) := by
    rw [List.getElem?_set_ne (Ne.symm d1), hr]
  have hnull : ∀ m : rb_mem α, deref m none = .error .null_deref := fun _ => rfl
  simp only [_rb_rotate, deref_some hr, c1, update_some hnn, deref_some e1, c2, hnull, bind,
    Except.bind]
  simp

/-- The rotation reads `new_root->childs[dir]->size` through `NULL` when the
promoted node has no child on side `dir`. -/
theorem rotate_null_grandchild {α : Type} (mem : rb_mem α) (r n h : Nat) (dir : Bool)
    (rn nn hn : rb_node_s α) (hr : mem[r]? = some (some rn)) (hnn : mem[n]? = some (some nn))
    (hh : mem[h]? = some (some hn)) (c1 : rn.childs (!dir) = some n) (d1 : r ≠ n)
    (c2 : rn.childs dir = some h) (d4 : h ≠ n) (c3 : nn.childs dir = none) :
    _rb_rotate mem (some r) dir = .error .null_deref := by
  have e1 : (mem.set n (some { nn with size := rn.size }))[r]? = some (some rn) := by
    rw [List.getElem?_set_ne (Ne.symm d1), hr]
  have e2 : (mem.set n (some { nn with size := rn.size }))[h]? = some (some hn) := by
    rw [List.getElem?_set_ne (Ne.symm d4), hh]
  have e3 : (mem.set n (some { nn with size := rn.size }))[n]?
      = some (some { nn with size := rn.size }) := by
    rw [List.getElem?_set_self (lt_length_of_getElem? hnn)]
  have c3' : ({ nn with size := rn.size } : rb_node_s α).childs dir = none := by
    rw [← c3]; cases dir <;> rfl
  have hnull : ∀ m : rb_mem α, deref m none = .error .null_deref := fun _ => rfl
  simp only [_rb_rotate, deref_some hr, c1, update_some hnn, deref_some e1, c2, deref_some e2,
    deref_some e3, c3', hnull, bind, Except.bind]
  simp

theorem rotate_toList0 {α : Type} (dir : Bool) (t : Tree α) :
    (t.rotate dir).toList0 = t.toList0 := by
  cases t with
  | nil => rfl
  | node r t0 s c d t1 =>
    cases dir
    · cases t1 <;> simp [Tree.rotate, Tree.toList0]
    · cases t0 <;> simp [Tree.rotate, Tree.toList0]

theorem rotate_toList1 {α : Type} (dir : Bool) (t : Tree α) :
    (t.rotate dir).toList1 = t.toList1 := by
  cases t with
  | nil => rfl
  | node r t0 s c d t1 =>
    cases dir
    · cases t1 <;> simp [Tree.rotate, Tree.toList1]
    · cases t0 <;> simp [Tree.rotate, Tree.toList1]
theorem rot_fresh_true (r n g : Nat) (U0 G0 G1 H : List Nat)
    (hnd : (r :: ((n :: (U0 ++ g :: (G0 ++ G1))) ++ H)).Nodup) :
    r ≠ n ∧ r ≠ g ∧ n ≠ g ∧ (∀ x ∈ H, x ≠ n) ∧
      (∀ x ∈ U0 ++ (G0 ++ (G1 ++ H)), x ≠ r ∧ x ≠ n ∧ x ≠ g) ∧
      (n :: (U0 ++ r :: ((g :: (G0 ++ G1)) ++ H))).Nodup := by
  simp only [List.nodup_cons, List.nodup_append, List.mem_cons, List.mem_append, not_or,
    List.cons_append] at hnd ⊢
  aesop

theorem rot_fresh_false (r n g : Nat) (H G0 G1 U1 : List Nat)
    (hnd : (r :: (H ++ n :: ((g :: (G0 ++ G1)) ++ U1))).Nodup) :
    r ≠ n ∧ r ≠ g ∧ n ≠ g ∧ (∀ x ∈ H, x ≠ n) ∧
      (∀ x ∈ H ++ (G0 ++ (G1 ++ U1)), x ≠ r ∧ x ≠ n ∧ x ≠ g) ∧
      (n :: ((r :: (H ++ g :: (G0 ++ G1))) ++ U1)).Nodup := by
  simp only [List.nodup_cons, List.nodup_append, List.mem_cons, List.mem_append, not_or,
    List.cons_append] at hnd ⊢
  aesop

/-- C17: for every direction and every node `r` whose subtree is well formed
(picture `t`, read with the parent link of `r`, which points outside the
subtree), if `_rb_rotate` completes then the subtree below the promoted node
is well formed with picture `t.rotate dir`: its traversal is that of `t` (in
either reading), the promoted node was the child of `r` opposite `dir`, and
`r` is now the child of the promoted node on side `dir`. -/
theorem rotate_keeps_traversal {α : Type} (mem mem1 : rb_mem α) (r : Nat) (dir : Bool)
    (t : Tree α) (parent nr : rb_node_p)
    (hpic : reify mem (budget mem) (some r) parent = some t) (hnd : t.addrs.Nodup)
    (hout : ∀ q, parent = some q → q ∉ t.addrs)
    (hrot : _rb_rotate mem (some r) dir = .ok (mem1, nr)) :
    reify mem1 (budget mem1) nr parent = some (t.rotate dir) ∧
      (t.rotate dir).toList0 = t.toList0 ∧ (t.rotate dir).toList1 = t.toList1 ∧
      (t.child (!dir)).ptr = nr ∧ ((t.rotate dir).child dir).ptr = some r := by
  obtain ⟨hptr, hreal⟩ := reify_sound mem _ _ _ _ hpic
  have frame : ∀ (ex : List Nat) (u : Tree α) (p : rb_node_p),
      (∀ x, x ∉ ex → parent ≠ some x → mem1[x]? = mem[x]?) → realizes mem u p →
      (∀ x ∈ u.addrs, x ∈ t.addrs ∧ x ∉ ex) → realizes mem1 u p := by
    intro ex u p mo hu hx
    refine realizes_frame mem mem1 u p hu ?_
    intro x hxu
    exact mo x (hx x hxu).2 (fun e => hout x e (hx x hxu).1)
  cases t with
  | nil => cases hptr
  | node r' t0 s c d t1 =>
    simp only [Tree.ptr, Option.some.injEq] at hptr
    subst hptr
    obtain ⟨hc, r0, r1⟩ := hreal
    cases dir with
    | true =>
      cases t0 with
      | nil =>
        rw [rotate_assert mem r' true _ hc rfl] at hrot
        cases hrot
      | node n u0 sn cn dn u1 =>
        obtain ⟨hcn, ru0, ru1⟩ := r0
        have d1 : r' ≠ n := by
          intro e
          simp [Tree.addrs, e] at hnd
        cases t1 with
        | nil =>
          rw [rotate_null_child mem r' n true _ _ hc hcn rfl d1 rfl] at hrot
          cases hrot
        | node h h0 sh ch dh h1 =>
          have hch := r1.1
          have d4 : h ≠ n := by
            intro e
            simp [Tree.addrs, e] at hnd
          cases u1 with
          | nil =>
            rw [rotate_null_grandchild mem r' n h true _ _ _ hc hcn hch rfl d1 rfl d4 rfl] at hrot
            cases hrot
          | node g g0 sg cg dg g1 =>
            obtain ⟨hcg, rg0, rg1⟩ := ru1
            obtain ⟨_, d2, d3, _, fresh, hnd1⟩ := rot_fresh_true r' n g u0.addrs g0.addrs g1.addrs
              (Tree.node h h0 sh ch dh h1).addrs hnd
            obtain ⟨e1, mr, mn, mg, mo, ml⟩ := rotate_cells mem mem1 r' n h g true _ _ _ _ nr hc
              hcn hch hcg rfl rfl rfl d1 d2 d3 d4
              (fun q hq => by
                have := hout q hq
                simp only [Tree.addrs, List.mem_cons, List.mem_append, not_or] at this
                tauto)
              hrot
            subst e1
            refine ⟨?_, rotate_toList0 _ _, rotate_toList1 _ _, rfl, rfl⟩
            have mo' : ∀ x, x ∉ [r', n, g] → parent ≠ some x → mem1[x]? = mem[x]? := by
              intro x hx hp
              simp only [List.mem_cons, List.mem_singleton, not_or, List.mem_nil_iff,
                or_false] at hx
              exact mo x hx.1 hx.2.1 hx.2.2 hp
            have fr : ∀ (u : Tree α) (p : rb_node_p), realizes mem u p →
                (∀ x ∈ u.addrs, x ∈ u0.addrs ++ (g0.addrs ++ (g1.addrs ++
                  (Tree.node h h0 sh ch dh h1).addrs))) → realizes mem1 u p := by
              intro u p hu hx
              refine frame [r', n, g] u p mo' hu ?_
              intro x hxu
              have h1 := hx x hxu
              have h2 := fresh x h1
              refine ⟨?_, by simp only [List.mem_cons, List.mem_singleton, not_or,
                List.mem_nil_iff, or_false]; exact h2⟩
              simp only [Tree.addrs, List.mem_cons, List.mem_append] at h1 ⊢
              tauto
            have hrl : realizes mem1 ((Tree.node r' (.node n u0 sn cn dn
                (.node g g0 sg cg dg g1)) s c d (.node h h0 sh ch dh h1)).rotate true)
                parent := by
              refine ⟨mn, ?_, ⟨mr, ⟨mg, ?_, ?_⟩, ?_⟩⟩
              · exact fr u0 _ ru0 (fun x hx => by simp [hx])
              · exact fr g0 _ rg0 (fun x hx => by simp [hx])
              · exact fr g1 _ rg1 (fun x hx => by simp [hx])
              · exact fr _ _ r1 (fun x hx => by
                  simp only [List.mem_append]; exact Or.inr (Or.inr (Or.inr hx)))
            have := reify_of_realizes hrl (by simpa [Tree.rotate, Tree.addrs] using hnd1)
            have hb : budget mem1 = budget mem := by simp [budget, ml]
            simpa [Tree.rotate, Tree.ptr] using this
    | false =>
      cases t1 with
      | nil =>
        rw [rotate_assert mem r' false _ hc rfl] at hrot
        cases hrot
      | node n u0 sn cn dn u1 =>
        obtain ⟨hcn, ru0, ru1⟩ := r1
        have d1 : r' ≠ n := by
          intro e
          simp [Tree.addrs, e] at hnd
        cases t0 with
        | nil =>
          rw [rotate_null_child mem r' n false _ _ hc hcn rfl d1 rfl] at hrot
          cases hrot
        | node h h0 sh ch dh h1 =>
          have hch := r0.1
          have d4 : h ≠ n := by
            intro e
            simp [Tree.addrs, e] at hnd
          cases u0 with
          | nil =>
            rw [rotate_null_grandchild mem r' n h false _ _ _ hc hcn hch rfl d1 rfl d4 rfl] at hrot
            cases hrot
          | node g g0 sg cg dg g1 =>
            obtain ⟨hcg, rg0, rg1⟩ := ru0
            obtain ⟨_, d2, d3, _, fresh, hnd1⟩ := rot_fresh_false r' n g
              (Tree.node h h0 sh ch dh h1).addrs g0.addrs g1.addrs u1.addrs hnd
            obtain ⟨e1, mr, mn, mg, mo, ml⟩ := rotate_cells mem mem1 r' n h g false _ _ _ _ nr hc
              hcn hch hcg rfl rfl rfl d1 d2 d3 d4
              (fun q hq => by
                have := hout q hq
                simp only [Tree.addrs, List.mem_cons, List.mem_append, not_or] at this
                tauto)
              hrot
            subst e1
            refine ⟨?_, rotate_toList0 _ _, rotate_toList1 _ _, rfl, rfl⟩
            have mo' : ∀ x, x ∉ [r', n, g] → parent ≠ some x → mem1[x]? = mem[x]? := by
              intro x hx hp
              simp only [List.mem_cons, List.mem_singleton, not_or, List.mem_nil_iff,
                or_false] at hx
              exact mo x hx.1 hx.2.1 hx.2.2 hp
            have fr : ∀ (u : Tree α) (p : rb_node_p), realizes mem u p →
                (∀ x ∈ u.addrs, x ∈ (Tree.node h h0 sh ch dh h1).addrs ++ (g0.addrs ++
                  (g1.addrs ++ u1.addrs))) → realizes mem1 u p := by
              intro u p hu hx
              refine frame [r', n, g] u p mo' hu ?_
              intro x hxu
              have h1 := hx x hxu
              have h2 := fresh x h1
              refine ⟨?_, by simp only [List.mem_cons, List.mem_singleton, not_or,
                List.mem_nil_iff, or_false]; exact h2⟩
              simp only [Tree.addrs, List.mem_cons, List.mem_append] at h1 ⊢
              tauto
            have hrl : realizes mem1 ((Tree.node r' (.node h h0 sh ch dh h1) s c d
                (.node n (.node g g0 sg cg dg g1) sn cn dn u1)).rotate false) parent := by
              refine ⟨mn, ⟨mr, ?_, ⟨mg, ?_, ?_⟩⟩, ?_⟩
              · exact fr _ _ r0 (fun x hx => by
                  simp only [List.mem_append]; exact Or.inl hx)
              · exact fr g0 _ rg0 (fun x hx => by simp [hx])
              · exact fr g1 _ rg1 (fun x hx => by simp [hx])
              · exact fr u1 _ ru1 (fun x hx => by simp [hx])
            have := reify_of_realizes hrl (by simpa [Tree.rotate, Tree.addrs] using hnd1)
            have hb : budget mem1 = budget mem := by simp [budget, ml]
            simpa [Tree.rotate, Tree.ptr] using this

/-- C17 at the node 30 of the six-node tree, rotated with `dir = 1`: the node
20 is promoted. -/
theorem rotate_keeps_traversal_witness :
    ∃ mem1 : rb_mem Int,
      reify six_nodes (budget six_nodes) (some 1) (some 0)
          = some (.node 1 (.node 3 .nil 2 false 20 (.node 5 .nil 1 false 25 .nil)) 4 false 30
              (.node 4 .nil 1 false 40 .nil)) ∧
        (Tree.node 1 (.node 3 .nil 2 false (20 : Int) (.node 5 .nil 1 false 25 .nil)) 4 false 30
              (.node 4 .nil 1 false 40 .nil)).addrs.Nodup ∧
        (∀ q, some 0 = some q →
          q ∉ (Tree.node 1 (.node 3 .nil 2 false (20 : Int) (.node 5 .nil 1 false 25 .nil)) 4
              false 30 (.node 4 .nil 1 false 40 .nil)).addrs) ∧
        _rb_rotate six_nodes (some 1) true = .ok (mem1, some 3) ∧
        (reify mem1 (budget mem1) (some 3) (some 0)
            = some ((Tree.node 1 (.node 3 .nil 2 false (20 : Int) (.node 5 .nil 1 false 25 .nil))
                4 false 30 (.node 4 .nil 1 false 40 .nil)).rotate true) ∧
          ((Tree.node 1 (.node 3 .nil 2 false (20 : Int) (.node 5 .nil 1 false 25 .nil))
                4 false 30 (.node 4 .nil 1 false 40 .nil)).rotate true).toList0
            = [20, 25, 30, 40] ∧
          ((Tree.node 1 (.node 3 .nil 2 false (20 : Int) (.node 5 .nil 1 false 25 .nil))
                4 false 30 (.node 4 .nil 1 false 40 .nil)).rotate true).toList1
            = [40, 30, 25, 20] ∧
          ((Tree.node 1 (.node 3 .nil 2 false (20 : Int) (.node 5 .nil 1 false 25 .nil))
                4 false 30 (.node 4 .nil 1 false 40 .nil)).child (!true)).ptr = some 3 ∧
          (((Tree.node 1 (.node 3 .nil 2 false (20 : Int) (.node 5 .nil 1 false 25 .nil))
                4 false 30 (.node 4 .nil 1 false 40 .nil)).rotate true).child true).ptr
            = some 1) :=
  ⟨_, rfl, by decide, by intro q hq; cases hq; decide, rfl,
    rotate_keeps_traversal six_nodes _ 1 true
      (.node 1 (.node 3 .nil 2 false 20 (.node 5 .nil 1 false 25 .nil)) 4 false 30
        (.node 4 .nil 1 false 40 .nil)) (some 0) (some 3) rfl (by decide)
      (by intro q hq; cases hq; decide) rfl⟩

/-! ## Insertion into a red-black tree -/

theorem black_height_zero {α : Type} (t : Tree α) (h : t.black_height = some 0)
    (hr : t.red = false) : t = .nil := by
  cases t with
  | nil => rfl
  | node a t0 s r d t1 =>
    simp only [Tree.red] at hr
    subst hr
    simp only [Tree.black_height] at h
    split at h
    · split at h
      · simp at h
      · cases h
    · cases h

theorem balanced_node {α : Type} (a : Nat) (t0 : Tree α) (s : Nat) (r : Bool) (d : α)
    (t1 : Tree α) (h : (Tree.node a t0 s r d t1).balanced = true) :
    t0.balanced = true ∧ t1.balanced = true ∧ t0.black_height = t1.black_height ∧
      (Tree.node a t0 s r d t1).black_height
        = t0.black_height.map (fun k => if r then k else k + 1) := by
  simp only [Tree.balanced, Tree.black_height] at h ⊢
  split at h
  · next h0 h1 e0 e1 =>
    split at h
    · next e =>
      subst e
      simp [e0, e1]
    · cases h
  · cases h

theorem no_red_red_node {α : Type} (a : Nat) (t0 : Tree α) (s : Nat) (r : Bool) (d : α)
    (t1 : Tree α) (h : (Tree.node a t0 s r d t1).no_red_red = true) :
    t0.no_red_red = true ∧ t1.no_red_red = true ∧ (r = true → t0.red = false ∧ t1.red = false) := by
  simp only [Tree.no_red_red, Bool.and_eq_true, Bool.not_eq_true', Bool.and_eq_false_iff,
    Bool.or_eq_false_iff] at h
  refine ⟨h.1.2, h.2, ?_⟩
  intro hr
  rcases h.1.1 with h1 | h1
  · rw [hr] at h1; cases h1
  · exact h1

/-- Where the descent lands in a red-black tree when the insertion is not
calm: under a red leaf that hangs from a grandparent with no other child. -/
theorem rough_landing {α : Type} (lt : α → α → Bool) (v : α) (mem : rb_mem α) (t : Tree α) :
    ∀ (parent : rb_node_p) (dir0 sr : Bool), realizes mem t parent → t.addrs.Nodup →
      t ≠ .nil → t.no_red_red = true → t.balanced = true → t.calm lt v sr = false →
      (t.red = true → ∃ (g : Nat) (gn : rb_node_s α),
        parent = some g ∧ mem[g]? = some (some gn) ∧ g ∉ t.addrs ∧
        gn.childs (decide (t.ptr = gn.childs1)) = t.ptr ∧
        (sr = false → t.black_height = some 0 →
          gn.childs (!(decide (t.ptr = gn.childs1))) = none)) →
      ∃ (pa : Nat) (dir : Bool) (pn : rb_node_s α) (g : Nat) (gn : rb_node_s α),
        t.attach_parent lt v parent dir0 = (some pa, dir) ∧ mem[pa]? = some (some pn) ∧
        pn.is_red = true ∧ pn.childs dir = none ∧ pn.childs (!dir) = none ∧
        pn.p = some g ∧ mem[g]? = some (some gn) ∧ g ≠ pa ∧
        gn.childs (decide (some pa = gn.childs1)) = some pa ∧
        gn.childs (!(decide (some pa = gn.childs1))) = none := by
  induction t with
  | nil => intro _ _ _ _ _ h; exact absurd rfl h
  | node b t0 s r d t1 ih0 ih1 =>
    intro parent dir0 sr hr hnd _ hnrr hbal hcalm hctx
    obtain ⟨hc, r0, r1⟩ := hr
    simp only [Tree.addrs, List.nodup_cons, List.mem_append, not_or, List.nodup_append] at hnd
    obtain ⟨⟨hb0, hb1⟩, hd0, hd1, hdis⟩ := hnd
    obtain ⟨bal0, bal1, hbh, hbhn⟩ := balanced_node b t0 s r d t1 hbal
    obtain ⟨nrr0, nrr1, hred⟩ := no_red_red_node b t0 s r d t1 hnrr
    simp only [Tree.calm] at hcalm
    simp only [Tree.attach_parent]
    have hne01 : t0.ptr ≠ none → t0.ptr ≠ t1.ptr := by
      intro h0 e
      cases h : t0.ptr with
      | none => exact h0 h
      | some x =>
        exact hdis (ptr_mem_addrs t0 x h) (ptr_mem_addrs t1 x (by rw [← e, h]))
    -- the descent ends right here, below `b`, whose other child is `o`
    have here : ∀ (dir : Bool) (c o : Tree α), c = .nil →
        (Tree.node b t0 s r d t1).black_height = o.black_height.map (fun k => if r then k else k + 1) →
        c.black_height = o.black_height →
        (r = true → o.red = false) →
        (⟨parent, t0.ptr, t1.ptr, s, r, d⟩ : rb_node_s α).childs dir = c.ptr →
        (⟨parent, t0.ptr, t1.ptr, s, r, d⟩ : rb_node_s α).childs (!dir) = o.ptr →
        (!r || sr) = false →
        ∃ (pa : Nat) (dir' : Bool) (pn : rb_node_s α) (g : Nat) (gn : rb_node_s α),
          ((some b : rb_node_p), dir) = (some pa, dir') ∧ mem[pa]? = some (some pn) ∧
          pn.is_red = true ∧ pn.childs dir' = none ∧ pn.childs (!dir') = none ∧
          pn.p = some g ∧ mem[g]? = some (some gn) ∧ g ≠ pa ∧
          gn.childs (decide (some pa = gn.childs1)) = some pa ∧
          gn.childs (!(decide (some pa = gn.childs1))) = none := by
      intro dir c o hcn hbn hco hro hcd hod hcol
      subst hcn
      have hrt : r = true := by
        cases r with
        | true => rfl
        | false => simp at hcol
      have hsr : sr = false := by
        cases sr with
        | false => rfl
        | true => simp at hcol
      subst hrt
      have ho0 : o.black_height = some 0 := by rw [← hco]; rfl
      have hon : o = .nil := black_height_zero o ho0 (hro rfl)
      subst hon
      obtain ⟨g, gn, e, hgn, hg, hside, hunc⟩ := hctx rfl
      have hb0' : (Tree.node b t0 s true d t1).black_height = some 0 := by
        rw [hbn]; rfl
      refine ⟨b, dir, _, g, gn, rfl, hc, rfl, hcd, hod, e, hgn, ?_, hside, hunc hsr hb0'⟩
      intro e1
      exact hg (by simp [Tree.addrs, e1])
    cases hd : lt v d
    · simp only [hd, Bool.false_eq_true, if_false] at hcalm ⊢
      by_cases h0 : t0.ptr = none
      · rw [if_pos h0] at hcalm
        have h0n := (ptr_eq_none t0).1 h0
        rw [h0n]
        exact here false t0 t1 h0n (by rw [hbhn, hbh]) hbh (fun h => (hred h).2) rfl rfl hcalm
      · rw [if_neg h0] at hcalm
        have hne : t0 ≠ .nil := fun e => h0 ((ptr_eq_none t0).2 e)
        refine ih0 (some b) false t1.red r0 hd0 hne nrr0 bal0 hcalm ?_
        intro _
        refine ⟨b, _, rfl, hc, hb0, ?_, ?_⟩
        · simp [rb_node_s.childs, hne01 h0]
        · intro h1 h2
          have : t1 = .nil := black_height_zero t1 (by rw [← hbh]; exact h2) h1
          simp [rb_node_s.childs, hne01 h0, this, Tree.ptr]
    · simp only [hd, if_true] at hcalm ⊢
      by_cases h1 : t1.ptr = none
      · rw [if_pos h1] at hcalm
        have h1n := (ptr_eq_none t1).1 h1
        rw [h1n]
        exact here true t1 t0 h1n hbhn hbh.symm (fun h => (hred h).1) rfl rfl hcalm
      · rw [if_neg h1] at hcalm
        have hne : t1 ≠ .nil := fun e => h1 ((ptr_eq_none t1).2 e)
        refine ih1 (some b) true t0.red r1 hd1 hne nrr1 bal1 hcalm ?_
        intro _
        refine ⟨b, _, rfl, hc, hb1, ?_, ?_⟩
        · simp [rb_node_s.childs]
        · intro h1 h2
          have : t0 = .nil := black_height_zero t0 (by rw [hbh]; exact h2) h1
          simp [rb_node_s.childs, this, Tree.ptr]

/-- The fix-up when the parent of the new node is a red leaf whose own parent
has no other child: it goes to the rotating branch, where `_rb_rotate` reads
the size of an absent child. -/
theorem fixup_rotation_faults {α : Type} (m : rb_mem α) (tree : rb_tree_s α) (pa g a : Nat)
    (dir dir0 : Bool) (pn gn an : rb_node_s α)
    (hp : m[pa]? = some (some pn)) (hg : m[g]? = some (some gn)) (ha : m[a]? = some (some an))
    (hred : pn.is_red = true) (hpp : pn.p = some g) (hap : an.p = some pa)
    (hc1 : pn.childs dir = some a) (hc2 : pn.childs (!dir) = none)
    (hg1 : gn.childs (decide (some pa = gn.childs1)) = some pa)
    (hg2 : gn.childs (!(decide (some pa = gn.childs1))) = none)
    (d1 : g ≠ pa) (d2 : pa ≠ a) :
    _rb_insert_fixup m tree (some pa) (some a) dir0 = .error .null_deref := by
  have hnd : decide (some a = pn.childs1) = dir := by
    cases dir
    · simp only [rb_node_s.childs, Bool.not_false, if_true] at hc2
      simp [hc2]
    · simp only [rb_node_s.childs, if_true] at hc1
      simp [hc1]
  simp only [_rb_insert_fixup, budget, _rb_insert_fixup_loop, _rb_child_dir, deref_some hp,
    deref_some hg, deref_some ha, hred, hpp, hap, hg2, hnd, bind, Except.bind, pure, Except.pure]
  simp only [reduceCtorEq, if_false, if_true, Bool.not_true, Bool.false_eq_true]
  by_cases e : dir = decide (some pa = gn.childs1)
  · -- the new node is on the same side as its parent: recolour, rotate at the grandparent
    have hp1 : (m.set pa (some { pn with is_red := false }))[g]? = some (some gn) := by
      rw [List.getElem?_set_ne (Ne.symm d1), hg]
    have hp2 : ((m.set pa (some { pn with is_red := false })).set g
        (some { gn with is_red := true }))[g]? = some (some { gn with is_red := true }) := by
      rw [List.getElem?_set_self (by simpa using lt_length_of_getElem? hg)]
    have hp3 : ((m.set pa (some { pn with is_red := false })).set g
        (some { gn with is_red := true }))[pa]? = some (some { pn with is_red := false }) := by
      rw [List.getElem?_set_ne d1, List.getElem?_set_self (lt_length_of_getElem? hp)]
    have hrot := rotate_null_child _ g pa (!(decide (some pa = gn.childs1)))
      { gn with is_red := true } { pn with is_red := false } hp2 hp3
      (by
        have : ({ gn with is_red := true } : rb_node_s α).childs
            (!(!(decide (some pa = gn.childs1)))) = gn.childs (decide (some pa = gn.childs1)) := by
          simp [rb_node_s.childs]
        rw [this, hg1])
      d1
      (by
        have : ({ gn with is_red := true } : rb_node_s α).childs
            (!(decide (some pa = gn.childs1))) = gn.childs (!(decide (some pa = gn.childs1))) := by
          simp [rb_node_s.childs]
        rw [this, hg2])
    simp only [e, bne_self_eq_false, Bool.false_eq_true, if_false, update_some hp, update_some hp1,
      hrot]
  · -- the new node is on the other side: rotate at the parent first
    have hne : (dir != decide (some pa = gn.childs1)) = true := by
      cases dir <;> cases h : decide (some pa = gn.childs1) <;> simp_all
    have hdir : dir = !(decide (some pa = gn.childs1)) := by
      cases dir <;> cases h : decide (some pa = gn.childs1) <;> simp_all
    have hrot := rotate_null_child m pa a (decide (some pa = gn.childs1)) pn an hp ha
      (by rw [← hdir, hc1]) d2
      (by
        have : decide (some pa = gn.childs1) = !dir := by rw [hdir]; simp
        rw [this, hc2])
    simp only [hne, if_true, hrot]

/-- On a tree that is not empty `_rb_insert` reaches the fix-up: the store it
hands over is, up to sizes, the old one with the new node linked under the
node where the descent ended. -/
theorem insert_to_fixup {α : Type} (lt : α → α → Bool) (v : α) (mem : rb_mem α)
    (root : rb_node_p) (t : Tree α) (hwf : well_formed mem root t) (hnil : t ≠ .nil) :
    ∃ (pa : Nat) (dir : Bool) (pn : rb_node_s α) (mem6 : rb_mem α),
      t.attach_parent lt v none false = (some pa, dir) ∧ pa ∈ t.addrs ∧
      mem[pa]? = some (some pn) ∧
      blur true mem6 = blur true (mem.set pa (some { pn.setChild dir (some mem.length) with
          size := ((pn.setChild dir (some mem.length)).size + 1) % SIZE_MOD })
        ++ [some ⟨some pa, none, none, 1, true, v⟩]) ∧
      _rb_insert mem ⟨root, lt⟩ v =
        (_rb_insert_fixup mem6 ⟨root, lt⟩ (some pa) (some mem.length) dir).bind
          (fun r => .ok (r.1, ⟨root, lt⟩, r.2.2)) := by
  obtain ⟨hptr, hr⟩ := well_formed_realizes hwf
  have hnd := hwf.2
  have hlt := realizes_addrs_lt mem t none hr
  obtain ⟨pa, hpa, hmem⟩ := attach_parent_mem lt v t none false hnil
  obtain ⟨pn, hpn⟩ := realizes_cell mem t none hr pa hmem
  have hap : t.attach_parent lt v none false = (some pa, (t.attach_parent lt v none false).2) :=
    Prod.ext hpa rfl
  generalize (t.attach_parent lt v none false).2 = dir at hap
  have hra : realizes (mem ++ [some ⟨none, none, none, 1, false, v⟩]) t none :=
    realizes_frame mem _ t none hr (fun a ha => List.getElem?_append_left (hlt a ha))
  have hheight : t.height < mem.length + 2 := by
    have h1 := height_le_length t
    have h2 := length_le_of_nodup_lt _ _ hnd hlt
    omega
  have hdesc := descend_eq lt v _ t none false (mem.length + 2) hra hheight
  rw [hptr, hap] at hdesc
  obtain ⟨j, hj, hch⟩ := chain_attach_parent lt v mem t none false 0 hr rfl
  rw [hap, Nat.zero_add] at hch
  replace hch : chain mem j (some pa) := hch
  have hch5 : chain (mem.set pa (some { pn.setChild dir (some mem.length) with
            size := ((pn.setChild dir (some mem.length)).size + 1) % SIZE_MOD })
          ++ [some ⟨some pa, none, none, 1, true, v⟩]) j (some pa) := by
    refine chain_of_same_p mem _ ?_ j _ hch
    intro x n hx
    have hxl := lt_length_of_getElem? hx
    by_cases e : x = pa
    · subst e
      rw [hpn] at hx
      cases hx
      have hcell : (mem.set x (some { pn.setChild dir (some mem.length) with
            size := ((pn.setChild dir (some mem.length)).size + 1) % SIZE_MOD })
          ++ [some ⟨some x, none, none, 1, true, v⟩])[x]?
          = some (some { pn.setChild dir (some mem.length) with
            size := ((pn.setChild dir (some mem.length)).size + 1) % SIZE_MOD }) := by
        rw [List.getElem?_append_left (by simpa using hxl), List.getElem?_set_self hxl]
      exact ⟨_, hcell, setChild_p pn dir _⟩
    · refine ⟨n, ?_, rfl⟩
      rw [List.getElem?_append_left (by simpa using hxl),
        List.getElem?_set_ne (fun h => e h.symm), hx]
  obtain ⟨mem6, hgrow, hb6⟩ := grow_ok j _ (some pa) (mem.length + 2) hch5 (by omega)
  refine ⟨pa, dir, pn, mem6, hap, hmem, hpn, hb6, ?_⟩
  rw [insert_unfold mem ⟨root, lt⟩ v pa dir pn hdesc hpn, hgrow]
  rfl

/-- The child slot in which the descent ends is absent. -/
theorem attach_slot_absent {α : Type} (lt : α → α → Bool) (v : α) (mem : rb_mem α)
    (t : Tree α) :
    ∀ (parent : rb_node_p) (dir0 : Bool), realizes mem t parent → t ≠ .nil →
      ∃ (pa : Nat) (dir : Bool) (pn : rb_node_s α),
        t.attach_parent lt v parent dir0 = (some pa, dir) ∧ mem[pa]? = some (some pn) ∧
        pn.childs dir = none := by
  induction t with
  | nil => intro _ _ _ h; exact absurd rfl h
  | node b t0 s r d t1 ih0 ih1 =>
    intro parent dir0 hr _
    obtain ⟨hc, r0, r1⟩ := hr
    simp only [Tree.attach_parent]
    cases hd : lt v d
    · simp only [Bool.false_eq_true, if_false]
      by_cases h0 : t0 = .nil
      · subst h0
        exact ⟨b, false, _, rfl, hc, rfl⟩
      · exact ih0 (some b) false r0 h0
    · simp only [if_true]
      by_cases h1 : t1 = .nil
      · subst h1
        exact ⟨b, true, _, rfl, hc, rfl⟩
      · exact ih1 (some b) true r1 h1

/-- On a red-black tree an insertion that is not calm does not complete: the
fix-up rotates and `_rb_rotate` reads through an absent child. -/
theorem insert_rough_faults {α : Type} (lt : α → α → Bool) (v : α) (mem : rb_mem α)
    (root : rb_node_p) (t : Tree α) (hwf : well_formed mem root t)
    (hrb : t.red_black = true) (hcalm : t.calm lt v false = false) :
    _rb_insert mem ⟨root, lt⟩ v = .error .null_deref := by
  obtain ⟨hptr, hr⟩ := well_formed_realizes hwf
  have hnd := hwf.2
  have hlt := realizes_addrs_lt mem t none hr
  have hnil : t ≠ .nil := by
    intro e
    subst e
    simp [Tree.calm] at hcalm
  simp only [Tree.red_black, Tree.root_black, Bool.and_eq_true, Bool.not_eq_true'] at hrb
  obtain ⟨⟨hblack, hnrr⟩, hbal⟩ := hrb
  obtain ⟨pa, dir, pn, mem6, hap, hmem, hpn, hb6, hins⟩ := insert_to_fixup lt v mem root t hwf hnil
  obtain ⟨pa1, dir1, pn1, g, gn, e1, e2, hred, hc1, hc2, hpp, hgn, hne, hg1, hg2⟩ :=
    rough_landing lt v mem t none false false hr hnd hnil hnrr hbal hcalm
      (by intro h; rw [hblack] at h; cases h)
  rw [hap] at e1
  simp only [Prod.mk.injEq, Option.some.injEq] at e1
  obtain ⟨rfl, rfl⟩ := e1
  rw [hpn] at e2
  simp only [Option.some.injEq] at e2
  subst e2
  have hpl := lt_length_of_getElem? hpn
  have hgl := lt_length_of_getElem? hgn
  -- the three cells the fix-up reads, in the store it is handed
  have c5p : (mem.set pa (some { pn.setChild dir (some mem.length) with
        size := ((pn.setChild dir (some mem.length)).size + 1) % SIZE_MOD })
      ++ [some ⟨some pa, none, none, 1, true, v⟩])[pa]?
      = some (some { pn.setChild dir (some mem.length) with
        size := ((pn.setChild dir (some mem.length)).size + 1) % SIZE_MOD }) := by
    rw [List.getElem?_append_left (by simpa using hpl), List.getElem?_set_self hpl]
  have c5g : (mem.set pa (some { pn.setChild dir (some mem.length) with
        size := ((pn.setChild dir (some mem.length)).size + 1) % SIZE_MOD })
      ++ [some ⟨some pa, none, none, 1, true, v⟩])[g]? = some (some gn) := by
    rw [List.getElem?_append_left (by simpa using hgl), List.getElem?_set_ne (Ne.symm hne), hgn]
  have c5a : (mem.set pa (some { pn.setChild dir (some mem.length) with
        size := ((pn.setChild dir (some mem.length)).size + 1) % SIZE_MOD })
      ++ [some ⟨some pa, none, none, 1, true, v⟩])[mem.length]?
      = some (some ⟨some pa, none, none, 1, true, v⟩) := by
    rw [List.getElem?_append_right (by simp)]
    simp
  obtain ⟨pn6, hpn6, bp⟩ := of_blur_eq hb6 pa _ c5p
  obtain ⟨gn6, hgn6, bg⟩ := of_blur_eq hb6 g _ c5g
  obtain ⟨an6, han6, ba⟩ := of_blur_eq hb6 mem.length _ c5a
  obtain ⟨p1, p2, p3, p4, _⟩ := blur_true_fields bp
  obtain ⟨_, g2, g3, _, _⟩ := blur_true_fields bg
  obtain ⟨a1, _, _, _, _⟩ := blur_true_fields ba
  have hfix := fixup_rotation_faults mem6 ⟨root, lt⟩ pa g mem.length dir dir pn6 gn6 an6
    hpn6 hgn6 han6
    (by rw [p4]; show (pn.setChild dir (some mem.length)).is_red = true
        rw [setChild_is_red, hred])
    (by rw [p1]; show (pn.setChild dir (some mem.length)).p = some g
        rw [setChild_p, hpp])
    a1
    (by
      rw [childs_congr p2 p3]
      show (pn.setChild dir (some mem.length)).childs dir = some mem.length
      cases dir <;> rfl)
    (by
      rw [childs_congr p2 p3]
      show (pn.setChild dir (some mem.length)).childs (!dir) = none
      rw [← hc2]
      cases dir <;> rfl)
    (by rw [childs_congr g2 g3, g3]; exact hg1)
    (by rw [childs_congr g2 g3, g3]; exact hg2)
    hne (by omega)
  rw [hins, hfix]
  rfl

/-- Hanging `v` where the descent ends puts it at one place of either reading
of the picture. -/
theorem attach_splits {α : Type} (lt : α → α → Bool) (v : α) (a : Nat) (t : Tree α) :
    (∃ l1 l2, t.toList0 = l1 ++ l2 ∧ (t.attach lt v a).toList0 = l1 ++ v :: l2) ∧
    (∃ l1 l2, t.toList1 = l1 ++ l2 ∧ (t.attach lt v a).toList1 = l1 ++ v :: l2) := by
  induction t with
  | nil => exact ⟨⟨[], [], rfl, rfl⟩, ⟨[], [], rfl, rfl⟩⟩
  | node b t0 s r d t1 ih0 ih1 =>
    obtain ⟨⟨a1, a2, ea, ea'⟩, ⟨b1, b2, eb, eb'⟩⟩ := ih0
    obtain ⟨⟨c1, c2, ec, ec'⟩, ⟨d1, d2, ed, ed'⟩⟩ := ih1
    simp only [Tree.attach]
    cases hd : lt v d
    · simp only [Bool.false_eq_true, if_false, Tree.toList0, Tree.toList1]
      refine ⟨⟨a1, a2 ++ d :: t1.toList0, ?_, ?_⟩, ⟨t1.toList1 ++ d :: b1, b2, ?_, ?_⟩⟩
      · rw [ea]; simp
      · rw [ea']; simp
      · rw [eb]; simp
      · rw [eb']; simp
    · simp only [if_true, Tree.toList0, Tree.toList1]
      refine ⟨⟨t0.toList0 ++ d :: c1, c2, ?_, ?_⟩, ⟨d1, d2 ++ d :: t0.toList1, ?_, ?_⟩⟩
      · rw [ec]; simp
      · rw [ec']; simp
      · rw [ed]; simp
      · rw [ed']; simp

/-- C20: on a well-formed tree that satisfies invariants 1 to 3, whenever
`_rb_insert` completes, the insertion met no rotation (the node the descent
ended under is black or has a red sibling, so the fix-up never entered its
rotating branch); the store afterwards is, up to the sizes and colours of its
cells, the old store with one new cell holding `v` appended at the fresh
address and written into one child slot of the node where the descent ended,
so no payload, parent link or child link of an old node changed apart from
that slot; that slot was absent before; and the tree is well formed again with
each reading of its payloads (`childs[0]`, node, `childs[1]` and the reverse)
equal to the old reading with `v` put in at one place. -/
theorem insert_completes_without_rotation {α : Type} (lt : α → α → Bool) (v : α)
    (mem mem1 : rb_mem α) (root : rb_node_p) (tree1 : rb_tree_s α) (h : rb_node_p) (t : Tree α)
    (hwf : well_formed mem root t) (hrb : t.red_black = true)
    (hok : _rb_insert mem ⟨root, lt⟩ v = .ok (mem1, tree1, h)) :
    t.calm lt v false = true ∧
    blur false mem1 = blur false (linked mem (t.attach_parent lt v none false).1
      (t.attach_parent lt v none false).2 v) ∧
    (∀ pa pn, (t.attach_parent lt v none false).1 = some pa → mem[pa]? = some (some pn) →
      pn.childs (t.attach_parent lt v none false).2 = none) ∧
    ∃ t1, well_formed mem1 tree1.root t1 ∧
      (∃ l1 l2, t.toList0 = l1 ++ l2 ∧ t1.toList0 = l1 ++ v :: l2) ∧
      (∃ l1 l2, t.toList1 = l1 ++ l2 ∧ t1.toList1 = l1 ++ v :: l2) := by
  have hcalm : t.calm lt v false = true := by
    cases hc : t.calm lt v false
    · rw [insert_rough_faults lt v mem root t hwf hrb hc] at hok
      cases hok
    · rfl
  obtain ⟨m1, h1, hins, _, hb⟩ := insert_calm_store lt v mem root t hwf hcalm
  obtain ⟨m2, h2, t1, hins2, hw, hbt⟩ := insert_calm lt v mem root t hwf hcalm
  rw [hok] at hins hins2
  simp only [Except.ok.injEq, Prod.mk.injEq] at hins hins2
  obtain ⟨rfl, rfl, rfl⟩ := hins
  obtain ⟨rfl, _, _⟩ := hins2
  refine ⟨hcalm, hb, ?_, t1, hw, ?_, ?_⟩
  · intro pa pn hpa hpn
    obtain ⟨_, hr⟩ := well_formed_realizes hwf
    by_cases hnil : t = .nil
    · subst hnil
      simp [Tree.attach_parent] at hpa
    · obtain ⟨pa1, dir1, pn1, e1, e2, e3⟩ := attach_slot_absent lt v mem t none false hr hnil
      rw [e1] at hpa ⊢
      simp only [Option.some.injEq] at hpa
      subst hpa
      rw [e2] at hpn
      simp only [Option.some.injEq] at hpn
      subst hpn
      exact e3
  · obtain ⟨l1, l2, e, e'⟩ := (attach_splits lt v mem.length t).1
    refine ⟨l1, l2, e, ?_⟩
    rw [← blur_toList0 false t1, hbt, blur_toList0, e']
  · obtain ⟨l1, l2, e, e'⟩ := (attach_splits lt v mem.length t).2
    refine ⟨l1, l2, e, ?_⟩
    rw [← blur_toList1 false t1, hbt, blur_toList1, e']

/-- C20 at the tree with a black root 20 and the black leaves 30 (in
`childs[0]`) and 10 (in `childs[1]`), where inserting 5 completes: the new
node is hung in `childs[1]` of the leaf 10. -/
theorem insert_completes_without_rotation_witness :
    well_formed (black_leaves (30 : Int) 20 10) (some 0)
        (.node 0 (.node 1 .nil 1 false 30 .nil) 3 false 20 (.node 2 .nil 1 false 10 .nil)) ∧
      (Tree.node 0 (.node 1 .nil 1 false 30 .nil) 3 false (20 : Int)
        (.node 2 .nil 1 false 10 .nil)).red_black = true ∧
      _rb_insert (black_leaves (30 : Int) 20 10) ⟨some 0, int_lt⟩ 5
        = .ok ([some ⟨none, some 1, some 2, 4, false, 20⟩,
                some ⟨some 0, none, none, 1, false, 30⟩,
                some ⟨some 0, none, some 3, 3, false, 10⟩,
                some ⟨some 2, none, none, 1, true, 5⟩], ⟨some 0, int_lt⟩, some 3) ∧
      blur false [some ⟨none, some 1, some 2, 4, false, (20 : Int)⟩,
                some ⟨some 0, none, none, 1, false, 30⟩,
                some ⟨some 0, none, some 3, 3, false, 10⟩,
                some ⟨some 2, none, none, 1, true, 5⟩]
        = blur false (linked (black_leaves (30 : Int) 20 10) (some 2) true 5) :=
  ⟨by decide, by decide, rfl,
    (insert_completes_without_rotation int_lt 5 (black_leaves 30 20 10) _ (some 0) _ _
      (.node 0 (.node 1 .nil 1 false 30 .nil) 3 false 20 (.node 2 .nil 1 false 10 .nil))
      (by decide) (by decide) rfl).2.1⟩

/-! ## Pictures with a hole -/

theorem plug_append {α : Type} (fs gs : List (Frame α)) (u : Tree α) :
    plug (fs ++ gs) u = plug gs (plug fs u) := by
  induction fs generalizing u with
  | nil => rfl
  | cons f fs ih => exact ih _

theorem wrap_ptr {α : Type} (f : Frame α) (u : Tree α) : (f.wrap u).ptr = some f.addr := by
  unfold Frame.wrap
  cases f.dir <;> rfl

theorem wrap_addrs_perm {α : Type} (f : Frame α) (u : Tree α) :
    (f.wrap u).addrs.Perm (u.addrs ++ (f.addr :: f.other.addrs)) := by
  unfold Frame.wrap
  cases f.dir
  · simp only [Bool.false_eq_true, if_false, Tree.addrs]
    exact List.perm_middle.symm
  · simp only [if_true, Tree.addrs]
    exact (List.Perm.cons _ List.perm_append_comm).trans List.perm_middle.symm

theorem plug_addrs_perm {α : Type} (fs : List (Frame α)) (u : Tree α) :
    (plug fs u).addrs.Perm (u.addrs ++ ctx_addrs fs) := by
  induction fs generalizing u with
  | nil => simp [plug, ctx_addrs]
  | cons f fs ih =>
    refine (ih (f.wrap u)).trans ?_
    refine ((wrap_addrs_perm f u).append_right _).trans ?_
    simp only [ctx_addrs, List.append_assoc, List.cons_append]
    exact List.Perm.refl _

theorem realizes_wrap {α : Type} (mem : rb_mem α) (f : Frame α) (u : Tree α) (q : rb_node_p) :
    realizes mem (f.wrap u) q ↔
      mem[f.addr]? = some (some ⟨q, if f.dir then f.other.ptr else u.ptr,
        if f.dir then u.ptr else f.other.ptr, f.size, f.is_red, f.data⟩) ∧
      realizes mem f.other (some f.addr) ∧ realizes mem u (some f.addr) := by
  unfold Frame.wrap
  cases f.dir
  · simp only [Bool.false_eq_true, if_false, realizes]
    constructor
    · rintro ⟨a, b, c⟩; exact ⟨a, c, b⟩
    · rintro ⟨a, b, c⟩; exact ⟨a, c, b⟩
  · simp only [if_true, realizes]

theorem realizes_plug {α : Type} (mem : rb_mem α) (fs : List (Frame α)) (top : rb_node_p) :
    ∀ u : Tree α, realizes mem (plug fs u) top ↔
      realizes mem u (up fs top) ∧ ctx mem fs u.ptr top := by
  induction fs with
  | nil => intro u; simp [plug, up, ctx]
  | cons f fs ih =>
    intro u
    simp only [plug, ih, realizes_wrap, wrap_ptr, up, ctx]
    constructor
    · rintro ⟨⟨a, b, c⟩, d⟩; exact ⟨c, a, b, d⟩
    · rintro ⟨c, a, b, d⟩; exact ⟨⟨a, b, c⟩, d⟩

theorem ctx_frame {α : Type} (mem mem1 : rb_mem α) (fs : List (Frame α)) (top : rb_node_p) :
    ∀ c : rb_node_p, ctx mem fs c top → (∀ b ∈ ctx_addrs fs, mem1[b]? = mem[b]?) →
      ctx mem1 fs c top := by
  induction fs with
  | nil => intro _ _ _; trivial
  | cons f fs ih =>
    intro c h hsame
    obtain ⟨h1, h2, h3⟩ := h
    simp only [ctx_addrs, List.mem_cons, List.mem_append] at hsame
    refine ⟨?_, ?_, ?_⟩
    · rw [hsame _ (Or.inl rfl), h1]
    · exact realizes_frame mem mem1 f.other _ h2 (fun a ha => hsame a (Or.inr (Or.inl ha)))
    · exact ih _ h3 (fun b hb => hsame b (Or.inr (Or.inr hb)))

/-! ## The place of a node in a picture -/

theorem sub_ptr {α : Type} (a : Nat) (t : Tree α) (h : a ∈ t.addrs) : (t.sub a).ptr = some a := by
  induction t with
  | nil => simp [Tree.addrs] at h
  | node b t0 s r d t1 ih0 ih1 =>
    simp only [Tree.sub]
    by_cases e : b = a
    · simp [e, Tree.ptr]
    · simp only [e, if_false]
      by_cases h0 : a ∈ t0.addrs
      · simp only [h0, if_true]; exact ih0 h0
      · simp only [h0, if_false]
        simp only [Tree.addrs, List.mem_cons, List.mem_append] at h
        rcases h with h | h | h
        · exact absurd h.symm e
        · exact absurd h h0
        · exact ih1 h

/-- Every node of a picture has a place in it. -/
theorem sub_plug_exists {α : Type} (a : Nat) (t : Tree α) (h : a ∈ t.addrs) :
    ∃ fs : List (Frame α), t = plug fs (t.sub a) := by
  induction t with
  | nil => simp [Tree.addrs] at h
  | node b t0 s r d t1 ih0 ih1 =>
    simp only [Tree.sub]
    by_cases e : b = a
    · simp only [e, if_true]; exact ⟨[], rfl⟩
    · simp only [e, if_false]
      by_cases h0 : a ∈ t0.addrs
      · simp only [h0, if_true]
        obtain ⟨fs, hfs⟩ := ih0 h0
        refine ⟨fs ++ [⟨b, false, s, r, d, t1⟩], ?_⟩
        rw [plug_append, ← hfs]
        rfl
      · simp only [h0, if_false]
        simp only [Tree.addrs, List.mem_cons, List.mem_append] at h
        rcases h with h | h | h
        · exact absurd h.symm e
        · exact absurd h h0
        · obtain ⟨fs, hfs⟩ := ih1 h
          refine ⟨fs ++ [⟨b, true, s, r, d, t0⟩], ?_⟩
          rw [plug_append, ← hfs]
          rfl

theorem first_plug {α : Type} (t : Tree α) (h : t ≠ .nil) :
    ∃ fs : List (Frame α), t = plug fs t.first ∧ t.first ≠ .nil ∧
      (t.first.child false) = .nil := by
  induction t with
  | nil => exact absurd rfl h
  | node b t0 s r d t1 ih0 _ =>
    simp only [Tree.first]
    by_cases e : t0.ptr = none
    · simp only [e, if_true]
      refine ⟨[], rfl, Tree.noConfusion, ?_⟩
      simp only [Tree.child, Bool.false_eq_true, if_false]
      exact (ptr_eq_none t0).1 e
    · simp only [e, if_false]
      have h0 : t0 ≠ .nil := fun h => e ((ptr_eq_none t0).2 h)
      obtain ⟨fs, hfs, h1, h2⟩ := ih0 h0
      refine ⟨fs ++ [⟨b, false, s, r, d, t1⟩], ?_, h1, h2⟩
      rw [plug_append, ← hfs]
      rfl

theorem child_plug {α : Type} (t : Tree α) (dir : Bool) (h : t ≠ .nil) :
    ∃ f : Frame α, t = plug [f] (t.child dir) := by
  cases t with
  | nil => exact absurd rfl h
  | node b t0 s r d t1 =>
    cases dir
    · exact ⟨⟨b, false, s, r, d, t1⟩, rfl⟩
    · exact ⟨⟨b, true, s, r, d, t0⟩, rfl⟩

/-- The node that `rb_erase` unlinks has a place in the picture, and at most
one child. -/
theorem unlinked_plug {α : Type} (n : Nat) (t : Tree α) (h : n ∈ t.addrs) :
    ∃ fs : List (Frame α), t = plug fs (t.unlinked n) ∧ t.unlinked n ≠ .nil ∧
      (((t.unlinked n).child false).ptr = none ∨ ((t.unlinked n).child true).ptr = none) := by
  obtain ⟨fs, hfs⟩ := sub_plug_exists n t h
  have hp := sub_ptr n t h
  have hne : t.sub n ≠ .nil := by
    intro e; rw [e] at hp; cases hp
  unfold Tree.unlinked
  by_cases hc : ((t.sub n).child false).ptr ≠ none ∧ ((t.sub n).child true).ptr ≠ none
  · simp only [hc, ne_eq, not_false_eq_true, and_self, if_true]
    have h1 : (t.sub n).child true ≠ .nil := fun e => hc.2 ((ptr_eq_none _).2 e)
    obtain ⟨gs, hgs, g1, g2⟩ := first_plug _ h1
    obtain ⟨f, hf⟩ := child_plug (t.sub n) true hne
    refine ⟨gs ++ ([f] ++ fs), ?_, g1, Or.inl ?_⟩
    · rw [plug_append, plug_append, ← hgs, ← hf, ← hfs]
    · rw [g2]; rfl
  · rw [if_neg hc]
    refine ⟨fs, hfs, hne, ?_⟩
    by_cases h0 : ((t.sub n).child false).ptr = none
    · exact Or.inl h0
    · by_cases h1 : ((t.sub n).child true).ptr = none
      · exact Or.inr h1
      · exact absurd ⟨h0, h1⟩ hc

theorem sub_not_mem {α : Type} (a : Nat) (t : Tree α) (h : a ∉ t.addrs) : t.sub a = .nil := by
  induction t with
  | nil => rfl
  | node b t0 s r d t1 ih0 ih1 =>
    simp only [Tree.addrs, List.mem_cons, List.mem_append, not_or] at h
    simp only [Tree.sub]
    rw [if_neg (fun e => h.1 e.symm), if_neg h.2.1]
    exact ih1 h.2.2

theorem sub_self {α : Type} (a : Nat) (t : Tree α) (h : t.ptr = some a) : t.sub a = t := by
  cases t with
  | nil => cases h
  | node b t0 s r d t1 =>
    simp only [Tree.ptr, Option.some.injEq] at h
    simp [Tree.sub, h]

theorem wrap_nodup {α : Type} (f : Frame α) (u : Tree α) (h : (f.wrap u).addrs.Nodup) :
    u.addrs.Nodup ∧ f.addr ∉ u.addrs ∧ ∀ a ∈ u.addrs, a ∉ f.other.addrs := by
  have h1 := (wrap_addrs_perm f u).nodup_iff.1 h
  rw [List.nodup_append] at h1
  obtain ⟨a, b, c⟩ := h1
  refine ⟨a, fun hx => c hx (List.mem_cons_self _ _), fun x hx hy => c hx (List.mem_cons_of_mem _ hy)⟩

theorem plug_nodup {α : Type} (fs : List (Frame α)) (u : Tree α) (h : (plug fs u).addrs.Nodup) :
    u.addrs.Nodup ∧ (ctx_addrs fs).Nodup ∧ ∀ a ∈ u.addrs, a ∉ ctx_addrs fs := by
  have h1 := (plug_addrs_perm fs u).nodup_iff.1 h
  rw [List.nodup_append] at h1
  obtain ⟨a, b, c⟩ := h1
  exact ⟨a, b, fun x hx hy => c hx hy⟩

theorem sub_wrap {α : Type} (f : Frame α) (u : Tree α) (x : Nat)
    (h : (f.wrap u).addrs.Nodup) (hx : x ∈ u.addrs) : (f.wrap u).sub x = u.sub x := by
  obtain ⟨_, h2, h3⟩ := wrap_nodup f u h
  have hne : f.addr ≠ x := fun e => h2 (e ▸ hx)
  unfold Frame.wrap
  cases f.dir
  · simp only [Bool.false_eq_true, if_false, Tree.sub]
    rw [if_neg hne, if_pos hx]
  · simp only [if_true, Tree.sub]
    rw [if_neg hne, if_neg (h3 x hx)]

theorem mem_wrap {α : Type} (f : Frame α) (u : Tree α) (x : Nat) (hx : x ∈ u.addrs) :
    x ∈ (f.wrap u).addrs :=
  (wrap_addrs_perm f u).mem_iff.2 (List.mem_append_left _ hx)

theorem mem_plug {α : Type} (fs : List (Frame α)) (u : Tree α) (x : Nat) (hx : x ∈ u.addrs) :
    x ∈ (plug fs u).addrs :=
  (plug_addrs_perm fs u).mem_iff.2 (List.mem_append_left _ hx)

theorem plug_wrap_nodup {α : Type} (f : Frame α) (fs : List (Frame α)) (u : Tree α)
    (h : (plug (f :: fs) u).addrs.Nodup) : (f.wrap u).addrs.Nodup :=
  (plug_nodup fs (f.wrap u) h).1

/-- In a picture without repeated addresses the picture below the address of
a node at some place is what stands at that place. -/
theorem sub_plug {α : Type} (fs : List (Frame α)) (x : Nat) :
    ∀ u : Tree α, (plug fs u).addrs.Nodup → x ∈ u.addrs → (plug fs u).sub x = u.sub x := by
  induction fs with
  | nil => intro u _ _; rfl
  | cons f fs ih =>
    intro u h hx
    rw [show plug (f :: fs) u = plug fs (f.wrap u) from rfl, ih _ h (mem_wrap f u x hx),
      sub_wrap f u x (plug_wrap_nodup f fs u h) hx]

/-! ## The exchange of payloads -/

theorem setData_ptr {α : Type} (a : Nat) (d : α) (t : Tree α) : (t.setData a d).ptr = t.ptr := by
  cases t <;> rfl

theorem setData_addrs {α : Type} (a : Nat) (d : α) (t : Tree α) :
    (t.setData a d).addrs = t.addrs := by
  induction t with
  | nil => rfl
  | node b t0 s r e t1 ih0 ih1 => simp only [Tree.setData, Tree.addrs, ih0, ih1]

theorem setData_red {α : Type} (a : Nat) (d : α) (t : Tree α) : (t.setData a d).red = t.red := by
  cases t <;> rfl

theorem setData_sz {α : Type} (a : Nat) (d : α) (t : Tree α) : (t.setData a d).sz = t.sz := by
  cases t <;> rfl

theorem setData_no_red_red {α : Type} (a : Nat) (d : α) (t : Tree α) :
    (t.setData a d).no_red_red = t.no_red_red := by
  induction t with
  | nil => rfl
  | node b t0 s r e t1 ih0 ih1 =>
    simp only [Tree.setData, Tree.no_red_red, ih0, ih1, setData_red]

theorem setData_black_height {α : Type} (a : Nat) (d : α) (t : Tree α) :
    (t.setData a d).black_height = t.black_height := by
  induction t with
  | nil => rfl
  | node b t0 s r e t1 ih0 ih1 =>
    simp only [Tree.setData, Tree.black_height, ih0, ih1]

theorem setData_sizes_ok {α : Type} (a : Nat) (d : α) (t : Tree α) :
    (t.setData a d).sizes_ok = t.sizes_ok := by
  induction t with
  | nil => rfl
  | node b t0 s r e t1 ih0 ih1 =>
    simp only [Tree.setData, Tree.sizes_ok, ih0, ih1, setData_sz]

theorem setData_red_black {α : Type} (a : Nat) (d : α) (t : Tree α) :
    (t.setData a d).red_black = t.red_black := by
  simp only [Tree.red_black, Tree.root_black, Tree.balanced, setData_red, setData_no_red_red,
    setData_black_height]

theorem sub_setData {α : Type} (a : Nat) (d : α) (b : Nat) (t : Tree α) :
    (t.setData a d).sub b = (t.sub b).setData a d := by
  induction t with
  | nil => rfl
  | node c t0 s r e t1 ih0 ih1 =>
    simp only [Tree.setData, Tree.sub, setData_addrs]
    by_cases h : c = b
    · simp only [h, if_true, Tree.setData]
    · simp only [h, if_false]
      by_cases h0 : b ∈ t0.addrs
      · simp only [h0, if_true, ih0]
      · simp only [h0, if_false, ih1]

/-- Writing the payload of one cell is, on the picture, `Tree.setData`. -/
theorem realizes_setData {α : Type} (mem : rb_mem α) (a : Nat) (d : α) (n : rb_node_s α)
    (hn : mem[a]? = some (some n)) (t : Tree α) :
    ∀ parent, realizes mem t parent →
      realizes (mem.set a (some { n with data := d })) (t.setData a d) parent := by
  induction t with
  | nil => intro _ _; trivial
  | node b t0 s r e t1 ih0 ih1 =>
    intro parent hr
    obtain ⟨hc, r0, r1⟩ := hr
    refine ⟨?_, ih0 _ r0, ih1 _ r1⟩
    simp only [setData_ptr]
    by_cases h : b = a
    · subst h
      rw [hc] at hn
      simp only [Option.some.injEq] at hn
      subst hn
      rw [List.getElem?_set_self (lt_length_of_getElem? hc)]
      simp
    · rw [List.getElem?_set_ne (fun e => h e.symm), hc]
      simp [h]

/-! ## The successor search -/

theorem succ_first {α : Type} (mem : rb_mem α) (c : Tree α) :
    ∀ (q : rb_node_p) (fuel : Nat), realizes mem c q → c ≠ .nil → c.height ≤ fuel →
      rb_erase_succ mem fuel c.ptr = .ok c.first.ptr := by
  induction c with
  | nil => intro _ _ _ h; exact absurd rfl h
  | node b t0 s r d t1 ih0 _ =>
    intro q fuel hr _ hf
    obtain ⟨hc, r0, _⟩ := hr
    cases fuel with
    | zero => simp [Tree.height] at hf
    | succ fuel =>
      simp only [Tree.height] at hf
      simp only [rb_erase_succ, ptr_node, deref_some hc, bind, Except.bind, Tree.first]
      by_cases e : t0.ptr = none
      · simp [e, ptr_node]
      · simp only [e, if_false]
        exact ih0 _ fuel r0 (fun h => e ((ptr_eq_none t0).2 h)) (by omega)

theorem first_mem {α : Type} (t : Tree α) (x : Nat) (h : t.first.ptr = some x) :
    x ∈ t.addrs := by
  have hne : t ≠ .nil := by
    intro e; subst e; cases h
  obtain ⟨fs, hfs, _, _⟩ := first_plug t hne
  rw [hfs]
  exact mem_plug fs _ x (ptr_mem_addrs _ x h)

theorem node_of_ptr {α : Type} (t : Tree α) (x : Nat) (h : t.ptr = some x) :
    ∃ c0 sz r d c1, t = .node x c0 sz r d c1 := by
  cases t with
  | nil => cases h
  | node b t0 s r d t1 =>
    simp only [Tree.ptr, Option.some.injEq] at h
    subst h
    exact ⟨_, _, _, _, _, rfl⟩

/-- The first part of `rb_erase`: the node to unlink is found and, when it is
not `n`, the payloads of the two are exchanged; the fix-up is then entered on
a store that holds the picture with the payloads exchanged. -/
theorem erase_unfold {α : Type} (lt : α → α → Bool) (mem : rb_mem α) (root : rb_node_p)
    (t : Tree α) (n : Nat) (hwf : well_formed mem root t) (hn : n ∈ t.addrs) :
    ∃ (x : Nat) (c0 c1 n0 n1 : Tree α) (sz sn : Nat) (r rn : Bool) (dx dn : α)
      (mem1 : rb_mem α),
      t.unlinked n = .node x c0 sz r dx c1 ∧ t.sub n = .node n n0 sn rn dn n1 ∧
      realizes mem1 (if x = n then t else (t.setData n dx).setData x dn) none ∧
      rb_erase mem ⟨root, lt⟩ (some n) =
        (rb_erase_fixup mem1 ⟨root, lt⟩ (some x)).bind
          (fun r => (release r.1 r.2.2).bind (fun m => .ok (m, r.2.1))) := by
  obtain ⟨hptr, hr⟩ := well_formed_realizes hwf
  have hnd := hwf.2
  obtain ⟨fs, hfs⟩ := sub_plug_exists n t hn
  obtain ⟨n0, sn, rn, dn, n1, hsub⟩ := node_of_ptr _ n (sub_ptr n t hn)
  have hrs : realizes mem (t.sub n) (up fs none) := by
    have := hr
    rw [hfs, realizes_plug] at this
    exact this.1
  have hnd2 : (t.sub n).addrs.Nodup := by
    have := hnd
    rw [hfs] at this
    exact (plug_nodup fs _ this).1
  rw [hsub] at hrs hnd2
  obtain ⟨hcn, _, rn1⟩ := hrs
  by_cases hc : n0.ptr ≠ none ∧ n1.ptr ≠ none
  · -- two children: the successor is unlinked
    have hne1 : n1 ≠ .nil := fun e => hc.2 ((ptr_eq_none _).2 e)
    obtain ⟨gs, hgs, g1, g2⟩ := first_plug n1 hne1
    have hun : t.unlinked n = n1.first := by
      unfold Tree.unlinked
      rw [hsub]
      simp only [Tree.child, Bool.false_eq_true, if_false, if_true]
      rw [if_pos hc]
    cases hf : n1.first with
    | nil => exact absurd hf g1
    | node x c0 sz r dx c1 =>
      have hxm : x ∈ n1.addrs := first_mem n1 x (by rw [hf]; rfl)
      have hxn : x ≠ n := by
        intro e
        subst e
        simp only [Tree.addrs, List.nodup_cons, List.mem_append, not_or] at hnd2
        exact hnd2.1.2 hxm
      have hrf : realizes mem n1.first (up gs (some n)) := by
        have := rn1
        rw [hgs, realizes_plug] at this
        exact this.1
      rw [hf] at hrf
      obtain ⟨hcx, _, _⟩ := hrf
      have hh : n1.height ≤ budget mem := by
        have h1 := height_le_length t
        have h2 := length_le_of_nodup_lt _ _ hnd (realizes_addrs_lt mem t none hr)
        have h3 : n1.height ≤ (t.sub n).height := by
          rw [hsub]; simp only [Tree.height]; omega
        have h4 : (t.sub n).height ≤ (t.sub n).addrs.length := height_le_length _
        have h5 : (t.sub n).addrs.length ≤ t.addrs.length := by
          have := (plug_addrs_perm fs (t.sub n)).length_eq
          rw [← hfs, List.length_append] at this
          omega
        simp only [budget]
        omega
      have hsucc := succ_first mem n1 (some n) (budget mem) rn1 hne1 hh
      rw [hf] at hsucc
      have hx1 : (mem.set n (some { (⟨up fs none, n0.ptr, n1.ptr, sn, rn, dn⟩ : rb_node_s α)
          with data := dx }))[x]?
          = some (some ⟨up gs (some n), c0.ptr, c1.ptr, sz, r, dx⟩) := by
        rw [List.getElem?_set_ne (fun e => hxn e.symm), hcx]
      refine ⟨x, c0, c1, n0, n1, sz, sn, r, rn, dx, dn,
        (mem.set n (some { (⟨up fs none, n0.ptr, n1.ptr, sn, rn, dn⟩ : rb_node_s α)
          with data := dx })).set x (some { (⟨up gs (some n), c0.ptr, c1.ptr, sz, r, dx⟩ :
            rb_node_s α) with data := dn }), hun.trans hf, hsub, ?_, ?_⟩
      · rw [if_neg hxn]
        exact realizes_setData _ x dn _ hx1 _ none (realizes_setData mem n dx _ hcn t none hr)
      · simp only [rb_erase, reduceCtorEq, if_false, deref_some hcn, bind, Except.bind]
        rw [if_pos hc]
        simp only [hsucc, ptr_node, deref_some hcx, update_some hcn, update_some hx1, store,
          pure, Except.pure]
  · -- at most one child: the node itself is unlinked
    have hun : t.unlinked n = t.sub n := by
      unfold Tree.unlinked
      rw [hsub]
      simp only [Tree.child, Bool.false_eq_true, if_false, if_true]
      rw [if_neg hc]
    refine ⟨n, n0, n1, n0, n1, sn, sn, rn, rn, dn, dn, mem, hun.trans hsub, hsub, ?_, ?_⟩
    · rw [if_pos rfl]; exact hr
    · simp only [rb_erase, reduceCtorEq, if_false, deref_some hcn, bind, Except.bind]
      rw [if_neg hc]
      rfl

/-! ## The loop of the erase fix-up at a black leaf -/

theorem blur_false_fields {α : Type} {n1 n : rb_node_s α} (h : n1.blur false = n.blur false) :
    n1.p = n.p ∧ n1.childs0 = n.childs0 ∧ n1.childs1 = n.childs1 ∧ n1.data = n.data := by
  simp only [rb_node_s.blur, Bool.false_and, rb_node_s.mk.injEq, true_and, and_true] at h
  exact h

/-- A colour is written through a pointer that is live in a store with the
same links: the write succeeds and the links stay the same. -/
theorem recolour_blur {α : Type} (m m1 : rb_mem α) (a : Nat) (c : Bool) (n : rb_node_s α)
    (hb : blur false m1 = blur false m) (h : m[a]? = some (some n)) :
    ∃ m2, update m1 (some a) (fun x => { x with is_red := c }) = .ok m2 ∧
      blur false m2 = blur false m := by
  obtain ⟨n1, h1, _⟩ := of_blur_eq hb a n h
  obtain ⟨e1, e2, _⟩ := recolour m1 a c n1 h1
  exact ⟨_, e1, e2.trans hb⟩

/-- The rotation faults in a store with the same links as one in which `r`
has no child on side `dir`. -/
theorem rotate_null_child_blur {α : Type} (m m1 : rb_mem α) (r n : Nat) (dir : Bool)
    (rn nn : rb_node_s α) (hb : blur false m1 = blur false m)
    (hr : m[r]? = some (some rn)) (hnn : m[n]? = some (some nn))
    (c1 : rn.childs (!dir) = some n) (d1 : r ≠ n) (c2 : rn.childs dir = none) :
    _rb_rotate m1 (some r) dir = .error .null_deref := by
  obtain ⟨rn1, hr1, br⟩ := of_blur_eq hb r rn hr
  obtain ⟨nn1, hn1, _⟩ := of_blur_eq hb n nn hnn
  obtain ⟨_, f2, f3, _⟩ := blur_false_fields br
  exact rotate_null_child m1 r n dir rn1 nn1 hr1 hn1 (by rw [childs_congr f2 f3, c1]) d1
    (by rw [childs_congr f2 f3, c2])

/-- The first round of the loop of `rb_erase_fixup` at a black node `x` whose
place below `parent` has been emptied, when the sibling is live and, if it is
black, has only red or absent children: the round does not complete. -/
theorem erase_loop_faults {α : Type} (root : rb_node_p) (fuel : Nat) (m : rb_mem α)
    (x pa sb : Nat) (dir : Bool) (xn pn sn : rb_node_s α)
    (hx : m[x]? = some (some xn)) (hblack : xn.is_red = false)
    (hp : m[pa]? = some (some pn)) (hs : m[sb]? = some (some sn))
    (c1 : pn.childs (!dir) = some sb) (c2 : pn.childs dir = none) (d1 : pa ≠ sb)
    (hkids : sn.is_red = false → ∀ b : Bool, sn.childs b = none ∨
      ∃ (c : Nat) (cn : rb_node_s α), sn.childs b = some c ∧ m[c]? = some (some cn) ∧
        cn.is_red = true) :
    rb_erase_fixup_loop root (fuel + 1) m (some pa) (some x) dir = .error .null_deref := by
  have hnull : ∀ m : rb_mem α, deref m none = .error .null_deref := fun _ => rfl
  simp only [rb_erase_fixup_loop, reduceCtorEq, if_false, deref_some hx, hblack, deref_some hp,
    c1, deref_some hs, bind, Except.bind, Bool.false_eq_true]
  cases hsr : sn.is_red
  · -- black sibling
    simp only [Bool.false_eq_true, if_false, pure, Except.pure, deref_some hs]
    rcases hkids hsr dir with hc | ⟨c, cn, hc, hcn, hcr⟩
    · simp only [hc, hnull]
    · simp only [hc, deref_some hcn, hcr, if_true]
      rcases hkids hsr (!dir) with hd | ⟨dc, dn, hd, hdn, hdr⟩
      · simp only [hd, hnull, Bool.false_eq_true, if_false]
      · simp only [hd, deref_some hdn, hdr, Bool.false_eq_true, if_false, Bool.not_true,
          deref_some hp]
        obtain ⟨m1, e1, b1⟩ := recolour_blur m m sb pn.is_red sn rfl hs
        obtain ⟨m2, e2, b2⟩ := recolour_blur m m1 dc false dn b1 hdn
        obtain ⟨m3, e3, b3⟩ := recolour_blur m m2 pa false pn b2 hp
        have hrot := rotate_null_child_blur m m3 pa sb dir pn sn b3 hp hs c1 d1 c2
        simp only [e1, e2, e3, hrot]
  · -- red sibling
    simp only [if_true]
    obtain ⟨m1, e1, b1⟩ := recolour_blur m m sb false sn rfl hs
    obtain ⟨m2, e2, b2⟩ := recolour_blur m m1 pa true pn b1 hp
    have hrot := rotate_null_child_blur m m2 pa sb dir pn sn b2 hp hs c1 d1 c2
    simp only [e1, e2, hrot]

/-! ## The walk to the root that decrements the sizes -/

theorem up_shrink {α : Type} (fs : List (Frame α)) (top : rb_node_p) :
    up (fs.map Frame.shrink) top = up fs top := by
  cases fs with
  | nil => rfl
  | cons f fs => rfl

theorem frame_addr_mem {α : Type} (fs : List (Frame α)) (g : Frame α) (h : g ∈ fs) :
    g.addr ∈ ctx_addrs fs := by
  induction fs with
  | nil => cases h
  | cons f fs ih =>
    simp only [ctx_addrs, List.mem_cons, List.mem_append]
    rcases List.mem_cons.1 h with h | h
    · exact Or.inl (by rw [h])
    · exact Or.inr (Or.inr (ih h))

theorem frames_length_le {α : Type} (fs : List (Frame α)) : fs.length ≤ (ctx_addrs fs).length := by
  induction fs with
  | nil => simp [ctx_addrs]
  | cons f fs ih =>
    simp only [ctx_addrs, List.length_cons, List.length_append]
    omega

/-- The decrement on pictures is the expression of the model of
`now->size--`. -/
theorem dec_size_def (s : Nat) : dec_size s = (s + SIZE_MOD - 1) % SIZE_MOD := by
  cases s with
  | zero => simp only [dec_size, SIZE_MOD]; norm_num
  | succ k => simp only [dec_size, SIZE_MOD]; omega

/-- One round of the loop `while (now) now->size--, now = now->p;`. -/
theorem shrink_step {α : Type} (mem : rb_mem α) (a fuel : Nat) (n : rb_node_s α)
    (h : mem[a]? = some (some n)) :
    rb_erase_shrink (fuel + 1) mem (some a)
      = rb_erase_shrink fuel (mem.set a (some { n with size := dec_size n.size })) n.p := by
  simp only [rb_erase_shrink, reduceCtorEq, if_false, deref_some h, update_some h, store, bind,
    Except.bind, dec_size_def]

/-- The loop `while (now) now->size--, now = now->p;` started at the
innermost frame completes; it decrements the size of every frame and changes
no other cell. -/
theorem shrink_ctx {α : Type} (fs : List (Frame α)) :
    ∀ (mem : rb_mem α) (c : rb_node_p) (fuel : Nat), ctx mem fs c none → (ctx_addrs fs).Nodup →
      fs.length < fuel →
      ∃ mem1, rb_erase_shrink fuel mem (up fs none) = .ok mem1 ∧
        ctx mem1 (fs.map Frame.shrink) c none ∧ mem1.length = mem.length ∧
        ∀ b : Nat, (∀ g ∈ fs, g.addr ≠ b) → mem1[b]? = mem[b]? := by
  induction fs with
  | nil =>
    intro mem c fuel _ _ hf
    cases fuel with
    | zero => cases hf
    | succ fuel => exact ⟨mem, rfl, trivial, rfl, fun _ _ => rfl⟩
  | cons f fs ih =>
    intro mem c fuel hctx hnd hf
    cases fuel with
    | zero => cases hf
    | succ fuel =>
      obtain ⟨hc, hro, hrest⟩ := hctx
      simp only [ctx_addrs, List.nodup_cons, List.mem_append, not_or, List.nodup_append] at hnd
      obtain ⟨⟨hf1, hf2⟩, hd1, hd2, hdis⟩ := hnd
      have hlen := lt_length_of_getElem? hc
      have hsame : ∀ b ∈ ctx_addrs fs,
          (mem.set f.addr (some { (⟨up fs none, if f.dir then f.other.ptr else c,
            if f.dir then c else f.other.ptr, f.size, f.is_red, f.data⟩ : rb_node_s α) with
            size := dec_size f.size }))[b]? = mem[b]? := by
        intro b hb
        have hne : f.addr ≠ b := by
          intro e; rw [e] at hf2; exact hf2 hb
        rw [List.getElem?_set_ne hne]
      obtain ⟨mem1, h1, h2, h3, h4⟩ := ih _ (some f.addr) fuel
        (ctx_frame mem _ fs none _ hrest hsame) hd2 (by simpa using hf)
      have hnotin : ∀ g ∈ fs, g.addr ≠ f.addr := by
        intro g hg e
        have := frame_addr_mem fs g hg
        rw [e] at this
        exact hf2 this
      refine ⟨mem1, ?_, ⟨?_, ?_, h2⟩, ?_, ?_⟩
      · show rb_erase_shrink (fuel + 1) mem (some f.addr) = .ok mem1
        rw [shrink_step mem f.addr fuel _ hc]
        exact h1
      · show mem1[f.addr]? = some (some ⟨up (fs.map Frame.shrink) none,
          if f.dir then f.other.ptr else c, if f.dir then c else f.other.ptr,
          dec_size f.size, f.is_red, f.data⟩)
        rw [h4 f.addr hnotin, List.getElem?_set_self hlen, up_shrink]
      · show realizes mem1 f.other (some f.addr)
        refine realizes_frame mem mem1 f.other _ hro ?_
        intro a ha
        have hg1 : ∀ g ∈ fs, g.addr ≠ a := by
          intro g hg e
          have := frame_addr_mem fs g hg
          rw [e] at this
          exact hdis ha this
        have hne : f.addr ≠ a := by
          intro e; rw [e] at hf1; exact hf1 ha
        rw [h4 a hg1, List.getElem?_set_ne hne]
      · rw [h3, List.length_set]
      · intro b hb
        rw [h4 b (fun g hg => hb g (List.mem_cons_of_mem _ hg)),
          List.getElem?_set_ne (hb f (List.mem_cons_self _ _))]

/-! ## Red-black pictures with a hole -/

theorem balanced_wrap {α : Type} (f : Frame α) (u : Tree α) (h : (f.wrap u).balanced = true) :
    u.balanced = true ∧ f.other.balanced = true ∧ f.other.black_height = u.black_height := by
  unfold Frame.wrap at h
  cases hd : f.dir
  · rw [hd] at h
    obtain ⟨a, b, c, _⟩ := balanced_node _ _ _ _ _ _ h
    exact ⟨a, b, c.symm⟩
  · rw [hd] at h
    obtain ⟨a, b, c, _⟩ := balanced_node _ _ _ _ _ _ h
    exact ⟨b, a, c⟩

theorem balanced_plug {α : Type} (fs : List (Frame α)) :
    ∀ u : Tree α, (plug fs u).balanced = true → u.balanced = true := by
  induction fs with
  | nil => intro u h; exact h
  | cons f fs ih => intro u h; exact (balanced_wrap f u (ih _ h)).1

theorem plug_ptr_mem {α : Type} (fs : List (Frame α)) (hne : fs ≠ []) :
    ∀ u : Tree α, ∃ a, (plug fs u).ptr = some a ∧ a ∈ ctx_addrs fs := by
  induction fs with
  | nil => exact absurd rfl hne
  | cons f fs ih =>
    intro u
    by_cases e : fs = []
    · subst e
      exact ⟨f.addr, wrap_ptr f u, by simp [ctx_addrs]⟩
    · obtain ⟨a, h1, h2⟩ := ih e (f.wrap u)
      exact ⟨a, h1, by simp [ctx_addrs, h2]⟩

theorem plug_ptr_nil {α : Type} (u : Tree α) : (plug ([] : List (Frame α)) u).ptr = u.ptr := rfl

/-- The heart of C19: `rb_erase_fixup` entered on a black node without
children that is not the root, in a balanced picture, does not complete.  After
the node is unlinked and the sizes above it are decremented, the first round
of the loop reads through the emptied slot of the parent, or through an absent
child of the sibling. -/
theorem erase_fixup_faults {α : Type} (lt : α → α → Bool) (mem : rb_mem α) (root : rb_node_p)
    (f : Frame α) (fs : List (Frame α)) (x sz : Nat) (d : α)
    (hr : realizes mem (plug (f :: fs) (.node x .nil sz false d .nil)) none)
    (hnd : (plug (f :: fs) (.node x .nil sz false d .nil)).addrs.Nodup)
    (hroot : (plug (f :: fs) (.node x .nil sz false d .nil)).ptr = root)
    (hbal : (plug (f :: fs) (.node x .nil sz false d .nil)).balanced = true) :
    rb_erase_fixup mem ⟨root, lt⟩ (some x) = .error .null_deref := by
  obtain ⟨fa, fd, fsz, fr, fdt, fo⟩ := f
  have hlen : (plug (⟨fa, fd, fsz, fr, fdt, fo⟩ :: fs) (.node x .nil sz false d .nil)).addrs.length
      ≤ mem.length := length_le_of_nodup_lt _ _ hnd (realizes_addrs_lt mem _ none hr)
  obtain ⟨_, hnc, hdisj⟩ := plug_nodup _ _ hnd
  have hxout : x ∉ ctx_addrs (⟨fa, fd, fsz, fr, fdt, fo⟩ :: fs) :=
    hdisj x (by simp [Tree.addrs])
  have hnc0 := hnc
  simp only [ctx_addrs, List.nodup_cons, List.mem_append, not_or, List.nodup_append] at hnc
  obtain ⟨⟨hf1, hf2⟩, _, hd2, _⟩ := hnc
  simp only [ctx_addrs, List.mem_cons, List.mem_append, not_or] at hxout
  obtain ⟨hx1, hx2, hx3⟩ := hxout
  -- the root is not `x`
  have hrx : ¬ (some x = root) := by
    obtain ⟨a, h1, h2⟩ := plug_ptr_mem (⟨fa, fd, fsz, fr, fdt, fo⟩ :: fs) (by simp)
      (.node x .nil sz false d .nil)
    rw [← hroot, h1]
    intro e
    simp only [Option.some.injEq] at e
    subst e
    exact hdisj x (by simp [Tree.addrs]) h2
  -- the cells of `x` and of its parent
  have hbw := balanced_wrap _ _ (balanced_plug fs _ hbal)
  rw [realizes_plug] at hr
  obtain ⟨⟨hxc0, _, _⟩, hpc0, hro, hrest⟩ := hr
  have hxc : mem[x]? = some (some ⟨some fa, none, none, sz, false, d⟩) := hxc0
  have hpc : mem[fa]? = some (some ⟨up fs none, if fd = true then fo.ptr else some x,
      if fd = true then some x else fo.ptr, fsz, fr, fdt⟩) := hpc0
  have hdir : decide (some x = (if fd = true then some x else fo.ptr)) = fd := by
    cases fd
    · simp only [Bool.false_eq_true, if_false, decide_eq_false_iff_not]
      intro e
      exact hx2 (ptr_mem_addrs fo x e.symm)
    · simp
  have hset : (⟨up fs none, if fd = true then fo.ptr else some x,
      if fd = true then some x else fo.ptr, fsz, fr, fdt⟩ : rb_node_s α).setChild fd none
      = ⟨up fs none, if fd = true then fo.ptr else none, if fd = true then none else fo.ptr,
        fsz, fr, fdt⟩ := by
    cases fd <;> rfl
  -- the store after the unlinking holds the frames around an empty place
  have hctxb : ctx (mem.set fa (some (⟨up fs none, if fd = true then fo.ptr else none,
        if fd = true then none else fo.ptr, fsz, fr, fdt⟩ : rb_node_s α)))
      (⟨fa, fd, fsz, fr, fdt, fo⟩ :: fs) none none := by
    refine ⟨?_, ?_, ?_⟩
    · show (mem.set fa _)[fa]? = _
      rw [List.getElem?_set_self (lt_length_of_getElem? hpc)]
    · show realizes _ fo (some fa)
      refine realizes_frame mem _ fo _ hro ?_
      intro a ha
      have hne : fa ≠ a := by
        intro e; rw [e] at hf1; exact hf1 ha
      rw [List.getElem?_set_ne hne]
    · show ctx _ fs (some fa) none
      refine ctx_frame mem _ fs none _ hrest ?_
      intro a ha
      have hne : fa ≠ a := by
        intro e; rw [e] at hf2; exact hf2 ha
      rw [List.getElem?_set_ne hne]
  have hfuel : (⟨fa, fd, fsz, fr, fdt, fo⟩ :: fs : List (Frame α)).length < mem.length + 1 := by
    have h1 := frames_length_le (⟨fa, fd, fsz, fr, fdt, fo⟩ :: fs)
    have h2 := (plug_addrs_perm (⟨fa, fd, fsz, fr, fdt, fo⟩ :: fs)
      (.node x .nil sz false d .nil)).length_eq
    rw [List.length_append] at h2
    omega
  obtain ⟨mc, hsh0, hctxc, hlc, hsame⟩ := shrink_ctx _ _ none _ hctxb hnc0 hfuel
  have hsh : rb_erase_shrink (mem.length + 1) (mem.set fa (some (⟨up fs none,
      if fd = true then fo.ptr else none, if fd = true then none else fo.ptr, fsz, fr, fdt⟩ :
        rb_node_s α))) (some fa) = .ok mc := hsh0
  obtain ⟨hpc0', hro0', _⟩ := hctxc
  rw [up_shrink] at hpc0'
  have hpc' : mc[fa]? = some (some ⟨up fs none, if fd = true then fo.ptr else none,
      if fd = true then none else fo.ptr, dec_size fsz, fr, fdt⟩) := hpc0'
  have hro' : realizes mc fo (some fa) := hro0'
  have hlc' : mc.length = mem.length := by rw [hlc, List.length_set]
  -- `x` is untouched
  have hxc' : mc[x]? = some (some ⟨some fa, none, none, sz, false, d⟩) := by
    rw [hsame x ?_, List.getElem?_set_ne (fun e => hx1 e.symm)]
    · exact hxc
    · intro g hg e
      rcases List.mem_cons.1 hg with h | h
      · rw [h] at e; exact hx1 e.symm
      · have := frame_addr_mem fs g h
        rw [e] at this
        exact hx3 this
  -- the sibling
  have hbh : fo.black_height = some 1 := by
    rw [hbw.2.2]; rfl
  cases fo with
  | nil => cases hbh
  | node sb u0 ss rs ds u1 =>
    obtain ⟨hsc, ru0, ru1⟩ := hro'
    have hne : fa ≠ sb := by
      intro e; rw [e] at hf1; exact hf1 (by simp [Tree.addrs])
    have hkids : rs = false → ∀ b : Bool,
        (⟨some fa, u0.ptr, u1.ptr, ss, rs, ds⟩ : rb_node_s α).childs b = none ∨
        ∃ (c : Nat) (cn : rb_node_s α),
          (⟨some fa, u0.ptr, u1.ptr, ss, rs, ds⟩ : rb_node_s α).childs b = some c ∧
          mc[c]? = some (some cn) ∧ cn.is_red = true := by
      intro hrs
      subst hrs
      obtain ⟨_, _, e01, e⟩ := balanced_node _ _ _ _ _ _ hbw.2.1
      rw [hbh] at e
      have h0 : u0.black_height = some 0 := by
        cases h : u0.black_height with
        | none => rw [h] at e; cases e
        | some k =>
          rw [h] at e
          simp only [Option.map_some', Bool.false_eq_true, if_false, Option.some.injEq] at e
          have : k = 0 := by omega
          rw [this]
      have h1 : u1.black_height = some 0 := by rw [← e01, h0]
      have key : ∀ (u : Tree α), u.black_height = some 0 → realizes mc u (some sb) →
          u.ptr = none ∨ ∃ (c : Nat) (cn : rb_node_s α), u.ptr = some c ∧
            mc[c]? = some (some cn) ∧ cn.is_red = true := by
        intro u hu hru
        cases u with
        | nil => exact Or.inl rfl
        | node c v0 sc rc dc v1 =>
          right
          cases hrc : rc
          · have := black_height_zero _ hu (by simp [Tree.red, hrc])
            cases this
          · subst hrc
            exact ⟨c, _, rfl, hru.1, rfl⟩
      intro b
      cases b
      · exact key u0 h0 ru0
      · exact key u1 h1 ru1
    have hloop := erase_loop_faults root mem.length mc x fa sb fd _ _ _ hxc' rfl hpc' hsc
      (by cases fd <;> rfl) (by cases fd <;> rfl) hne hkids
    have hsib : (⟨up fs none, if fd = true then (Tree.node sb u0 ss rs ds u1).ptr else none,
        if fd = true then none else (Tree.node sb u0 ss rs ds u1).ptr, dec_size fsz, fr, fdt⟩ :
          rb_node_s α).childs fd = none := by
      cases fd <;> rfl
    simp only [rb_erase_fixup, hrx, if_false, _rb_child_dir, deref_some hxc, deref_some hpc,
      hdir, bind, Except.bind, pure, Except.pure, if_true, reduceCtorEq, update_some hpc, store,
      hset, budget, List.length_set, hsh, deref_some hxc', deref_some hpc', hsib, ne_eq,
      not_true_eq_false, hlc', hloop]

theorem unlinked_sub {α : Type} (n x : Nat) (t : Tree α) (hn : n ∈ t.addrs)
    (hnd : t.addrs.Nodup) (hx : (t.unlinked n).ptr = some x) :
    t.sub x = t.unlinked n ∧ x ∈ t.addrs := by
  obtain ⟨fs, hfs, _, _⟩ := unlinked_plug n t hn
  have hm : x ∈ (t.unlinked n).addrs := ptr_mem_addrs _ x hx
  constructor
  · have h1 := sub_plug fs x (t.unlinked n) (hfs ▸ hnd) hm
    rw [← hfs] at h1
    rw [h1, sub_self x _ hx]
  · rw [hfs]
    exact mem_plug fs _ x hm

/-- The place of a node of a picture that is not its root lies below at
least one frame. -/
theorem sub_plug_frames {α : Type} (x : Nat) (t : Tree α) (hx : x ∈ t.addrs)
    (hroot : t.ptr ≠ some x) :
    ∃ (f : Frame α) (fs : List (Frame α)), t = plug (f :: fs) (t.sub x) := by
  obtain ⟨fs, hfs⟩ := sub_plug_exists x t hx
  cases fs with
  | nil =>
    exfalso
    apply hroot
    rw [hfs]
    exact sub_ptr x t hx
  | cons f fs => exact ⟨f, fs, hfs⟩

/-- C19: on a well-formed tree that satisfies invariants 1 to 3, when the
node that `rb_erase(tree, n)` unlinks (`n`, or the node found by the successor
search when `n` has two children) is black, has no children and is not the
root, the call does not complete: the first round of the loop of
`rb_erase_fixup` reads through a `NULL` pointer, which is an absent child of
the sibling or the emptied child slot of the parent read by `_rb_rotate`. -/
theorem erase_black_leaf_never_completes {α : Type} (lt : α → α → Bool) (mem : rb_mem α)
    (root : rb_node_p) (t : Tree α) (n x sz : Nat) (d : α)
    (hwf : well_formed mem root t) (hrb : t.red_black = true) (hn : n ∈ t.addrs)
    (hx : t.unlinked n = .node x .nil sz false d .nil) (hroot : t.ptr ≠ some x) :
    rb_erase mem ⟨root, lt⟩ (some n) = .error .null_deref := by
  obtain ⟨hptr, _⟩ := well_formed_realizes hwf
  have hnd := hwf.2
  simp only [Tree.red_black, Bool.and_eq_true] at hrb
  obtain ⟨_, hbal⟩ := hrb
  obtain ⟨x1, c0, c1, n0, n1, sz1, sn, r, rn, dx, dn, mem1, hun, hsub, hreal, heq⟩ :=
    erase_unfold lt mem root t n hwf hn
  rw [hx] at hun
  simp only [Tree.node.injEq] at hun
  obtain ⟨rfl, rfl, rfl, rfl, rfl, rfl⟩ := hun
  obtain ⟨hsx, hxm⟩ := unlinked_sub n x t hn hnd (by rw [hx]; rfl)
  rw [hx] at hsx
  -- the picture the fix-up is entered on
  have key : ∀ t1 : Tree α, realizes mem1 t1 none → t1.addrs = t.addrs → t1.ptr = t.ptr →
      t1.black_height = t.black_height →
      (∃ e, t1.sub x = .node x .nil sz false e .nil) →
      rb_erase_fixup mem1 ⟨root, lt⟩ (some x) = .error .null_deref := by
    intro t1 hr1 ha hp hb ⟨e, hs⟩
    obtain ⟨f, fs, hfs⟩ := sub_plug_frames x t1 (ha ▸ hxm) (hp ▸ hroot)
    rw [hs] at hfs
    refine erase_fixup_faults lt mem1 root f fs x sz e (hfs ▸ hr1) ?_ ?_ ?_
    · rw [← hfs, ha]; exact hnd
    · rw [← hfs, hp, hptr]
    · rw [← hfs]
      simp only [Tree.balanced, hb]
      exact hbal
  have hfix : rb_erase_fixup mem1 ⟨root, lt⟩ (some x) = .error .null_deref := by
    by_cases e : x = n
    · rw [if_pos e] at hreal
      exact key t hreal rfl rfl rfl ⟨_, hsx⟩
    · rw [if_neg e] at hreal
      refine key _ hreal ?_ ?_ ?_ ?_
      · rw [setData_addrs, setData_addrs]
      · rw [setData_ptr, setData_ptr]
      · rw [setData_black_height, setData_black_height]
      · rw [sub_setData, sub_setData, hsx]
        exact ⟨_, rfl⟩
  rw [heq, hfix]
  rfl

/-- C19 at the red-black tree of seven nodes, erasing the root 50: it has two
children, the successor search finds the black leaf 40 (address 4), and the
call does not complete. -/
theorem erase_black_leaf_never_completes_witness :
    well_formed seven_nodes (some 0)
        (.node 0 (.node 2 .nil 1 false 60 .nil) 7 false 50
          (.node 1 (.node 4 .nil 1 false 40 .nil) 5 true 30
            (.node 3 (.node 6 .nil 1 true 25 .nil) 3 false 20 (.node 5 .nil 1 true 10 .nil)))) ∧
      rb_erase seven_nodes ⟨some 0, int_lt⟩ (some 0) = .error .null_deref :=
  ⟨by decide,
    erase_black_leaf_never_completes int_lt seven_nodes (some 0)
      (.node 0 (.node 2 .nil 1 false 60 .nil) 7 false 50
        (.node 1 (.node 4 .nil 1 false 40 .nil) 5 true 30
          (.node 3 (.node 6 .nil 1 true 25 .nil) 3 false 20 (.node 5 .nil 1 true 10 .nil))))
      0 4 1 40 (by decide) (by decide) (by decide) (by decide) (by decide)⟩

/-! ## The erase fix-up on the ways that do not enter the loop -/

theorem blacken_ptr {α : Type} (s : Tree α) : s.blacken.ptr = s.ptr := by
  cases s <;> rfl

theorem blacken_addrs {α : Type} (s : Tree α) : s.blacken.addrs = s.addrs := by
  cases s <;> rfl

/-- The fix-up entered on the root: the child of the root, if any, becomes
the root and is coloured black. -/
theorem erase_fixup_root {α : Type} (lt : α → α → Bool) (mem : rb_mem α) (x : Nat)
    (xn : rb_node_s α) (s : Tree α)
    (hxc : mem[x]? = some (some xn)) (hxp : xn.p = none)
    (hs : (if xn.childs0 = none then xn.childs1 else xn.childs0) = s.ptr)
    (hrs : realizes mem s (some x)) (hnd : (x :: s.addrs).Nodup) :
    ∃ (mem1 : rb_mem α) (xn1 : rb_node_s α),
      rb_erase_fixup mem ⟨some x, lt⟩ (some x) = .ok (mem1, ⟨s.ptr, lt⟩, some x) ∧
      mem1[x]? = some (some xn1) ∧ realizes (mem1.set x none) s.blacken none := by
  cases s with
  | nil =>
    refine ⟨mem, xn, ?_, hxc, trivial⟩
    simp only [ptr_eq_none, Tree.ptr] at hs ⊢
    simp only [rb_erase_fixup, if_true, deref_some hxc, hxp, hs, bind, Except.bind, pure,
      Except.pure]
  | node sb u0 ss rs ds u1 =>
    obtain ⟨hsc, ru0, ru1⟩ := hrs
    simp only [Tree.addrs, List.nodup_cons, List.mem_cons, List.mem_append, not_or] at hnd
    obtain ⟨⟨hxs, hx0, hx1⟩, ⟨hs0, hs1⟩, _⟩ := hnd
    have hlen := lt_length_of_getElem? hsc
    have hlx := lt_length_of_getElem? hxc
    have e1 : (mem.set sb (some ⟨none, u0.ptr, u1.ptr, ss, rs, ds⟩))[x]? = some (some xn) := by
      rw [List.getElem?_set_ne (Ne.symm hxs), hxc]
    have e2 : (mem.set sb (some ⟨none, u0.ptr, u1.ptr, ss, rs, ds⟩))[sb]?
        = some (some ⟨none, u0.ptr, u1.ptr, ss, rs, ds⟩) := by
      rw [List.getElem?_set_self hlen]
    refine ⟨(mem.set sb (some ⟨none, u0.ptr, u1.ptr, ss, rs, ds⟩)).set sb
      (some ⟨none, u0.ptr, u1.ptr, ss, false, ds⟩), xn, ?_, ?_, ?_, ?_, ?_⟩
    · simp only [ptr_node] at hs ⊢
      simp only [rb_erase_fixup, if_true, deref_some hxc, hxp, hs, bind, Except.bind, pure,
        Except.pure, reduceCtorEq, if_false, update_some hsc, store, deref_some e1,
        update_some e2]
    · rw [List.getElem?_set_ne (Ne.symm hxs), e1]
    · show (((mem.set sb _).set sb _).set x none)[sb]? = _
      rw [List.getElem?_set_ne hxs, List.getElem?_set_self (by simpa using hlen)]
    · refine realizes_frame mem _ u0 _ ru0 ?_
      intro a ha
      have h1 : x ≠ a := fun e => hx0 (e ▸ ha)
      have h2 : sb ≠ a := fun e => hs0 (e ▸ ha)
      rw [List.getElem?_set_ne h1, List.getElem?_set_ne h2, List.getElem?_set_ne h2]
    · refine realizes_frame mem _ u1 _ ru1 ?_
      intro a ha
      have h1 : x ≠ a := fun e => hx1 (e ▸ ha)
      have h2 : sb ≠ a := fun e => hs1 (e ▸ ha)
      rw [List.getElem?_set_ne h1, List.getElem?_set_ne h2, List.getElem?_set_ne h2]

theorem ctx_addrs_shrink {α : Type} (fs : List (Frame α)) :
    ctx_addrs (fs.map Frame.shrink) = ctx_addrs fs := by
  induction fs with
  | nil => rfl
  | cons f fs ih =>
    show f.addr :: (f.other.addrs ++ ctx_addrs (fs.map Frame.shrink)) = _
    rw [ih]
    rfl

/-- The fix-up entered on a node below at least one frame, when the node has
a child to splice in or is red: the child takes the place of the node and is
coloured black, the sizes of the frames are decremented, and the loop is not
entered (or left at once, the node being red). -/
theorem erase_fixup_inner {α : Type} (lt : α → α → Bool) (mem : rb_mem α) (root : rb_node_p)
    (f : Frame α) (fs : List (Frame α)) (x : Nat) (xn : rb_node_s α) (s : Tree α)
    (hxc : mem[x]? = some (some xn)) (hxp : xn.p = some f.addr)
    (hs : (if xn.childs0 = none then xn.childs1 else xn.childs0) = s.ptr)
    (hcase : s.ptr ≠ none ∨ xn.is_red = true)
    (hrs : realizes mem s (some x)) (hctx : ctx mem (f :: fs) (some x) none)
    (hnd : (x :: (s.addrs ++ ctx_addrs (f :: fs))).Nodup)
    (hroot : ¬ (some x = root)) (hlen : (f :: fs).length ≤ mem.length) :
    ∃ (mem1 : rb_mem α) (xn1 : rb_node_s α),
      rb_erase_fixup mem ⟨root, lt⟩ (some x) = .ok (mem1, ⟨root, lt⟩, some x) ∧
      mem1[x]? = some (some xn1) ∧
      realizes (mem1.set x none) (plug ((f :: fs).map Frame.shrink) s.blacken) none := by
  obtain ⟨fa, fd, fsz, fr, fdt, fo⟩ := f
  obtain ⟨hpc0, hro, hrest⟩ := hctx
  have hpc : mem[fa]? = some (some ⟨up fs none, if fd = true then fo.ptr else some x,
      if fd = true then some x else fo.ptr, fsz, fr, fdt⟩) := hpc0
  have hxp' : xn.p = some fa := hxp
  simp only [List.nodup_cons, List.mem_append, not_or, List.nodup_append, ctx_addrs,
    List.mem_cons] at hnd
  obtain ⟨⟨hxs, hxa, hxo, hxf⟩, hsn, ⟨⟨hao, haf⟩, hon, hfn, hof⟩, hsd⟩ := hnd
  have hncx : (ctx_addrs (⟨fa, fd, fsz, fr, fdt, fo⟩ :: fs)).Nodup := by
    simp only [ctx_addrs, List.nodup_cons, List.mem_append, not_or, List.nodup_append]
    exact ⟨⟨hao, haf⟩, hon, hfn, hof⟩
  have hsa : fa ∉ s.addrs := fun h => hsd h (List.mem_cons_self _ _)
  have hso : ∀ a ∈ s.addrs, a ∉ fo.addrs := fun a h h' =>
    hsd h (List.mem_cons_of_mem _ (List.mem_append_left _ h'))
  have hsf : ∀ a ∈ s.addrs, a ∉ ctx_addrs fs := fun a h h' =>
    hsd h (List.mem_cons_of_mem _ (List.mem_append_right _ h'))
  have hdir : decide (some x = (if fd = true then some x else fo.ptr)) = fd := by
    cases fd
    · simp only [Bool.false_eq_true, if_false, decide_eq_false_iff_not]
      intro e
      exact hxo (ptr_mem_addrs fo x e.symm)
    · simp
  have hframes : ∀ (b : Nat), b ∉ ctx_addrs (⟨fa, fd, fsz, fr, fdt, fo⟩ :: fs) →
      ∀ g ∈ (⟨fa, fd, fsz, fr, fdt, fo⟩ :: fs : List (Frame α)), g.addr ≠ b := by
    intro b hb g hg e
    exact hb (e ▸ frame_addr_mem _ g hg)
  have hxctx : x ∉ ctx_addrs (⟨fa, fd, fsz, fr, fdt, fo⟩ :: fs) := by
    simp only [ctx_addrs, List.mem_cons, List.mem_append, not_or]
    exact ⟨hxa, hxo, hxf⟩
  have hfuel : (⟨fa, fd, fsz, fr, fdt, fo⟩ :: fs : List (Frame α)).length < mem.length + 1 := by
    omega
  cases s with
  | nil =>
    -- no child: the node is red
    have hred : xn.is_red = true := by
      rcases hcase with h | h
      · exact absurd rfl h
      · exact h
    have hs' : (if xn.childs0 = none then xn.childs1 else xn.childs0) = none := hs
    have hset : (⟨up fs none, if fd = true then fo.ptr else some x,
        if fd = true then some x else fo.ptr, fsz, fr, fdt⟩ : rb_node_s α).setChild fd none
        = ⟨up fs none, if fd = true then fo.ptr else none, if fd = true then none else fo.ptr,
          fsz, fr, fdt⟩ := by
      cases fd <;> rfl
    have hctxb : ctx (mem.set fa (some (⟨up fs none, if fd = true then fo.ptr else none,
          if fd = true then none else fo.ptr, fsz, fr, fdt⟩ : rb_node_s α)))
        (⟨fa, fd, fsz, fr, fdt, fo⟩ :: fs) none none := by
      refine ⟨?_, ?_, ?_⟩
      · show (mem.set fa _)[fa]? = _
        rw [List.getElem?_set_self (lt_length_of_getElem? hpc)]
      · show realizes _ fo (some fa)
        refine realizes_frame mem _ fo _ hro ?_
        intro a ha
        have hne : fa ≠ a := fun e => hao (e ▸ ha)
        rw [List.getElem?_set_ne hne]
      · show ctx _ fs (some fa) none
        refine ctx_frame mem _ fs none _ hrest ?_
        intro a ha
        have hne : fa ≠ a := fun e => haf (e ▸ ha)
        rw [List.getElem?_set_ne hne]
    obtain ⟨mc, hsh0, hctxc, hlc, hsame⟩ := shrink_ctx _ _ none _ hctxb hncx hfuel
    have hsh : rb_erase_shrink (mem.length + 1) (mem.set fa (some (⟨up fs none,
        if fd = true then fo.ptr else none, if fd = true then none else fo.ptr, fsz, fr, fdt⟩ :
          rb_node_s α))) (some fa) = .ok mc := hsh0
    have hpc0' := hctxc.1
    rw [up_shrink] at hpc0'
    have hpc' : mc[fa]? = some (some ⟨up fs none, if fd = true then fo.ptr else none,
        if fd = true then none else fo.ptr, dec_size fsz, fr, fdt⟩) := hpc0'
    have hlc' : mc.length = mem.length := by rw [hlc, List.length_set]
    have hxc' : mc[x]? = some (some xn) := by
      rw [hsame x (hframes x hxctx), List.getElem?_set_ne (Ne.symm hxa), hxc]
    have hsib : (⟨up fs none, if fd = true then fo.ptr else none,
        if fd = true then none else fo.ptr, dec_size fsz, fr, fdt⟩ : rb_node_s α).childs fd
        = none := by
      cases fd <;> rfl
    refine ⟨mc.set x (some { xn with is_red := false }), { xn with is_red := false }, ?_, ?_, ?_⟩
    · simp only [rb_erase_fixup, hroot, if_false, _rb_child_dir, deref_some hxc, hxp',
        deref_some hpc, hdir, bind, Except.bind, pure, Except.pure, if_true, reduceCtorEq,
        update_some hpc, store, hs', hset, budget, List.length_set, hsh, deref_some hxc',
        deref_some hpc', hsib, ne_eq, not_true_eq_false, hlc', rb_erase_fixup_loop, hred,
        update_some hxc']
    · rw [List.getElem?_set_self (lt_length_of_getElem? hxc')]
    · rw [realizes_plug]
      refine ⟨trivial, ?_⟩
      refine ctx_frame mc _ _ none _ hctxc ?_
      intro b hb
      rw [ctx_addrs_shrink] at hb
      have hne : x ≠ b := fun e => hxctx (e ▸ hb)
      rw [List.getElem?_set_ne hne, List.getElem?_set_ne hne]
  | node sb u0 ss rs ds u1 =>
    obtain ⟨hsc, ru0, ru1⟩ := hrs
    have hs' : (if xn.childs0 = none then xn.childs1 else xn.childs0) = some sb := hs
    simp only [Tree.addrs, List.mem_cons, List.mem_append, not_or, List.nodup_cons] at hxs hsn hsa
    obtain ⟨hxsb, hx0, hx1⟩ := hxs
    obtain ⟨⟨hs0, hs1⟩, hu01⟩ := hsn
    obtain ⟨hasb, ha0, ha1⟩ := hsa
    have hsbctx : sb ∉ ctx_addrs (⟨fa, fd, fsz, fr, fdt, fo⟩ :: fs) := by
      simp only [ctx_addrs, List.mem_cons, List.mem_append, not_or]
      exact ⟨fun e => hasb e.symm, hso sb (by simp [Tree.addrs]), hsf sb (by simp [Tree.addrs])⟩
    have hset : (⟨up fs none, if fd = true then fo.ptr else some x,
        if fd = true then some x else fo.ptr, fsz, fr, fdt⟩ : rb_node_s α).setChild fd (some sb)
        = ⟨up fs none, if fd = true then fo.ptr else some sb,
          if fd = true then some sb else fo.ptr, fsz, fr, fdt⟩ := by
      cases fd <;> rfl
    have hpa : (mem.set sb (some ⟨some fa, u0.ptr, u1.ptr, ss, rs, ds⟩))[fa]?
        = some (some ⟨up fs none, if fd = true then fo.ptr else some x,
          if fd = true then some x else fo.ptr, fsz, fr, fdt⟩) := by
      rw [List.getElem?_set_ne (Ne.symm hasb), hpc]
    have hctxb : ctx ((mem.set sb (some ⟨some fa, u0.ptr, u1.ptr, ss, rs, ds⟩)).set fa
        (some (⟨up fs none, if fd = true then fo.ptr else some sb,
          if fd = true then some sb else fo.ptr, fsz, fr, fdt⟩ : rb_node_s α)))
        (⟨fa, fd, fsz, fr, fdt, fo⟩ :: fs) (some sb) none := by
      refine ⟨?_, ?_, ?_⟩
      · show ((mem.set sb _).set fa _)[fa]? = _
        rw [List.getElem?_set_self (lt_length_of_getElem? hpa)]
      · show realizes _ fo (some fa)
        refine realizes_frame mem _ fo _ hro ?_
        intro a ha
        have hne : fa ≠ a := fun e => hao (e ▸ ha)
        have hne2 : sb ≠ a := fun e => hso sb (by simp [Tree.addrs]) (e ▸ ha)
        rw [List.getElem?_set_ne hne, List.getElem?_set_ne hne2]
      · show ctx _ fs (some fa) none
        refine ctx_frame mem _ fs none _ hrest ?_
        intro a ha
        have hne : fa ≠ a := fun e => haf (e ▸ ha)
        have hne2 : sb ≠ a := fun e => hsf sb (by simp [Tree.addrs]) (e ▸ ha)
        rw [List.getElem?_set_ne hne, List.getElem?_set_ne hne2]
    obtain ⟨mc, hsh0, hctxc, hlc, hsame⟩ := shrink_ctx _ _ (some sb) (mem.length + 1) hctxb hncx
      hfuel
    have hsh : rb_erase_shrink (mem.length + 1)
        ((mem.set sb (some ⟨some fa, u0.ptr, u1.ptr, ss, rs, ds⟩)).set fa
          (some (⟨up fs none, if fd = true then fo.ptr else some sb,
            if fd = true then some sb else fo.ptr, fsz, fr, fdt⟩ : rb_node_s α)))
        (some fa) = .ok mc := hsh0
    have hpc0' := hctxc.1
    rw [up_shrink] at hpc0'
    have hpc' : mc[fa]? = some (some ⟨up fs none, if fd = true then fo.ptr else some sb,
        if fd = true then some sb else fo.ptr, dec_size fsz, fr, fdt⟩) := hpc0'
    have hlc' : mc.length = mem.length := by
      rw [hlc, List.length_set, List.length_set]
    have hxc' : mc[x]? = some (some xn) := by
      rw [hsame x (hframes x hxctx), List.getElem?_set_ne (Ne.symm hxa),
        List.getElem?_set_ne (Ne.symm hxsb), hxc]
    have hsc' : mc[sb]? = some (some ⟨some fa, u0.ptr, u1.ptr, ss, rs, ds⟩) := by
      rw [hsame sb (hframes sb hsbctx), List.getElem?_set_ne hasb,
        List.getElem?_set_self (lt_length_of_getElem? hsc)]
    have hsib : (⟨up fs none, if fd = true then fo.ptr else some sb,
        if fd = true then some sb else fo.ptr, dec_size fsz, fr, fdt⟩ : rb_node_s α).childs fd
        = some sb := by
      cases fd <;> rfl
    have hold : ∀ a : Nat, a ≠ x → a ≠ sb → a ∉ ctx_addrs (⟨fa, fd, fsz, fr, fdt, fo⟩ :: fs) →
        ((mc.set sb (some ⟨some fa, u0.ptr, u1.ptr, ss, false, ds⟩)).set x none)[a]?
          = mem[a]? := by
      intro a h1 h2 h3
      have h4 : fa ≠ a := by
        intro e
        apply h3
        rw [← e]
        simp [ctx_addrs]
      rw [List.getElem?_set_ne (Ne.symm h1), List.getElem?_set_ne (Ne.symm h2),
        hsame a (hframes a h3), List.getElem?_set_ne h4, List.getElem?_set_ne (Ne.symm h2)]
    refine ⟨mc.set sb (some ⟨some fa, u0.ptr, u1.ptr, ss, false, ds⟩), xn, ?_, ?_, ?_⟩
    · simp only [rb_erase_fixup, hroot, if_false, _rb_child_dir, deref_some hxc, hxp',
        deref_some hpc, hdir, bind, Except.bind, pure, Except.pure, if_true, reduceCtorEq,
        update_some hsc, update_some hpa, store, hs', hset, budget, List.length_set, hsh,
        deref_some hxc', deref_some hpc', hsib, ne_eq, not_true_eq_false, hlc', not_false_eq_true,
        update_some hsc']
    · rw [List.getElem?_set_ne (Ne.symm hxsb), hxc']
    · rw [realizes_plug]
      refine ⟨⟨?_, ?_, ?_⟩, ?_⟩
      · show ((mc.set sb _).set x none)[sb]? = _
        rw [List.getElem?_set_ne hxsb, List.getElem?_set_self (lt_length_of_getElem? hsc')]
        rfl
      · refine realizes_frame mem _ u0 _ ru0 ?_
        intro a ha
        refine hold a (fun e => hx0 (e ▸ ha)) (fun e => hs0 (e ▸ ha)) ?_
        simp only [ctx_addrs, List.mem_cons, List.mem_append, not_or]
        exact ⟨fun e => ha0 (e ▸ ha), hso a (by simp [Tree.addrs, ha]),
          hsf a (by simp [Tree.addrs, ha])⟩
      · refine realizes_frame mem _ u1 _ ru1 ?_
        intro a ha
        refine hold a (fun e => hx1 (e ▸ ha)) (fun e => hs1 (e ▸ ha)) ?_
        simp only [ctx_addrs, List.mem_cons, List.mem_append, not_or]
        exact ⟨fun e => ha1 (e ▸ ha), hso a (by simp [Tree.addrs, ha]),
          hsf a (by simp [Tree.addrs, ha])⟩
      · refine ctx_frame mc _ _ none _ hctxc ?_
        intro b hb
        rw [ctx_addrs_shrink] at hb
        have hne : x ≠ b := fun e => hxctx (e ▸ hb)
        have hne2 : sb ≠ b := fun e => hsbctx (e ▸ hb)
        rw [List.getElem?_set_ne hne, List.getElem?_set_ne hne2]

theorem plug_ptr_shrink {α : Type} (fs : List (Frame α)) (hne : fs ≠ []) :
    ∀ u v : Tree α, (plug (fs.map Frame.shrink) v).ptr = (plug fs u).ptr := by
  induction fs with
  | nil => exact absurd rfl hne
  | cons f fs ih =>
    intro u v
    by_cases e : fs = []
    · subst e
      show ((Frame.shrink f).wrap v).ptr = (f.wrap u).ptr
      rw [wrap_ptr, wrap_ptr]
      rfl
    · exact ih e (f.wrap u) ((Frame.shrink f).wrap v)

/-- The fix-up entered on a node with at most one child which is the root, or
has a child, or is red: it completes, with the child of the node (coloured
black) in the place of the node and the sizes above decremented. -/
theorem erase_fixup_easy {α : Type} (lt : α → α → Bool) (mem : rb_mem α) (root : rb_node_p)
    (fs : List (Frame α)) (x sz : Nat) (r : Bool) (d : α) (c0 c1 : Tree α)
    (hr : realizes mem (plug fs (.node x c0 sz r d c1)) none)
    (hnd : (plug fs (.node x c0 sz r d c1)).addrs.Nodup)
    (hroot : (plug fs (.node x c0 sz r d c1)).ptr = root)
    (hcase : fs = [] ∨ (if c0.ptr = none then c1 else c0).ptr ≠ none ∨ r = true) :
    ∃ (mem1 : rb_mem α) (xn1 : rb_node_s α),
      rb_erase_fixup mem ⟨root, lt⟩ (some x) = .ok (mem1,
        ⟨(plug (fs.map Frame.shrink) (if c0.ptr = none then c1 else c0).blacken).ptr, lt⟩,
        some x) ∧
      mem1[x]? = some (some xn1) ∧
      realizes (mem1.set x none)
        (plug (fs.map Frame.shrink) (if c0.ptr = none then c1 else c0).blacken) none := by
  have hlen0 : (plug fs (.node x c0 sz r d c1)).addrs.length ≤ mem.length :=
    length_le_of_nodup_lt _ _ hnd (realizes_addrs_lt mem _ none hr)
  have hperm := (plug_addrs_perm fs (.node x c0 sz r d c1)).length_eq
  rw [List.length_append] at hperm
  have hfl := frames_length_le fs
  obtain ⟨hxn, hcn, hdisj⟩ := plug_nodup _ _ hnd
  rw [realizes_plug] at hr
  obtain ⟨⟨hxc, r0, r1⟩, hctx⟩ := hr
  -- the child that is spliced in
  have hsub : ∀ a ∈ (if c0.ptr = none then c1 else c0).addrs, a ∈ c0.addrs ++ c1.addrs := by
    intro a ha
    by_cases e : c0.ptr = none
    · rw [if_pos e] at ha; exact List.mem_append_right _ ha
    · rw [if_neg e] at ha; exact List.mem_append_left _ ha
  have hsnd : (if c0.ptr = none then c1 else c0).addrs.Nodup := by
    simp only [Tree.addrs, List.nodup_cons, List.nodup_append] at hxn
    by_cases e : c0.ptr = none
    · rw [if_pos e]; exact hxn.2.2.1
    · rw [if_neg e]; exact hxn.2.1
  have hrs : realizes mem (if c0.ptr = none then c1 else c0) (some x) := by
    by_cases e : c0.ptr = none
    · rw [if_pos e]; exact r1
    · rw [if_neg e]; exact r0
  have hs : (if (⟨up fs none, c0.ptr, c1.ptr, sz, r, d⟩ : rb_node_s α).childs0 = none then
      (⟨up fs none, c0.ptr, c1.ptr, sz, r, d⟩ : rb_node_s α).childs1
      else (⟨up fs none, c0.ptr, c1.ptr, sz, r, d⟩ : rb_node_s α).childs0)
      = (if c0.ptr = none then c1 else c0).ptr := by
    show (if c0.ptr = none then c1.ptr else c0.ptr) = _
    by_cases e : c0.ptr = none
    · rw [if_pos e, if_pos e]
    · rw [if_neg e, if_neg e]
  have hxs : x ∉ (if c0.ptr = none then c1 else c0).addrs := by
    intro h
    simp only [Tree.addrs, List.nodup_cons] at hxn
    exact hxn.1 (hsub x h)
  have hnd2 : (x :: ((if c0.ptr = none then c1 else c0).addrs ++ ctx_addrs fs)).Nodup := by
    rw [List.nodup_cons, List.nodup_append]
    refine ⟨?_, hsnd, hcn, ?_⟩
    · rw [List.mem_append, not_or]
      exact ⟨hxs, hdisj x (by simp [Tree.addrs])⟩
    · intro a ha hb
      exact hdisj a (by simp only [Tree.addrs, List.mem_cons]; exact Or.inr (hsub a ha)) hb
  cases fs with
  | nil =>
    have hroot' : root = some x := hroot.symm
    subst hroot'
    obtain ⟨mem1, xn1, h1, h2, h3⟩ := erase_fixup_root lt mem x _ _ hxc rfl hs hrs
      (List.nodup_cons.2 ⟨hxs, hsnd⟩)
    refine ⟨mem1, xn1, ?_, h2, h3⟩
    rw [h1]
    show _ = Except.ok (mem1, (⟨((if c0.ptr = none then c1 else c0).blacken).ptr, lt⟩ :
      rb_tree_s α), some x)
    rw [blacken_ptr]
  | cons f fs =>
    have hrx : ¬ (some x = root) := by
      obtain ⟨a, h1, h2⟩ := plug_ptr_mem (f :: fs) (by simp) (.node x c0 sz r d c1)
      rw [← hroot, h1]
      intro e
      simp only [Option.some.injEq] at e
      subst e
      exact hdisj x (by simp [Tree.addrs]) h2
    have hcase' : (if c0.ptr = none then c1 else c0).ptr ≠ none ∨
        (⟨up (f :: fs) none, c0.ptr, c1.ptr, sz, r, d⟩ : rb_node_s α).is_red = true := by
      rcases hcase with h | h | h
      · cases h
      · exact Or.inl h
      · exact Or.inr h
    obtain ⟨mem1, xn1, h1, h2, h3⟩ := erase_fixup_inner lt mem root f fs x _ _ hxc rfl hs hcase'
      hrs hctx hnd2 hrx (by omega)
    refine ⟨mem1, xn1, ?_, h2, h3⟩
    rw [h1, plug_ptr_shrink (f :: fs) (by simp) (.node x c0 sz r d c1), hroot]

/-! ## The picture after the unlinking -/

theorem remove_not_mem {α : Type} (x : Nat) (t : Tree α) (h : x ∉ t.addrs) : t.remove x = t := by
  cases t with
  | nil => rfl
  | node b t0 s r d t1 =>
    simp only [Tree.addrs, List.mem_cons, List.mem_append, not_or] at h
    simp only [Tree.remove]
    rw [if_neg (fun e => h.1 e.symm), if_neg h.2.1, if_neg h.2.2]

theorem remove_wrap {α : Type} (f : Frame α) (u : Tree α) (x : Nat)
    (h : (f.wrap u).addrs.Nodup) (hx : x ∈ u.addrs) :
    (f.wrap u).remove x = (Frame.shrink f).wrap (u.remove x) := by
  obtain ⟨_, h2, h3⟩ := wrap_nodup f u h
  have hne : f.addr ≠ x := fun e => h2 (e ▸ hx)
  obtain ⟨fa, fd, fsz, fr, fdt, fo⟩ := f
  cases fd
  · show (Tree.node fa u fsz fr fdt fo).remove x = Tree.node fa (u.remove x) (dec_size fsz) fr fdt fo
    simp only [Tree.remove]
    rw [if_neg hne, if_pos hx]
  · show (Tree.node fa fo fsz fr fdt u).remove x = Tree.node fa fo (dec_size fsz) fr fdt (u.remove x)
    simp only [Tree.remove]
    rw [if_neg hne, if_neg (h3 x hx), if_pos hx]

/-- Removing a node from a picture is removing it at its place and
decrementing the sizes of the frames. -/
theorem remove_plug {α : Type} (fs : List (Frame α)) (x : Nat) :
    ∀ u : Tree α, (plug fs u).addrs.Nodup → x ∈ u.addrs →
      (plug fs u).remove x = plug (fs.map Frame.shrink) (u.remove x) := by
  induction fs with
  | nil => intro u _ _; rfl
  | cons f fs ih =>
    intro u h hx
    show (plug fs (f.wrap u)).remove x = plug (fs.map Frame.shrink) ((Frame.shrink f).wrap (u.remove x))
    rw [ih _ h (mem_wrap f u x hx), remove_wrap f u x (plug_wrap_nodup f fs u h) hx]

theorem remove_node_self {α : Type} (x : Nat) (c0 : Tree α) (sz : Nat) (r : Bool) (d : α)
    (c1 : Tree α) :
    (Tree.node x c0 sz r d c1).remove x = (if c0.ptr = none then c1 else c0).blacken := by
  simp only [Tree.remove, if_true]

/-- The picture after the unlinking has no address twice. -/
theorem remove_nodup {α : Type} (fs : List (Frame α)) (x sz : Nat) (r : Bool) (d : α)
    (c0 c1 : Tree α) (hnd : (plug fs (.node x c0 sz r d c1)).addrs.Nodup) :
    (plug (fs.map Frame.shrink) (if c0.ptr = none then c1 else c0).blacken).addrs.Nodup := by
  obtain ⟨hxn, hcn, hdisj⟩ := plug_nodup _ _ hnd
  rw [(plug_addrs_perm _ _).nodup_iff, ctx_addrs_shrink, blacken_addrs, List.nodup_append]
  simp only [Tree.addrs, List.nodup_cons, List.nodup_append] at hxn
  refine ⟨?_, hcn, ?_⟩
  · by_cases e : c0.ptr = none
    · rw [if_pos e]; exact hxn.2.2.1
    · rw [if_neg e]; exact hxn.2.1
  · intro a ha hb
    refine hdisj a ?_ hb
    simp only [Tree.addrs, List.mem_cons, List.mem_append]
    by_cases e : c0.ptr = none
    · rw [if_pos e] at ha; exact Or.inr (Or.inr ha)
    · rw [if_neg e] at ha; exact Or.inr (Or.inl ha)

/-! ## The colouring invariants after the unlinking -/

theorem bh_wrap_shrink {α : Type} (f : Frame α) (u v : Tree α)
    (h : u.black_height = v.black_height) :
    ((Frame.shrink f).wrap v).black_height = (f.wrap u).black_height := by
  obtain ⟨fa, fd, fsz, fr, fdt, fo⟩ := f
  cases fd
  · show (Tree.node fa v (dec_size fsz) fr fdt fo).black_height
      = (Tree.node fa u fsz fr fdt fo).black_height
    simp only [Tree.black_height, h]
  · show (Tree.node fa fo (dec_size fsz) fr fdt v).black_height
      = (Tree.node fa fo fsz fr fdt u).black_height
    simp only [Tree.black_height, h]

theorem bh_plug_shrink {α : Type} (fs : List (Frame α)) :
    ∀ u v : Tree α, u.black_height = v.black_height →
      (plug (fs.map Frame.shrink) v).black_height = (plug fs u).black_height := by
  induction fs with
  | nil => intro u v h; exact h.symm
  | cons f fs ih =>
    intro u v h
    exact ih (f.wrap u) ((Frame.shrink f).wrap v) (bh_wrap_shrink f u v h).symm

theorem nrr_of_wrap {α : Type} (f : Frame α) (w : Tree α) (h : (f.wrap w).no_red_red = true) :
    w.no_red_red = true := by
  obtain ⟨fa, fd, fsz, fr, fdt, fo⟩ := f
  cases fd
  · exact (no_red_red_node fa w fsz fr fdt fo h).1
  · exact (no_red_red_node fa fo fsz fr fdt w h).2.1

theorem nrr_of_plug {α : Type} (fs : List (Frame α)) :
    ∀ w : Tree α, (plug fs w).no_red_red = true → w.no_red_red = true := by
  induction fs with
  | nil => intro w h; exact h
  | cons f fs ih => intro w h; exact nrr_of_wrap f w (ih _ h)

theorem nrr_wrap_shrink {α : Type} (f : Frame α) (u v : Tree α)
    (h : (f.wrap u).no_red_red = true) (hv : v.no_red_red = true)
    (hred : v.red = true → u.red = true) :
    ((Frame.shrink f).wrap v).no_red_red = true := by
  obtain ⟨fa, fd, fsz, fr, fdt, fo⟩ := f
  have hvr : u.red = false → v.red = false := by
    intro hu
    cases hv' : v.red
    · rfl
    · rw [hred hv'] at hu; cases hu
  cases fd
  · obtain ⟨_, h2, h3⟩ := no_red_red_node fa u fsz fr fdt fo h
    show (Tree.node fa v (dec_size fsz) fr fdt fo).no_red_red = true
    simp only [Tree.no_red_red, hv, h2, Bool.and_true, Bool.not_eq_true', Bool.and_eq_false_iff,
      Bool.or_eq_false_iff]
    cases fr
    · exact Or.inl rfl
    · exact Or.inr ⟨hvr (h3 rfl).1, (h3 rfl).2⟩
  · obtain ⟨h1, _, h3⟩ := no_red_red_node fa fo fsz fr fdt u h
    show (Tree.node fa fo (dec_size fsz) fr fdt v).no_red_red = true
    simp only [Tree.no_red_red, hv, h1, Bool.and_true, Bool.not_eq_true', Bool.and_eq_false_iff,
      Bool.or_eq_false_iff]
    cases fr
    · exact Or.inl rfl
    · exact Or.inr ⟨(h3 rfl).1, hvr (h3 rfl).2⟩

theorem wrap_red {α : Type} (f : Frame α) (u : Tree α) : (f.wrap u).red = f.is_red := by
  obtain ⟨fa, fd, fsz, fr, fdt, fo⟩ := f
  cases fd <;> rfl

theorem nrr_plug_shrink {α : Type} (fs : List (Frame α)) :
    ∀ u v : Tree α, (plug fs u).no_red_red = true → v.no_red_red = true →
      (v.red = true → u.red = true) →
      (plug (fs.map Frame.shrink) v).no_red_red = true := by
  induction fs with
  | nil => intro u v _ hv _; exact hv
  | cons f fs ih =>
    intro u v h hv hred
    refine ih (f.wrap u) ((Frame.shrink f).wrap v) h
      (nrr_wrap_shrink f u v (nrr_of_plug fs _ h) hv hred) ?_
    intro hr
    rw [wrap_red] at hr ⊢
    exact hr

theorem red_plug_shrink {α : Type} (fs : List (Frame α)) (hne : fs ≠ []) :
    ∀ u v : Tree α, (plug (fs.map Frame.shrink) v).red = (plug fs u).red := by
  induction fs with
  | nil => exact absurd rfl hne
  | cons f fs ih =>
    intro u v
    by_cases e : fs = []
    · subst e
      show ((Frame.shrink f).wrap v).red = (f.wrap u).red
      rw [wrap_red, wrap_red]
      rfl
    · exact ih e (f.wrap u) ((Frame.shrink f).wrap v)

theorem blacken_red {α : Type} (s : Tree α) : s.blacken.red = false := by
  cases s <;> rfl

theorem blacken_no_red_red {α : Type} (s : Tree α) (h : s.no_red_red = true) :
    s.blacken.no_red_red = true := by
  cases s with
  | nil => rfl
  | node b t0 sz r d t1 =>
    obtain ⟨h0, h1, _⟩ := no_red_red_node b t0 sz r d t1 h
    simp [Tree.blacken, Tree.no_red_red, h0, h1]

theorem blacken_black_height {α : Type} (s : Tree α) (h : s.balanced = true)
    (hr : s.red = true) : s.blacken.black_height = s.black_height.map (fun k => k + 1) := by
  cases s with
  | nil => cases hr
  | node b t0 sz r d t1 =>
    simp only [Tree.red] at hr
    subst hr
    obtain ⟨_, _, e, _⟩ := balanced_node _ _ _ _ _ _ h
    simp only [Tree.blacken, Tree.black_height, e]
    cases t1.black_height <;> simp

theorem blacken_balanced {α : Type} (s : Tree α) (h : s.balanced = true) :
    s.blacken.balanced = true := by
  cases s with
  | nil => rfl
  | node b t0 sz r d t1 =>
    obtain ⟨_, _, e, _⟩ := balanced_node _ _ _ _ _ _ h
    simp only [Tree.balanced, Tree.blacken, Tree.black_height, e] at h ⊢
    cases h1 : t1.black_height with
    | none => rw [h1] at h; simp at h
    | some k => simp

theorem nil_of_ptr_none {α : Type} {t : Tree α} (h : t.ptr = none) : t = .nil :=
  (ptr_eq_none t).1 h

/-- Invariants 1 to 3 hold again after the unlinking of a node with at most
one child that is the root, or has exactly one child, or is red. -/
theorem remove_red_black {α : Type} (fs : List (Frame α)) (x sz : Nat) (r : Bool) (d : α)
    (c0 c1 : Tree α) (hone : c0.ptr = none ∨ c1.ptr = none)
    (hrb : (plug fs (.node x c0 sz r d c1)).red_black = true)
    (hcase : fs = [] ∨ (c0.ptr = none ↔ ¬ c1.ptr = none) ∨ r = true) :
    (plug (fs.map Frame.shrink) (if c0.ptr = none then c1 else c0).blacken).red_black = true := by
  simp only [Tree.red_black, Tree.root_black, Bool.and_eq_true, Bool.not_eq_true'] at hrb ⊢
  obtain ⟨⟨hblack, hnrr⟩, hbal⟩ := hrb
  have hnx := nrr_of_plug fs _ hnrr
  have hbx := balanced_plug fs _ hbal
  obtain ⟨n0, n1, nred⟩ := no_red_red_node _ _ _ _ _ _ hnx
  obtain ⟨b0, b1, beq, bx⟩ := balanced_node _ _ _ _ _ _ hbx
  have hsn : (if c0.ptr = none then c1 else c0).no_red_red = true := by
    by_cases e : c0.ptr = none
    · rw [if_pos e]; exact n1
    · rw [if_neg e]; exact n0
  have hsb : (if c0.ptr = none then c1 else c0).balanced = true := by
    by_cases e : c0.ptr = none
    · rw [if_pos e]; exact b1
    · rw [if_neg e]; exact b0
  -- the two children have black height 0
  have hz : c0.black_height = some 0 ∧ c1.black_height = some 0 := by
    rcases hone with h | h
    · have := nil_of_ptr_none h
      subst this
      exact ⟨rfl, by rw [← beq]; rfl⟩
    · have := nil_of_ptr_none h
      subst this
      exact ⟨by rw [beq]; rfl, rfl⟩
  cases fs with
  | nil =>
    exact ⟨⟨blacken_red _, blacken_no_red_red _ hsn⟩, blacken_balanced _ hsb⟩
  | cons f fs =>
    have hbh : (Tree.node x c0 sz r d c1).black_height
        = ((if c0.ptr = none then c1 else c0).blacken).black_height := by
      rw [bx, hz.1]
      cases hr : r
      · -- black: exactly one child, which is red
        have hex : (c0.ptr = none ↔ ¬ c1.ptr = none) := by
          rcases hcase with h | h | h
          · cases h
          · exact h
          · rw [hr] at h; cases h
        have hsr : (if c0.ptr = none then c1 else c0).red = true := by
          by_cases e : c0.ptr = none
          · rw [if_pos e]
            cases hc : c1.red
            · exact absurd ((ptr_eq_none c1).2 (black_height_zero c1 hz.2 hc)) (hex.1 e)
            · rfl
          · rw [if_neg e]
            cases hc : c0.red
            · exact absurd ((ptr_eq_none c0).2 (black_height_zero c0 hz.1 hc)) e
            · rfl
        have hsz : (if c0.ptr = none then c1 else c0).black_height = some 0 := by
          by_cases e : c0.ptr = none
          · rw [if_pos e]; exact hz.2
          · rw [if_neg e]; exact hz.1
        rw [blacken_black_height _ hsb hsr, hsz]
        rfl
      · -- red: no child at all
        obtain ⟨r0, r1⟩ := nred hr
        have e0 := black_height_zero c0 hz.1 r0
        have e1 := black_height_zero c1 hz.2 r1
        subst e0 e1
        rfl
    refine ⟨⟨?_, ?_⟩, ?_⟩
    · rw [red_plug_shrink (f :: fs) (by simp) (.node x c0 sz r d c1)]
      exact hblack
    · refine nrr_plug_shrink (f :: fs) _ _ hnrr (blacken_no_red_red _ hsn) ?_
      intro h
      rw [blacken_red] at h
      cases h
    · simp only [Tree.balanced] at hbal ⊢
      rw [bh_plug_shrink (f :: fs) _ _ hbh]
      exact hbal

/-! ## The size invariant after the unlinking -/

theorem dec_size_pos (s : Nat) (h0 : 0 < s) (h1 : s < SIZE_MOD) : dec_size s + 1 = s := by
  cases s with
  | zero => cases h0
  | succ k =>
    show k % SIZE_MOD + 1 = k + 1
    rw [Nat.mod_eq_of_lt (by omega)]

theorem sizes_ok_node {α : Type} (a : Nat) (t0 : Tree α) (s : Nat) (r : Bool) (d : α)
    (t1 : Tree α) :
    (Tree.node a t0 s r d t1).sizes_ok = true ↔
      s = 1 + t0.sz + t1.sz ∧ t0.sizes_ok = true ∧ t1.sizes_ok = true := by
  simp only [Tree.sizes_ok, Bool.and_eq_true, decide_eq_true_eq, and_assoc]

theorem sizes_wrap {α : Type} (f : Frame α) (u : Tree α) (h : (f.wrap u).sizes_ok = true) :
    f.size = 1 + u.sz + f.other.sz ∧ u.sizes_ok = true ∧ f.other.sizes_ok = true ∧
      (f.wrap u).sz = f.size := by
  obtain ⟨fa, fd, fsz, fr, fdt, fo⟩ := f
  cases fd
  · obtain ⟨h1, h2, h3⟩ := (sizes_ok_node fa u fsz fr fdt fo).1 h
    exact ⟨h1, h2, h3, rfl⟩
  · obtain ⟨h1, h2, h3⟩ := (sizes_ok_node fa fo fsz fr fdt u).1 h
    exact ⟨by show fsz = 1 + u.sz + fo.sz; omega, h3, h2, rfl⟩

theorem sizes_ok_of_plug {α : Type} (fs : List (Frame α)) :
    ∀ w : Tree α, (plug fs w).sizes_ok = true → w.sizes_ok = true ∧ w.sz ≤ (plug fs w).sz := by
  induction fs with
  | nil => intro w h; exact ⟨h, Nat.le_refl _⟩
  | cons f fs ih =>
    intro w h
    obtain ⟨h1, h2⟩ := ih (f.wrap w) h
    obtain ⟨e, hw, _, e2⟩ := sizes_wrap f w h1
    refine ⟨hw, ?_⟩
    show w.sz ≤ (plug fs (f.wrap w)).sz
    omega

theorem sizes_wrap_shrink {α : Type} (f : Frame α) (u v : Tree α)
    (h : (f.wrap u).sizes_ok = true) (hfit : f.size < SIZE_MOD) (hv : v.sizes_ok = true)
    (hsz : v.sz + 1 = u.sz) :
    ((Frame.shrink f).wrap v).sizes_ok = true ∧
      ((Frame.shrink f).wrap v).sz + 1 = (f.wrap u).sz := by
  obtain ⟨e, _, ho, _⟩ := sizes_wrap f u h
  obtain ⟨fa, fd, fsz, fr, fdt, fo⟩ := f
  have hd : dec_size fsz + 1 = fsz := dec_size_pos fsz (by simp only at e; omega) hfit
  simp only at e ho
  cases fd
  · refine ⟨?_, hd⟩
    show (Tree.node fa v (dec_size fsz) fr fdt fo).sizes_ok = true
    rw [sizes_ok_node]
    exact ⟨by omega, hv, ho⟩
  · refine ⟨?_, hd⟩
    show (Tree.node fa fo (dec_size fsz) fr fdt v).sizes_ok = true
    rw [sizes_ok_node]
    exact ⟨by omega, ho, hv⟩

theorem sizes_plug_shrink {α : Type} (fs : List (Frame α)) :
    ∀ u v : Tree α, (plug fs u).sizes_ok = true → (plug fs u).sz < SIZE_MOD →
      v.sizes_ok = true → v.sz + 1 = u.sz →
      (plug (fs.map Frame.shrink) v).sizes_ok = true ∧
        (plug (fs.map Frame.shrink) v).sz + 1 = (plug fs u).sz := by
  induction fs with
  | nil => intro u v _ _ hv hsz; exact ⟨hv, hsz⟩
  | cons f fs ih =>
    intro u v h hfit hv hsz
    obtain ⟨h1, h2⟩ := sizes_ok_of_plug fs (f.wrap u) h
    obtain ⟨_, _, _, e2⟩ := sizes_wrap f u h1
    have hf : f.size < SIZE_MOD := by
      have : (plug fs (f.wrap u)).sz < SIZE_MOD := hfit
      omega
    obtain ⟨k1, k2⟩ := sizes_wrap_shrink f u v h1 hf hv hsz
    exact ih (f.wrap u) ((Frame.shrink f).wrap v) h hfit k1 k2

theorem blacken_sz {α : Type} (s : Tree α) : s.blacken.sz = s.sz := by
  cases s <;> rfl

theorem blacken_sizes_ok {α : Type} (s : Tree α) : s.blacken.sizes_ok = s.sizes_ok := by
  cases s <;> rfl

/-- The size invariant holds again after the unlinking, and the size of the
whole tree has gone down by exactly one. -/
theorem remove_sizes_ok {α : Type} (fs : List (Frame α)) (x sz : Nat) (r : Bool) (d : α)
    (c0 c1 : Tree α) (hone : c0.ptr = none ∨ c1.ptr = none)
    (hok : (plug fs (.node x c0 sz r d c1)).sizes_ok = true)
    (hfit : (plug fs (.node x c0 sz r d c1)).sz < SIZE_MOD) :
    (plug (fs.map Frame.shrink) (if c0.ptr = none then c1 else c0).blacken).sizes_ok = true ∧
      (plug (fs.map Frame.shrink) (if c0.ptr = none then c1 else c0).blacken).sz + 1
        = (plug fs (.node x c0 sz r d c1)).sz := by
  obtain ⟨hx, _⟩ := sizes_ok_of_plug fs _ hok
  obtain ⟨e, s0, s1⟩ := (sizes_ok_node _ _ _ _ _ _).1 hx
  refine sizes_plug_shrink fs _ _ hok hfit ?_ ?_
  · rw [blacken_sizes_ok]
    by_cases h : c0.ptr = none
    · rw [if_pos h]; exact s1
    · rw [if_neg h]; exact s0
  · rw [blacken_sz]
    show _ = sz
    by_cases h : c0.ptr = none
    · rw [if_pos h]
      have := nil_of_ptr_none h
      subst this
      have hz : (Tree.nil : Tree α).sz = 0 := rfl
      rw [hz] at e
      omega
    · rw [if_neg h]
      rcases hone with h' | h'
      · exact absurd h' h
      · have := nil_of_ptr_none h'
        subst this
        have hz : (Tree.nil : Tree α).sz = 0 := rfl
        rw [hz] at e
        omega

/-! ## The payloads after the erasure -/

theorem entries_false {α : Type} (t : Tree α) : (t.entries false).map Prod.snd = t.toList0 := by
  induction t with
  | nil => rfl
  | node b t0 s r d t1 ih0 ih1 =>
    simp only [Tree.entries, Bool.false_eq_true, if_false, List.map_append, List.map_cons, ih0,
      ih1, Tree.toList0]

theorem entries_true {α : Type} (t : Tree α) : (t.entries true).map Prod.snd = t.toList1 := by
  induction t with
  | nil => rfl
  | node b t0 s r d t1 ih0 ih1 =>
    simp only [Tree.entries, if_true, List.map_append, List.map_cons, ih0, ih1, Tree.toList1]

theorem entries_fst {α : Type} (rev : Bool) (t : Tree α) :
    ((t.entries rev).map Prod.fst).Perm t.addrs := by
  induction t with
  | nil => exact List.Perm.refl _
  | node b t0 s r d t1 ih0 ih1 =>
    cases rev
    · simp only [Tree.entries, Bool.false_eq_true, if_false, List.map_append, List.map_cons,
        Tree.addrs]
      exact List.perm_middle.trans (List.Perm.cons _ (ih0.append ih1))
    · simp only [Tree.entries, if_true, List.map_append, List.map_cons, Tree.addrs]
      exact List.perm_middle.trans (List.Perm.cons _ ((ih1.append ih0).trans List.perm_append_comm))

theorem entries_blacken {α : Type} (rev : Bool) (s : Tree α) :
    s.blacken.entries rev = s.entries rev := by
  cases s <;> rfl

theorem entries_setData {α : Type} (a : Nat) (d : α) (rev : Bool) (t : Tree α) :
    (t.setData a d).entries rev
      = (t.entries rev).map (fun p => if p.1 = a then (p.1, d) else p) := by
  induction t with
  | nil => rfl
  | node b t0 s r e t1 ih0 ih1 =>
    cases rev
    · simp only [Tree.setData, Tree.entries, Bool.false_eq_true, if_false, List.map_append,
        List.map_cons, ih0, ih1]
      by_cases h : b = a
      · simp [h]
      · simp [h]
    · simp only [Tree.setData, Tree.entries, if_true, List.map_append, List.map_cons, ih0, ih1]
      by_cases h : b = a
      · simp [h]
      · simp [h]

theorem entries_wrap {α : Type} (f : Frame α) (rev : Bool) :
    ∃ pre post : List (Nat × α), ∀ w : Tree α,
      (f.wrap w).entries rev = pre ++ w.entries rev ++ post ∧
      ((Frame.shrink f).wrap w).entries rev = pre ++ w.entries rev ++ post := by
  obtain ⟨fa, fd, fsz, fr, fdt, fo⟩ := f
  cases fd <;> cases rev
  · exact ⟨[], (fa, fdt) :: fo.entries false, fun w => ⟨rfl, rfl⟩⟩
  · refine ⟨fo.entries true ++ [(fa, fdt)], [], fun w => ⟨?_, ?_⟩⟩
    · show fo.entries true ++ (fa, fdt) :: w.entries true = _
      simp
    · show fo.entries true ++ (fa, fdt) :: w.entries true = _
      simp
  · refine ⟨fo.entries false ++ [(fa, fdt)], [], fun w => ⟨?_, ?_⟩⟩
    · show fo.entries false ++ (fa, fdt) :: w.entries false = _
      simp
    · show fo.entries false ++ (fa, fdt) :: w.entries false = _
      simp
  · exact ⟨[], (fa, fdt) :: fo.entries true, fun w => ⟨rfl, rfl⟩⟩

/-- The payloads of a picture with a hole are those before the hole, those
in the hole, and those after it; decrementing sizes changes none. -/
theorem entries_plug {α : Type} (fs : List (Frame α)) (rev : Bool) :
    ∃ pre post : List (Nat × α), ∀ w : Tree α,
      (plug fs w).entries rev = pre ++ w.entries rev ++ post ∧
      (plug (fs.map Frame.shrink) w).entries rev = pre ++ w.entries rev ++ post := by
  induction fs with
  | nil => exact ⟨[], [], fun w => ⟨by simp [plug], by simp [plug]⟩⟩
  | cons f fs ih =>
    obtain ⟨pre, post, h⟩ := ih
    obtain ⟨p, q, hw⟩ := entries_wrap f rev
    refine ⟨pre ++ p, q ++ post, fun w => ⟨?_, ?_⟩⟩
    · show (plug fs (f.wrap w)).entries rev = _
      rw [(h _).1, (hw w).1]
      simp
    · show (plug (fs.map Frame.shrink) ((Frame.shrink f).wrap w)).entries rev = _
      rw [(h _).2, (hw w).2]
      simp

/-- The payloads after the unlinking of a node with at most one child are
those before, without the payload of that node. -/
theorem entries_remove {α : Type} (fs : List (Frame α)) (x sz : Nat) (r : Bool) (d : α)
    (c0 c1 : Tree α) (rev : Bool) (hone : c0.ptr = none ∨ c1.ptr = none) :
    ∃ l1 l2 : List (Nat × α),
      (plug fs (.node x c0 sz r d c1)).entries rev = l1 ++ (x, d) :: l2 ∧
      (plug (fs.map Frame.shrink) (if c0.ptr = none then c1 else c0).blacken).entries rev
        = l1 ++ l2 := by
  obtain ⟨pre, post, h⟩ := entries_plug fs rev
  rw [(h _).1, (h _).2, entries_blacken]
  by_cases e : c0.ptr = none
  · have := nil_of_ptr_none e
    subst this
    rw [if_pos e]
    cases rev
    · exact ⟨pre, c1.entries false ++ post, by simp [Tree.entries], by simp⟩
    · exact ⟨pre ++ c1.entries true, post, by simp [Tree.entries], by simp⟩
  · rw [if_neg e]
    rcases hone with h' | h'
    · exact absurd h' e
    · have := nil_of_ptr_none h'
      subst this
      cases rev
      · exact ⟨pre ++ c0.entries false, post, by simp [Tree.entries], by simp⟩
      · exact ⟨pre, c0.entries true ++ post, by simp [Tree.entries], by simp⟩

theorem first_entries {α : Type} (c : Tree α) (x sz : Nat) (r : Bool) (dx : α)
    (c0 c1 : Tree α) (h : c.first = .node x c0 sz r dx c1) :
    (∃ rest, c.entries false = (x, dx) :: rest) ∧ (∃ rest, c.entries true = rest ++ [(x, dx)]) := by
  induction c with
  | nil => cases h
  | node b t0 s rb d t1 ih0 _ =>
    simp only [Tree.first] at h
    by_cases e : t0.ptr = none
    · rw [if_pos e] at h
      have := nil_of_ptr_none e
      subst this
      simp only [Tree.node.injEq] at h
      obtain ⟨rfl, _, _, _, rfl, _⟩ := h
      exact ⟨⟨t1.entries false, by simp [Tree.entries]⟩, ⟨t1.entries true, by simp [Tree.entries]⟩⟩
    · rw [if_neg e] at h
      obtain ⟨⟨r0, h0⟩, ⟨r1, h1⟩⟩ := ih0 h
      refine ⟨⟨r0 ++ (b, d) :: t1.entries false, ?_⟩, ⟨t1.entries true ++ (b, d) :: r1, ?_⟩⟩
      · simp [Tree.entries, h0]
      · simp [Tree.entries, h1]

theorem filter_split {α : Type} (l1 l2 : List (Nat × α)) (x : Nat) (e : α)
    (hnd : ((l1 ++ (x, e) :: l2).map Prod.fst).Nodup) :
    (l1 ++ (x, e) :: l2).filter (fun p => decide (p.1 ≠ x)) = l1 ++ l2 := by
  simp only [List.map_append, List.map_cons, List.nodup_append, List.nodup_cons] at hnd
  obtain ⟨_, ⟨hx2, _⟩, hdis⟩ := hnd
  have h1 : l1.filter (fun p => decide (p.1 ≠ x)) = l1 := by
    rw [List.filter_eq_self]
    intro p hp
    simp only [ne_eq, decide_not, Bool.not_eq_true', decide_eq_false_iff_not]
    intro hpx
    exact hdis (List.mem_map_of_mem Prod.fst hp) (by rw [hpx]; exact List.mem_cons_self _ _)
  have h2 : l2.filter (fun p => decide (p.1 ≠ x)) = l2 := by
    rw [List.filter_eq_self]
    intro p hp
    simp only [ne_eq, decide_not, Bool.not_eq_true', decide_eq_false_iff_not]
    intro hpx
    exact hx2 (by rw [← hpx]; exact List.mem_map_of_mem Prod.fst hp)
  rw [List.filter_append, List.filter_cons, h1, h2]
  simp

theorem map_upd_not_mem {α : Type} (l : List (Nat × α)) (a : Nat) (d : α)
    (h : a ∉ l.map Prod.fst) :
    l.map (fun p => if p.1 = a then (p.1, d) else p) = l := by
  induction l with
  | nil => rfl
  | cons p l ih =>
    simp only [List.map_cons, List.mem_cons, not_or] at h
    rw [List.map_cons, ih h.2, if_neg (fun e => h.1 e.symm)]

theorem nondecreasing_remove {α : Type} (lt : α → α → Bool) (l1 l2 : List α) (e : α)
    (h : nondecreasing lt (l1 ++ e :: l2)) : nondecreasing lt (l1 ++ l2) := by
  unfold nondecreasing at h ⊢
  exact h.sublist ((List.sublist_cons_self e l2).append_left l1)

/-- The fix-up on a well-formed picture, entered on a node with at most one
child that is red, or has exactly one child, or is the root: it completes and
leaves, once the node is freed, the picture `Tree.remove`, for which the
invariants hold again. -/
theorem erase_core {α : Type} (lt : α → α → Bool) (mem : rb_mem α) (root : rb_node_p)
    (t : Tree α) (x sz : Nat) (r : Bool) (d : α) (c0 c1 : Tree α)
    (hr : realizes mem t none) (hnd : t.addrs.Nodup) (hp : t.ptr = root) (hxm : x ∈ t.addrs)
    (hs : t.sub x = .node x c0 sz r d c1) (hone : c0.ptr = none ∨ c1.ptr = none)
    (hcase : r = true ∨ (c0.ptr = none ↔ ¬ c1.ptr = none) ∨ some x = t.ptr) :
    (∃ (mem1 : rb_mem α) (xn1 : rb_node_s α),
      rb_erase_fixup mem ⟨root, lt⟩ (some x) = .ok (mem1, ⟨(t.remove x).ptr, lt⟩, some x) ∧
      mem1[x]? = some (some xn1) ∧
      well_formed (mem1.set x none) (t.remove x).ptr (t.remove x)) ∧
    (t.red_black = true → (t.remove x).red_black = true) ∧
    (t.sizes_ok = true → t.sz < SIZE_MOD →
      (t.remove x).sizes_ok = true ∧ (t.remove x).sz + 1 = t.sz) ∧
    ∀ rev : Bool, ∃ l1 l2 : List (Nat × α),
      t.entries rev = l1 ++ (x, d) :: l2 ∧ (t.remove x).entries rev = l1 ++ l2 := by
  obtain ⟨fs, hfs⟩ := sub_plug_exists x t hxm
  rw [hs] at hfs
  subst hfs
  have hrem : (plug fs (.node x c0 sz r d c1)).remove x
      = plug (fs.map Frame.shrink) (if c0.ptr = none then c1 else c0).blacken := by
    rw [remove_plug fs x _ hnd (by simp [Tree.addrs]), remove_node_self]
  obtain ⟨_, _, hdisj⟩ := plug_nodup _ _ hnd
  have hroot : some x = (plug fs (.node x c0 sz r d c1)).ptr → fs = [] := by
    intro e
    by_cases hf : fs = []
    · exact hf
    · obtain ⟨a, h1, h2⟩ := plug_ptr_mem fs hf (.node x c0 sz r d c1)
      rw [h1] at e
      simp only [Option.some.injEq] at e
      subst e
      exact absurd h2 (hdisj x (by simp [Tree.addrs]))
  have hsp : (c0.ptr = none ↔ ¬ c1.ptr = none) →
      (if c0.ptr = none then c1 else c0).ptr ≠ none := by
    intro h
    by_cases e : c0.ptr = none
    · rw [if_pos e]; exact h.1 e
    · rw [if_neg e]; exact e
  rw [hrem]
  refine ⟨?_, ?_, ?_, ?_⟩
  · obtain ⟨mem1, xn1, h1, h2, h3⟩ := erase_fixup_easy lt mem root fs x sz r d c0 c1 hr hnd hp
      (by
        rcases hcase with h | h | h
        · exact Or.inr (Or.inr h)
        · exact Or.inr (Or.inl (hsp h))
        · exact Or.inl (hroot h))
    exact ⟨mem1, xn1, h1, h2, realizes_well_formed h3 (remove_nodup fs x sz r d c0 c1 hnd)⟩
  · intro hrb
    refine remove_red_black fs x sz r d c0 c1 hone hrb ?_
    rcases hcase with h | h | h
    · exact Or.inr (Or.inr h)
    · exact Or.inr (Or.inl h)
    · exact Or.inl (hroot h)
  · intro hok hfit
    exact remove_sizes_ok fs x sz r d c0 c1 hone hok hfit
  · intro rev
    exact entries_remove fs x sz r d c0 c1 rev hone

theorem upd_swap_fwd {α : Type} (A B : List (Nat × α)) (n x : Nat) (dn dx : α) (hne : x ≠ n)
    (hnd : ((A ++ (n, dn) :: (x, dx) :: B).map Prod.fst).Nodup) :
    ((A ++ (n, dn) :: (x, dx) :: B).map (fun p => if p.1 = n then (p.1, dx) else p)).map
        (fun p => if p.1 = x then (p.1, dn) else p)
      = A ++ (n, dx) :: (x, dn) :: B := by
  simp only [List.map_append, List.map_cons, List.nodup_append, List.nodup_cons, List.mem_cons,
    not_or] at hnd
  obtain ⟨_, ⟨⟨_, hnB⟩, hxB, _⟩, hdis⟩ := hnd
  have hAn : n ∉ A.map Prod.fst := fun h => hdis h (List.mem_cons_self _ _)
  have hAx : x ∉ A.map Prod.fst := fun h =>
    hdis h (List.mem_cons_of_mem _ (List.mem_cons_self _ _))
  simp only [List.map_append, List.map_cons, map_upd_not_mem A n dx hAn,
    map_upd_not_mem A x dn hAx, map_upd_not_mem B n dx hnB, map_upd_not_mem B x dn hxB,
    if_true, if_neg hne, if_neg (Ne.symm hne)]

theorem upd_swap_bwd {α : Type} (A B : List (Nat × α)) (n x : Nat) (dn dx : α) (hne : x ≠ n)
    (hnd : ((A ++ (x, dx) :: (n, dn) :: B).map Prod.fst).Nodup) :
    ((A ++ (x, dx) :: (n, dn) :: B).map (fun p => if p.1 = n then (p.1, dx) else p)).map
        (fun p => if p.1 = x then (p.1, dn) else p)
      = A ++ (x, dn) :: (n, dx) :: B := by
  simp only [List.map_append, List.map_cons, List.nodup_append, List.nodup_cons, List.mem_cons,
    not_or] at hnd
  obtain ⟨_, ⟨⟨_, hxB⟩, hnB, _⟩, hdis⟩ := hnd
  have hAx : x ∉ A.map Prod.fst := fun h => hdis h (List.mem_cons_self _ _)
  have hAn : n ∉ A.map Prod.fst := fun h =>
    hdis h (List.mem_cons_of_mem _ (List.mem_cons_self _ _))
  simp only [List.map_append, List.map_cons, map_upd_not_mem A n dx hAn,
    map_upd_not_mem A x dn hAx, map_upd_not_mem B n dx hnB, map_upd_not_mem B x dn hxB,
    if_true, if_neg hne, if_neg (Ne.symm hne)]

/-- The payloads after an erasure that exchanges the payloads of `n` and of
the node `x` found by the successor search and then unlinks `x`: in either
reading, those before without the payload of `n`. -/
theorem erase_entries_swap {α : Type} (t t1 : Tree α) (n x sn sz : Nat) (rn r : Bool)
    (dn dx : α) (n0 n1 c0 c1 : Tree α) (hnd : t.addrs.Nodup) (hn : n ∈ t.addrs)
    (hsub : t.sub n = .node n n0 sn rn dn n1) (hfirst : n1.first = .node x c0 sz r dx c1)
    (hxn : x ≠ n)
    (hsplit : ∀ rev : Bool, ∃ (l1 l2 : List (Nat × α)) (e : α),
      ((t.setData n dx).setData x dn).entries rev = l1 ++ (x, e) :: l2 ∧
      t1.entries rev = l1 ++ l2) :
    ∀ rev : Bool, ∃ (l1 : List α) (e : α) (l2 : List α),
      (t.entries rev).map Prod.snd = l1 ++ e :: l2 ∧ (t1.entries rev).map Prod.snd = l1 ++ l2 := by
  intro rev
  obtain ⟨l1, l2, e, h1, h2⟩ := hsplit rev
  have hnd' : ((t.entries rev).map Prod.fst).Nodup := (entries_fst rev t).nodup_iff.2 hnd
  have hnd1 : ((((t.setData n dx).setData x dn).entries rev).map Prod.fst).Nodup := by
    refine (entries_fst rev _).nodup_iff.2 ?_
    rw [setData_addrs, setData_addrs]
    exact hnd
  have hfil : t1.entries rev
      = (((t.setData n dx).setData x dn).entries rev).filter (fun p => decide (p.1 ≠ x)) := by
    rw [h2, h1, filter_split l1 l2 x e (h1 ▸ hnd1)]
  rw [entries_setData, entries_setData] at hfil
  obtain ⟨fs, hfs⟩ := sub_plug_exists n t hn
  rw [hsub] at hfs
  obtain ⟨pre, post, hpl⟩ := entries_plug fs rev
  have hte : t.entries rev = pre ++ (Tree.node n n0 sn rn dn n1).entries rev ++ post := by
    rw [← (hpl _).1, ← hfs]
  obtain ⟨⟨rest, hf0⟩, ⟨rest', hf1⟩⟩ := first_entries n1 x sz r dx c0 c1 hfirst
  cases rev
  · have hA : t.entries false
        = (pre ++ n0.entries false) ++ (n, dn) :: (x, dx) :: (rest ++ post) := by
      rw [hte]
      simp [Tree.entries, hf0]
    rw [hA] at hfil hnd' ⊢
    rw [upd_swap_fwd _ _ n x dn dx hxn hnd'] at hfil
    have hnd2 : (((pre ++ n0.entries false ++ [(n, dx)]) ++ (x, dn) :: (rest ++ post)).map
        Prod.fst).Nodup := by
      simpa using hnd'
    have key : List.filter (fun p => decide (p.1 ≠ x))
        ((pre ++ n0.entries false) ++ (n, dx) :: (x, dn) :: (rest ++ post))
        = (pre ++ n0.entries false) ++ (n, dx) :: (rest ++ post) := by
      have := filter_split (pre ++ n0.entries false ++ [(n, dx)]) (rest ++ post) x dn hnd2
      simp only [List.append_assoc, List.singleton_append, List.cons_append,
        List.nil_append] at this ⊢
      exact this
    rw [key] at hfil
    refine ⟨(pre ++ n0.entries false).map Prod.snd, dn, dx :: (rest ++ post).map Prod.snd, ?_, ?_⟩
    · simp
    · rw [hfil]; simp
  · have hA : t.entries true
        = (pre ++ rest') ++ (x, dx) :: (n, dn) :: (n0.entries true ++ post) := by
      rw [hte]
      simp [Tree.entries, hf1]
    rw [hA] at hfil hnd' ⊢
    rw [upd_swap_bwd _ _ n x dn dx hxn hnd'] at hfil
    have hnd2 : (((pre ++ rest') ++ (x, dn) :: ((n, dx) :: (n0.entries true ++ post))).map
        Prod.fst).Nodup := by
      simpa using hnd'
    have := filter_split (pre ++ rest') ((n, dx) :: (n0.entries true ++ post)) x dn hnd2
    rw [this] at hfil
    refine ⟨(pre ++ rest').map Prod.snd ++ [dx], dn, (n0.entries true ++ post).map Prod.snd,
      ?_, ?_⟩
    · simp
    · rw [hfil]; simp

/-! ## The sizes after the unlinking, node by node -/

theorem mem_remove {α : Type} (x a : Nat) (t : Tree α) (h : a ∈ (t.remove x).addrs) :
    a ∈ t.addrs := by
  induction t with
  | nil => exact h
  | node b t0 s r d t1 ih0 ih1 =>
    simp only [Tree.remove] at h
    simp only [Tree.addrs, List.mem_cons, List.mem_append]
    by_cases e : b = x
    · rw [if_pos e, blacken_addrs] at h
      by_cases e0 : t0.ptr = none
      · rw [if_pos e0] at h; exact Or.inr (Or.inr h)
      · rw [if_neg e0] at h; exact Or.inr (Or.inl h)
    · rw [if_neg e] at h
      by_cases h0 : x ∈ t0.addrs
      · rw [if_pos h0] at h
        simp only [Tree.addrs, List.mem_cons, List.mem_append] at h
        rcases h with h | h | h
        · exact Or.inl h
        · exact Or.inr (Or.inl (ih0 h))
        · exact Or.inr (Or.inr h)
      · rw [if_neg h0] at h
        by_cases h1 : x ∈ t1.addrs
        · rw [if_pos h1] at h
          simp only [Tree.addrs, List.mem_cons, List.mem_append] at h
          rcases h with h | h | h
          · exact Or.inl h
          · exact Or.inr (Or.inl h)
          · exact Or.inr (Or.inr (ih1 h))
        · rw [if_neg h1] at h
          simpa [Tree.addrs] using h

theorem mem_sub {α : Type} (a b : Nat) (t : Tree α) (h : b ∈ (t.sub a).addrs) : b ∈ t.addrs := by
  induction t with
  | nil => exact h
  | node c t0 s r d t1 ih0 ih1 =>
    simp only [Tree.sub] at h
    by_cases e : c = a
    · rw [if_pos e] at h; exact h
    · rw [if_neg e] at h
      simp only [Tree.addrs, List.mem_cons, List.mem_append]
      by_cases h0 : a ∈ t0.addrs
      · rw [if_pos h0] at h; exact Or.inr (Or.inl (ih0 h))
      · rw [if_neg h0] at h; exact Or.inr (Or.inr (ih1 h))

theorem blacken_sub_sz {α : Type} (a : Nat) (c : Tree α) : (c.blacken.sub a).sz = (c.sub a).sz := by
  cases c with
  | nil => rfl
  | node b t0 s r d t1 =>
    simp only [Tree.blacken, Tree.sub]
    by_cases e : b = a
    · rw [if_pos e, if_pos e]; rfl
    · rw [if_neg e, if_neg e]

/-- After the unlinking of `x` the size of a node has gone down by exactly
one when `x` was below it, and is unchanged otherwise. -/
theorem remove_sub_sz {α : Type} (x : Nat) (t : Tree α) :
    t.addrs.Nodup → t.sizes_ok = true → t.sz < SIZE_MOD →
    (((t.sub x).child false).ptr = none ∨ ((t.sub x).child true).ptr = none) →
    ∀ a ∈ (t.remove x).addrs,
      ((t.remove x).sub a).sz + (if x ∈ (t.sub a).addrs then 1 else 0) = (t.sub a).sz := by
  induction t with
  | nil => intro _ _ _ _ a ha; cases ha
  | node b t0 s r d t1 ih0 ih1 =>
    intro hnd hok hfit hone a ha
    obtain ⟨es, ok0, ok1⟩ := (sizes_ok_node _ _ _ _ _ _).1 hok
    have hfit' : s < SIZE_MOD := hfit
    simp only [Tree.addrs, List.nodup_cons, List.mem_append, not_or, List.nodup_append] at hnd
    obtain ⟨⟨hb0, hb1⟩, hn0, hn1, hdis⟩ := hnd
    have hxsub : ∀ (u : Tree α) (c : Nat), x ∉ u.addrs → ¬ (x ∈ (u.sub c).addrs) :=
      fun u c h h' => h (mem_sub c x u h')
    by_cases e : b = x
    · -- the node itself is unlinked
      subst e
      have hone' : t0.ptr = none ∨ t1.ptr = none := by
        simp only [Tree.sub, if_true] at hone
        exact hone
      simp only [Tree.remove, if_true] at ha ⊢
      rw [blacken_addrs] at ha
      rw [blacken_sub_sz]
      by_cases e0 : t0.ptr = none
      · have := nil_of_ptr_none e0
        subst this
        rw [if_pos e0] at ha ⊢
        have hab : b ≠ a := fun h => hb1 (h ▸ ha)
        have hs : (Tree.node b Tree.nil s r d t1).sub a = t1.sub a := by
          simp only [Tree.sub]
          rw [if_neg hab, if_neg (by simp [Tree.addrs])]
        rw [hs, if_neg (hxsub t1 a hb1), Nat.add_zero]
      · rw [if_neg e0] at ha ⊢
        have hab : b ≠ a := fun h => hb0 (h ▸ ha)
        have hs : (Tree.node b t0 s r d t1).sub a = t0.sub a := by
          simp only [Tree.sub]
          rw [if_neg hab, if_pos ha]
        rw [hs, if_neg (hxsub t0 a hb0), Nat.add_zero]
    · by_cases h0 : x ∈ t0.addrs
      · -- `x` is below `childs[0]`
        have hrem : (Tree.node b t0 s r d t1).remove x
            = .node b (t0.remove x) (dec_size s) r d t1 := by
          simp only [Tree.remove]
          rw [if_neg e, if_pos h0]
        rw [hrem] at ha ⊢
        have hone0 : ((t0.sub x).child false).ptr = none ∨ ((t0.sub x).child true).ptr = none := by
          simp only [Tree.sub] at hone
          rw [if_neg e, if_pos h0] at hone
          exact hone
        by_cases eab : b = a
        · subst eab
          have h1 : (Tree.node b (t0.remove x) (dec_size s) r d t1).sub b
              = .node b (t0.remove x) (dec_size s) r d t1 := by
            simp only [Tree.sub, if_true]
          have h2 : (Tree.node b t0 s r d t1).sub b = .node b t0 s r d t1 := by
            simp only [Tree.sub, if_true]
          rw [h1, h2, if_pos (by simp [Tree.addrs, h0])]
          exact dec_size_pos s (by omega) hfit'
        · simp only [Tree.addrs, List.mem_cons, List.mem_append] at ha
          rcases ha with ha | ha | ha
          · exact absurd ha.symm eab
          · have h1 : (Tree.node b (t0.remove x) (dec_size s) r d t1).sub a
                = (t0.remove x).sub a := by
              simp only [Tree.sub]
              rw [if_neg eab, if_pos ha]
            have h2 : (Tree.node b t0 s r d t1).sub a = t0.sub a := by
              simp only [Tree.sub]
              rw [if_neg eab, if_pos (mem_remove x a t0 ha)]
            rw [h1, h2]
            exact ih0 hn0 ok0 (by omega) hone0 a ha
          · have hna : a ∉ t0.addrs := fun h => hdis h ha
            have h1 : (Tree.node b (t0.remove x) (dec_size s) r d t1).sub a = t1.sub a := by
              simp only [Tree.sub]
              rw [if_neg eab, if_neg (fun h => hna (mem_remove x a t0 h))]
            have h2 : (Tree.node b t0 s r d t1).sub a = t1.sub a := by
              simp only [Tree.sub]
              rw [if_neg eab, if_neg hna]
            rw [h1, h2, if_neg (hxsub t1 a (fun h => hdis h0 h)), Nat.add_zero]
      · by_cases h1 : x ∈ t1.addrs
        · -- `x` is below `childs[1]`
          have hrem : (Tree.node b t0 s r d t1).remove x
              = .node b t0 (dec_size s) r d (t1.remove x) := by
            simp only [Tree.remove]
            rw [if_neg e, if_neg h0, if_pos h1]
          rw [hrem] at ha ⊢
          have hone1 : ((t1.sub x).child false).ptr = none ∨
              ((t1.sub x).child true).ptr = none := by
            simp only [Tree.sub] at hone
            rw [if_neg e, if_neg h0] at hone
            exact hone
          by_cases eab : b = a
          · subst eab
            have k1 : (Tree.node b t0 (dec_size s) r d (t1.remove x)).sub b
                = .node b t0 (dec_size s) r d (t1.remove x) := by
              simp only [Tree.sub, if_true]
            have k2 : (Tree.node b t0 s r d t1).sub b = .node b t0 s r d t1 := by
              simp only [Tree.sub, if_true]
            rw [k1, k2, if_pos (by simp [Tree.addrs, h1])]
            exact dec_size_pos s (by omega) hfit'
          · simp only [Tree.addrs, List.mem_cons, List.mem_append] at ha
            rcases ha with ha | ha | ha
            · exact absurd ha.symm eab
            · have k1 : (Tree.node b t0 (dec_size s) r d (t1.remove x)).sub a = t0.sub a := by
                simp only [Tree.sub]
                rw [if_neg eab, if_pos ha]
              have k2 : (Tree.node b t0 s r d t1).sub a = t0.sub a := by
                simp only [Tree.sub]
                rw [if_neg eab, if_pos ha]
              rw [k1, k2, if_neg (hxsub t0 a h0), Nat.add_zero]
            · have hna : a ∉ t0.addrs := fun h => hdis h (mem_remove x a t1 ha)
              have k1 : (Tree.node b t0 (dec_size s) r d (t1.remove x)).sub a
                  = (t1.remove x).sub a := by
                simp only [Tree.sub]
                rw [if_neg eab, if_neg hna]
              have k2 : (Tree.node b t0 s r d t1).sub a = t1.sub a := by
                simp only [Tree.sub]
                rw [if_neg eab, if_neg hna]
              rw [k1, k2]
              exact ih1 hn1 ok1 (by omega) hone1 a ha
        · -- `x` is not in the picture
          have hx : x ∉ (Tree.node b t0 s r d t1).addrs := by
            simp only [Tree.addrs, List.mem_cons, List.mem_append, not_or]
            exact ⟨fun h => e h.symm, h0, h1⟩
          rw [remove_not_mem x _ hx, if_neg (hxsub _ a hx), Nat.add_zero]

/-- The last part of `rb_erase`: the node the fix-up hands back is freed. -/
theorem erase_assemble {α : Type} (lt : α → α → Bool) (mem mem1 : rb_mem α) (root : rb_node_p)
    (n x : Nat) (t1 : Tree α)
    (heq : rb_erase mem ⟨root, lt⟩ (some n) =
      (rb_erase_fixup mem1 ⟨root, lt⟩ (some x)).bind
        (fun r => (release r.1 r.2.2).bind (fun m => .ok (m, r.2.1))))
    (hcore : ∃ (m1 : rb_mem α) (xn1 : rb_node_s α),
      rb_erase_fixup mem1 ⟨root, lt⟩ (some x) = .ok (m1, ⟨t1.ptr, lt⟩, some x) ∧
      m1[x]? = some (some xn1) ∧ well_formed (m1.set x none) t1.ptr t1) :
    ∃ (mem2 : rb_mem α) (tree2 : rb_tree_s α),
      rb_erase mem ⟨root, lt⟩ (some n) = .ok (mem2, tree2) ∧ tree2.lt = lt ∧
      well_formed mem2 tree2.root t1 ∧ mem2[x]? = some none := by
  obtain ⟨m1, xn1, h1, h2, h3⟩ := hcore
  refine ⟨m1.set x none, ⟨t1.ptr, lt⟩, ?_, rfl, h3, ?_⟩
  · rw [heq, h1]
    simp only [Except.bind, release, h2]
  · rw [List.getElem?_set_self (lt_length_of_getElem? h2)]

/-- C14: on a well-formed tree that satisfies invariants 1 to 3 and the size
invariant (with sizes that fit a `size_t`), when the node that
`rb_erase(tree, n)` unlinks (`n`, or the node found by the successor search
when `n` has two children) is red, or has exactly one child, or is the root,
the call completes; the node is freed; the tree is well formed with the
picture `Tree.erase`, in which the only child of the unlinked node (if any)
stands in its place, coloured black, the sizes of the nodes above it are
decremented, and nothing else has moved (no rotation); invariants 1 to 3 and
the size invariant hold again, the size of every node above the unlinked one
has gone down by exactly one and no other size has changed, and each reading
of the payloads is the old one without one element, so it is non-decreasing
if it was. -/
theorem erase_without_rotation {α : Type} (lt : α → α → Bool) (mem : rb_mem α)
    (root : rb_node_p) (t : Tree α) (n : Nat)
    (hwf : well_formed mem root t) (hrb : t.red_black = true) (hsz : t.sizes_ok = true)
    (hfit : t.sz < SIZE_MOD) (hn : n ∈ t.addrs)
    (hcase : (t.unlinked n).red = true ∨
      (((t.unlinked n).child false).ptr = none ↔ ¬ ((t.unlinked n).child true).ptr = none) ∨
      (t.unlinked n).ptr = t.ptr) :
    ∃ (mem1 : rb_mem α) (tree1 : rb_tree_s α),
      rb_erase mem ⟨root, lt⟩ (some n) = .ok (mem1, tree1) ∧ tree1.lt = lt ∧
      well_formed mem1 tree1.root (t.erase n) ∧
      (∀ x, (t.unlinked n).ptr = some x → mem1[x]? = some none) ∧
      (t.erase n).red_black = true ∧ (t.erase n).sizes_ok = true ∧
      (t.erase n).sz + 1 = t.sz ∧
      (∀ x a, (t.unlinked n).ptr = some x → a ∈ (t.erase n).addrs →
        ((t.erase n).sub a).sz + (if x ∈ (t.sub a).addrs then 1 else 0) = (t.sub a).sz) ∧
      (∃ l1 e l2, t.toList0 = l1 ++ e :: l2 ∧ (t.erase n).toList0 = l1 ++ l2) ∧
      (∃ l1 e l2, t.toList1 = l1 ++ e :: l2 ∧ (t.erase n).toList1 = l1 ++ l2) ∧
      (nondecreasing lt t.toList0 → nondecreasing lt (t.erase n).toList0) ∧
      (nondecreasing lt t.toList1 → nondecreasing lt (t.erase n).toList1) := by
  obtain ⟨hptr, hr⟩ := well_formed_realizes hwf
  have hnd := hwf.2
  obtain ⟨x, c0, c1, n0, n1, sz, sn, r, rn, dx, dn, mem1, hun, hsub, hreal, heq⟩ :=
    erase_unfold lt mem root t n hwf hn
  obtain ⟨_, _, _, hone⟩ := unlinked_plug n t hn
  rw [hun] at hone hcase
  have hone' : c0.ptr = none ∨ c1.ptr = none := hone
  have hcase' : r = true ∨ (c0.ptr = none ↔ ¬ c1.ptr = none) ∨ some x = t.ptr := by
    rcases hcase with h | h | h
    · exact Or.inl h
    · exact Or.inr (Or.inl h)
    · exact Or.inr (Or.inr h)
  obtain ⟨hsx, hxm⟩ := unlinked_sub n x t hn hnd (by rw [hun]; rfl)
  rw [hun] at hsx
  -- what is left to do once the picture after the fix-up is known
  suffices H : ∃ t1 : Tree α, t.erase n = t1 ∧
      (∃ (m1 : rb_mem α) (xn1 : rb_node_s α),
        rb_erase_fixup mem1 ⟨root, lt⟩ (some x) = .ok (m1, ⟨t1.ptr, lt⟩, some x) ∧
        m1[x]? = some (some xn1) ∧ well_formed (m1.set x none) t1.ptr t1) ∧
      t1.red_black = true ∧ (t1.sizes_ok = true ∧ t1.sz + 1 = t.sz) ∧
      (∀ a ∈ t1.addrs,
        (t1.sub a).sz + (if x ∈ (t.sub a).addrs then 1 else 0) = (t.sub a).sz) ∧
      ∀ rev : Bool, ∃ (l1 : List α) (e : α) (l2 : List α),
        (t.entries rev).map Prod.snd = l1 ++ e :: l2 ∧
        (t1.entries rev).map Prod.snd = l1 ++ l2 by
    obtain ⟨t1, he, hcore, h1, ⟨h2, h3⟩, h5, h4⟩ := H
    obtain ⟨mem2, tree2, k1, k2, k3, k4⟩ := erase_assemble lt mem mem1 root n x t1 heq hcore
    rw [he]
    obtain ⟨a1, e0, a2, p0, q0⟩ := h4 false
    obtain ⟨b1, e1, b2, p1, q1⟩ := h4 true
    rw [entries_false] at p0 q0
    rw [entries_true] at p1 q1
    refine ⟨mem2, tree2, k1, k2, k3, ?_, h1, h2, h3, ?_, ⟨a1, e0, a2, p0, q0⟩,
      ⟨b1, e1, b2, p1, q1⟩, ?_, ?_⟩
    · intro y hy
      rw [hun] at hy
      simp only [ptr_node, Option.some.injEq] at hy
      rw [← hy]
      exact k4
    · intro y a hy ha
      rw [hun] at hy
      simp only [ptr_node, Option.some.injEq] at hy
      rw [← hy]
      exact h5 a ha
    · intro h
      rw [q0]
      rw [p0] at h
      exact nondecreasing_remove lt a1 a2 e0 h
    · intro h
      rw [q1]
      rw [p1] at h
      exact nondecreasing_remove lt b1 b2 e1 h
  by_cases e : x = n
  · -- the node itself is unlinked
    rw [if_pos e] at hreal
    obtain ⟨k1, k2, k3, k4⟩ := erase_core lt mem1 root t x sz r dx c0 c1 hreal hnd hptr hxm hsx
      hone' hcase'
    have he : t.erase n = t.remove x := by
      unfold Tree.erase
      rw [hsub, hun]
      simp only [if_pos e]
    refine ⟨t.remove x, he, k1, k2 hrb, k3 hsz hfit,
      remove_sub_sz x t hnd hsz hfit (by rw [hsx]; exact hone'), ?_⟩
    intro rev
    obtain ⟨l1, l2, p, q⟩ := k4 rev
    exact ⟨l1.map Prod.snd, dx, l2.map Prod.snd, by rw [p]; simp, by rw [q]; simp⟩
  · -- the payloads are exchanged and the successor is unlinked
    rw [if_neg e] at hreal
    have hfirst : n1.first = .node x c0 sz r dx c1 := by
      have h := hun
      unfold Tree.unlinked at h
      rw [hsub] at h
      by_cases hc : ((Tree.node n n0 sn rn dn n1).child false).ptr ≠ none ∧
          ((Tree.node n n0 sn rn dn n1).child true).ptr ≠ none
      · rw [if_pos hc] at h
        exact h
      · rw [if_neg hc] at h
        simp only [Tree.node.injEq] at h
        exact absurd h.1.symm e
    have hs' : ((t.setData n dx).setData x dn).sub x
        = .node x ((c0.setData n dx).setData x dn) sz r
            (if x = x then dn else if x = n then dx else dx)
            ((c1.setData n dx).setData x dn) := by
      rw [sub_setData, sub_setData, hsx]
      rfl
    obtain ⟨k1, k2, k3, k4⟩ := erase_core lt mem1 root ((t.setData n dx).setData x dn) x sz r
      _ _ _ hreal (by rw [setData_addrs, setData_addrs]; exact hnd)
      (by rw [setData_ptr, setData_ptr]; exact hptr)
      (by rw [setData_addrs, setData_addrs]; exact hxm) hs'
      (by rw [setData_ptr, setData_ptr, setData_ptr, setData_ptr]; exact hone')
      (by rw [setData_ptr, setData_ptr, setData_ptr, setData_ptr, setData_ptr, setData_ptr]
          exact hcase')
    have he : t.erase n = ((t.setData n dx).setData x dn).remove x := by
      unfold Tree.erase
      rw [hsub, hun]
      simp only [if_neg e]
    refine ⟨_, he, k1, k2 (by rw [setData_red_black, setData_red_black]; exact hrb), ?_, ?_, ?_⟩
    · have := k3 (by rw [setData_sizes_ok, setData_sizes_ok]; exact hsz)
        (by rw [setData_sz, setData_sz]; exact hfit)
      rw [setData_sz, setData_sz] at this
      exact this
    · intro a ha
      have := remove_sub_sz x ((t.setData n dx).setData x dn)
        (by rw [setData_addrs, setData_addrs]; exact hnd)
        (by rw [setData_sizes_ok, setData_sizes_ok]; exact hsz)
        (by rw [setData_sz, setData_sz]; exact hfit)
        (by
          rw [hs']
          show ((c0.setData n dx).setData x dn).ptr = none ∨
            ((c1.setData n dx).setData x dn).ptr = none
          rw [setData_ptr, setData_ptr, setData_ptr, setData_ptr]
          exact hone') a ha
      rw [sub_setData, sub_setData, setData_addrs, setData_addrs, setData_sz, setData_sz] at this
      exact this
    · refine erase_entries_swap t _ n x sn sz rn r dn dx n0 n1 c0 c1 hnd hn hsub hfirst e ?_
      intro rev
      obtain ⟨l1, l2, p, q⟩ := k4 rev
      exact ⟨l1, l2, _, p, q⟩

/-- C14 at the red-black tree of seven nodes, erasing the red node 30
(address 1): it has two children, the successor search finds the red leaf 25
(address 6), the payloads are exchanged and the leaf is unlinked; the call
completes and the tree is valid again. -/
theorem erase_without_rotation_witness :
    well_formed seven_nodes (some 0) seven_picture ∧ seven_picture.red_black = true ∧
      seven_picture.sizes_ok = true ∧ (seven_picture.unlinked 1).red = true ∧
      seven_picture.erase 1 =
        .node 0 (.node 2 .nil 1 false 60 .nil) 6 false 50
          (.node 1 (.node 4 .nil 1 false 40 .nil) 4 true 25
            (.node 3 .nil 2 false 20 (.node 5 .nil 1 true 10 .nil))) ∧
      ∃ (mem1 : rb_mem Int) (tree1 : rb_tree_s Int),
        rb_erase seven_nodes ⟨some 0, int_lt⟩ (some 1) = .ok (mem1, tree1) ∧
        well_formed mem1 tree1.root (seven_picture.erase 1) ∧
        (seven_picture.erase 1).red_black = true ∧ (seven_picture.erase 1).sizes_ok = true :=
  ⟨by decide, by decide, by decide, by decide, by decide,
    (erase_without_rotation int_lt seven_nodes (some 0) seven_picture 1 (by decide) (by decide)
      (by decide) (by decide) (by decide) (Or.inl (by decide))).elim
      (fun m h => h.elim (fun tr k => ⟨m, tr, k.1, k.2.2.1, k.2.2.2.2.1, k.2.2.2.2.2.1⟩))⟩

end RBTreeC
